import Mathlib

/-!
Formal model of the shortest-path graph-search module
(scipy/sparse/graph/graph_shortest_path.pyx): the dense Floyd-Warshall
algorithm, the sparse Dijkstra algorithm together with the Fibonacci-heap
priority queue it relies on, and the dispatching entry point
graph_shortest_path.

Modelling conventions:
- float64 values are modelled by exact rationals; the IEEE positive
  infinity sentinel np.inf used by the dense algorithm is modelled by an
  explicit constructor of the type FVal (the operations that occur -
  addition and order comparisons between non-NaN values - agree exactly
  with IEEE semantics under this model);
- C pointers into the node arena are modelled by Option indices into a
  list of nodes; NULL is none;
- the unbounded C loops (sibling walks, consolidation, the main search
  loop) are modelled with an explicit fuel argument that dominates the
  number of iterations the C code performs on the states that arise;
- unsigned int counters (rank) are modelled by natural numbers with
  truncated subtraction; the C code never decrements a zero rank on the
  states that arise, so no wrap-around is observable.
-/

/-- A float64 value as handled by the dense all-pairs algorithm: either a
finite rational or the positive-infinity sentinel np.inf. -/
inductive FVal where
  | fin (q : ℚ) : FVal
  | inf : FVal
deriving DecidableEq, Repr, Inhabited

/-- IEEE addition restricted to the values that occur (finite values and
positive infinity). -/
def FVal.add : FVal → FVal → FVal
  | .fin a, .fin b => .fin (a + b)
  | _, _ => .inf

/-- IEEE strict comparison restricted to the values that occur. -/
def FVal.blt : FVal → FVal → Bool
  | .fin a, .fin b => decide (a < b)
  | .fin _, .inf => true
  | .inf, _ => false

/-- IEEE non-strict comparison restricted to the values that occur. -/
def FVal.ble : FVal → FVal → Bool
  | .fin a, .fin b => decide (a ≤ b)
  | .fin _, .inf => true
  | .inf, .inf => true
  | .inf, .fin _ => false

/-- Entry (i, j) of a row-major flat N-by-N matrix, as the C code reads
graph[i, j]. -/
def getM (g : List FVal) (N i j : ℕ) : FVal := g.getD (i * N + j) (.fin 0)

/-- The line graph[np.where(graph == 0)] = infinity of _floyd_warshall:
every zero entry becomes the infinity sentinel. -/
def fwInit (g : List ℚ) : List FVal :=
  g.map (fun x => if x = 0 then FVal.inf else FVal.fin x)

/-- The line graph.flat[::N + 1] = 0 of _floyd_warshall: the N diagonal
entries are forced to zero. -/
def fwDiag (N : ℕ) (g : List FVal) : List FVal :=
  (List.range N).foldl (fun g k => g.set (k * (N + 1)) (FVal.fin 0)) g

/-- The symmetrization loop of _floyd_warshall (run only when directed is
false): for each pair i < j both entries become the smaller of the two. -/
def fwSym (N : ℕ) (g : List FVal) : List FVal :=
  (List.range N).foldl (fun g i =>
    (List.range' (i + 1) (N - (i + 1))).foldl (fun g j =>
      if FVal.ble (getM g N j i) (getM g N i j) then
        g.set (i * N + j) (getM g N j i)
      else
        g.set (j * N + i) (getM g N i j)) g) g

/-- The triple relaxation loop of _floyd_warshall, including the pruning
check that skips row i of round k when graph[i, k] is infinite. -/
def fwRelax (N : ℕ) (g : List FVal) : List FVal :=
  (List.range N).foldl (fun g k =>
    (List.range N).foldl (fun g i =>
      if getM g N i k = FVal.inf then g
      else
        (List.range N).foldl (fun g j =>
          if FVal.blt (FVal.add (getM g N i k) (getM g N k j)) (getM g N i j) then
            g.set (i * N + j) (FVal.add (getM g N i k) (getM g N k j))
          else g) g) g) g

/-- The line graph[np.where(np.isinf(graph))] = 0 of _floyd_warshall,
together with the extraction of the rational value of each (now finite)
entry. -/
def fwFin (g : List FVal) : List ℚ :=
  g.map (fun x => match x with | .fin q => q | .inf => 0)

/-- The cdef routine _floyd_warshall on a flat row-major N-by-N matrix. -/
def floydWarshallAlg (N : ℕ) (directed : Bool) (g : List ℚ) : List ℚ :=
  if directed then fwFin (fwRelax N (fwDiag N (fwInit g)))
  else fwFin (fwRelax N (fwSym N (fwDiag N (fwInit g))))

/-- A compressed-sparse-row matrix: the edges leaving row i occupy the
half-open slice of data and ind delimited by ptr at positions i and
i + 1. -/
structure CSR where
  n : ℕ
  data : List ℚ
  ind : List ℕ
  ptr : List ℕ
deriving DecidableEq, Repr

/-- Assemble a CSR matrix from its per-row (column, value) lists. -/
def buildCSR (N : ℕ) (rows : List (List (ℕ × ℚ))) : CSR :=
  { n := N
    data := (rows.flatten).map Prod.snd
    ind := (rows.flatten).map Prod.fst
    ptr := (List.range (N + 1)).map (fun i => ((rows.take i).map List.length).sum) }

/-- Conversion of a dense row-major matrix to CSR form, as performed by
csr_matrix(dist_matrix): exact zeros are dropped, rows are scanned in
order and columns in increasing order. -/
def denseToCSR (N : ℕ) (m : List ℚ) : CSR :=
  buildCSR N ((List.range N).map (fun i =>
    (List.range N).filterMap (fun j =>
      let v := m.getD (i * N + j) 0
      if v = 0 then none else some (j, v))))

/-- Conversion of a CSR matrix back to a dense row-major matrix, as
performed by toarray(). -/
def toDense (c : CSR) : List ℚ :=
  (List.range c.n).foldl (fun m i =>
    (List.range' (c.ptr.getD i 0) (c.ptr.getD (i + 1) 0 - c.ptr.getD i 0)).foldl
      (fun m idx => m.set (i * c.n + c.ind.getD idx 0) (c.data.getD idx 0)) m)
    (List.replicate (c.n * c.n) (0 : ℚ))

/-- The positions of the stored entries of row i of a CSR matrix. -/
def rowIdxList (c : CSR) (i : ℕ) : List ℕ :=
  List.range' (c.ptr.getD i 0) (c.ptr.getD (i + 1) 0 - c.ptr.getD i 0)

/-- Modelled from the spec: the transposed compressed-row view used by the
undirected sparse search (produced in the source by the external
scipy.sparse conversion dist_matrix.T.tocsr(), an out-of-scope
collaborator per the spec): row j of the transpose lists, in increasing
source-row order, one entry (i, w) for every stored entry w at position
(i, j) of the original matrix, i.e. the edges into vertex j. -/
def transposeCSR (c : CSR) : CSR :=
  buildCSR c.n ((List.range c.n).map (fun j =>
    (List.range c.n).foldr (fun i acc =>
      ((rowIdxList c i).filterMap (fun idx =>
        if c.ind.getD idx 0 = j then some (i, c.data.getD idx 0) else none)) ++ acc)
      []))

/-- One node of the Fibonacci heap (struct FibonacciNode); the four C
pointers are arena indices, NULL is none. -/
structure FNode where
  index : ℕ
  rank : ℕ
  state : ℕ
  val : ℚ
  parent : Option ℕ
  leftSib : Option ℕ
  rightSib : Option ℕ
  children : Option ℕ
deriving DecidableEq, Repr

instance : Inhabited FNode :=
  ⟨{ index := 0, rank := 0, state := 0, val := 0,
     parent := none, leftSib := none, rightSib := none, children := none }⟩

/-- The node arena together with the heap header (struct FibonacciHeap):
min_node plus the roots_by_rank bucket table, modelled as a total
function (the C table has 100 slots, more than any rank that can
arise). -/
structure HState where
  nodes : List FNode
  minN : Option ℕ
  buckets : ℕ → Option ℕ

/-- Read node i of the arena. -/
def getN (s : HState) (i : ℕ) : FNode := s.nodes.getD i default

/-- Update node i of the arena in place. -/
def putN (s : HState) (i : ℕ) (f : FNode → FNode) : HState :=
  { s with nodes := s.nodes.set i (f (getN s i)) }

/-- The cdef routine initialize_node. -/
def initNode (s : HState) (i : ℕ) (v : ℚ) : HState :=
  putN s i (fun _ =>
    { index := i, rank := 0, state := 0, val := v,
      parent := none, leftSib := none, rightSib := none, children := none })

/-- The cdef routine rightmost_sibling, with fuel dominating the length of
any sibling chain that arises. -/
def rightmostSib (s : HState) : ℕ → ℕ → ℕ
  | 0, i => i
  | f + 1, i =>
    match (getN s i).rightSib with
    | none => i
    | some j => rightmostSib s f j

/-- The cdef routine leftmost_sibling. -/
def leftmostSib (s : HState) : ℕ → ℕ → ℕ
  | 0, i => i
  | f + 1, i =>
    match (getN s i).leftSib with
    | none => i
    | some j => leftmostSib s f j

/-- The cdef routine add_sibling: append newSib at the right end of the
sibling chain through i, and give it i's parent (incrementing that
parent's rank when it exists). -/
def addSibling (s : HState) (i newSib : ℕ) : HState :=
  let t := rightmostSib s s.nodes.length i
  let s := putN s t (fun nd => { nd with rightSib := some newSib })
  let s := putN s newSib (fun nd =>
    { nd with leftSib := some t, rightSib := none, parent := (getN s i).parent })
  match (getN s newSib).parent with
  | some p => putN s p (fun nd => { nd with rank := nd.rank + 1 })
  | none => s

/-- The cdef routine add_child: make c a child of i. -/
def addChild (s : HState) (i c : ℕ) : HState :=
  let s := putN s c (fun nd => { nd with parent := some i })
  match (getN s i).children with
  | some k => addSibling s k c
  | none =>
    let s := putN s i (fun nd => { nd with children := some c, rank := 1 })
    putN s c (fun nd => { nd with rightSib := none, leftSib := none })

/-- The cdef routine remove: unlink node i from its sibling chain and its
parent (decrementing the parent's rank and redirecting its children
pointer). -/
def removeN (s : HState) (i : ℕ) : HState :=
  let s :=
    match (getN s i).parent with
    | some p =>
      let s := putN s p (fun nd => { nd with rank := nd.rank - 1 })
      match (getN s i).leftSib with
      | some l => putN s p (fun nd => { nd with children := some l })
      | none =>
        match (getN s i).rightSib with
        | some r => putN s p (fun nd => { nd with children := some r })
        | none => putN s p (fun nd => { nd with children := none })
    | none => s
  let s :=
    match (getN s i).leftSib with
    | some l => putN s l (fun nd => { nd with rightSib := (getN s i).rightSib })
    | none => s
  let s :=
    match (getN s i).rightSib with
    | some r => putN s r (fun nd => { nd with leftSib := (getN s i).leftSib })
    | none => s
  putN s i (fun nd => { nd with leftSib := none, rightSib := none, parent := none })

/-- The cdef routine insert_node: add node i as a root; it becomes the new
minimum when the heap was empty or its value is strictly smaller than the
current minimum's. -/
def insertNode (s : HState) (i : ℕ) : HState :=
  match s.minN with
  | some m =>
    let s := addSibling s m i
    if (getN s i).val < (getN s m).val then { s with minN := some i } else s
  | none => { s with minN := some i }

/-- The cdef routine decrease_val: lower node i's value; if i has a parent
whose value is at least the new value, cut i and reinsert it as a root. -/
def decreaseVal (s : HState) (i : ℕ) (newval : ℚ) : HState :=
  let s := putN s i (fun nd => { nd with val := newval })
  match (getN s i).parent with
  | some p =>
    if newval ≤ (getN s p).val then insertNode (removeN s i) i else s
  | none => s

/-- Overwrite one slot of the roots_by_rank bucket table. -/
def setBucket (s : HState) (r : ℕ) (v : Option ℕ) : HState :=
  { s with buckets := fun x => if x = r then v else s.buckets x }

/-- Reset the whole roots_by_rank bucket table, as the loop at the start of
the consolidation phase of remove_min does. -/
def clearBuckets (s : HState) : HState := { s with buckets := fun _ => none }

/-- The cdef routine link: drop node i into the bucket of its rank; on a
collision merge the two roots (the incoming node becomes the parent
exactly when its value is strictly smaller or it is heap.min_node) and
recurse at the next rank.  The fuel dominates the 100-slot bucket
table. -/
def fibLink (s : HState) (i : ℕ) : ℕ → HState
  | 0 => s
  | f + 1 =>
    match s.buckets (getN s i).rank with
    | none => setBucket s (getN s i).rank (some i)
    | some l =>
      let s := setBucket s (getN s i).rank none
      if (getN s i).val < (getN s l).val ∨ s.minN = some i then
        fibLink (addChild (removeN s l) i l) i f
      else
        fibLink (addChild (removeN s i) l i) l f

/-- The child-promotion loop of remove_min: walk the children chain of m
starting at t, cutting each child and appending it to the root chain. -/
def promoteKids (s : HState) (m : ℕ) (t : ℕ) : ℕ → HState
  | 0 => s
  | f + 1 =>
    let tr := (getN s t).rightSib
    let s := addSibling (removeN s t) m t
    match tr with
    | none => s
    | some t2 => promoteKids s m t2 f

/-- The consolidation walk of remove_min: traverse the root chain from t,
tracking the true minimum seen and linking every root into the bucket
table. -/
def consolidate (s : HState) (t : ℕ) : ℕ → HState
  | 0 => s
  | f + 1 =>
    let s :=
      match s.minN with
      | some mm => if (getN s t).val < (getN s mm).val then { s with minN := some t } else s
      | none => s
    let tr := (getN s t).rightSib
    let s := fibLink s t 100
    match tr with
    | none => s
    | some t2 => consolidate s t2 f

/-- The cdef routine remove_min: extract heap.min_node (none when the heap
is empty, a precondition violation in the C code): promote its children to
roots, pick a provisional new minimum, unlink the old minimum, then
consolidate the root list. -/
def removeMin (s : HState) : Option (HState × ℕ) :=
  match s.minN with
  | none => none
  | some m =>
    let s :=
      match (getN s m).children with
      | some c =>
        let t := leftmostSib s s.nodes.length c
        let s := promoteKids s m t s.nodes.length
        putN s m (fun nd => { nd with children := none })
      | none => s
    let t0 := leftmostSib s s.nodes.length m
    match (if t0 = m then (getN s m).rightSib else some t0) with
    | none => some ({ s with minN := none }, m)
    | some t =>
      let s := removeN s m
      let s := { s with minN := some t }
      let s := clearBuckets s
      let s := consolidate s t s.nodes.length
      some (s, m)

/-- One neighbour relaxation of the Dijkstra search: skip u when scanned;
insert it at tentative value val v + d when not yet in the heap; decrease
its value when the new candidate is strictly smaller. -/
def relaxOne (s : HState) (v u : ℕ) (d : ℚ) : HState :=
  if (getN s u).state ≠ 2 then
    if (getN s u).state = 0 then
      let s := putN s u (fun nd => { nd with state := 1, val := (getN s v).val + d })
      insertNode s u
    else if (getN s u).val > (getN s v).val + d then
      decreaseVal s u ((getN s v).val + d)
    else s
  else s

/-- Relax every stored edge leaving vertex v.index of the CSR matrix c. -/
def relaxRow (c : CSR) (s : HState) (v : ℕ) : HState :=
  (rowIdxList c (getN s v).index).foldl
    (fun s idx => relaxOne s v (c.ind.getD idx 0) (c.data.getD idx 0)) s

/-- The main loop shared by _dijkstra_directed_one_row and
_dijkstra_one_row: while the heap is non-empty, extract the minimum, mark
it scanned, relax its outgoing edges (and, for the undirected variant,
the transposed edges), then record its value in the result row.  The
result matrix is a flat row-major Nind-by-N list and the extracted
vertex's value lands at flat position src * N + index. -/
def dijkLoop (c cT : CSR) (useT : Bool) (src N : ℕ) :
    ℕ → HState → List ℚ → HState × List ℚ
  | 0, s, row => (s, row)
  | f + 1, s, row =>
    match removeMin s with
    | none => (s, row)
    | some (s, v) =>
      let s := putN s v (fun nd => { nd with state := 2 })
      let s := relaxRow c s v
      let s := if useT then relaxRow cT s v else s
      let row := row.set (src * N + (getN s v).index) (getN s v).val
      dijkLoop c cT useT src N f s row

/-- The cdef routine _dijkstra_directed_one_row: re-initialize every node,
empty the heap, insert the source and run the search loop. -/
def dirOneRow (c : CSR) (src N : ℕ) (s : HState) (row : List ℚ) :
    HState × List ℚ :=
  let s := (List.range N).foldl (fun s i => initNode s i 0) s
  let s := { s with minN := none }
  let s := insertNode s src
  dijkLoop c c false src N (N + 1) s row

/-- The cdef routine _dijkstra_one_row (undirected variant): the
abbreviated per-call reset touches only each node's state and value, then
the source is inserted and the search loop runs over both the matrix and
its transpose. -/
def undirOneRow (c cT : CSR) (src N : ℕ) (s : HState) (row : List ℚ) :
    HState × List ℚ :=
  let s := (List.range N).foldl
    (fun s i => putN s i (fun nd => { nd with state := 0, val := 0 })) s
  let s := insertNode s src
  dijkLoop c cT true src N (N + 1) s row

/-- The cdef routine _dijkstra with compute_ind = arange(N): allocate and
initialize the shared node arena, then run one single-source search per
vertex, writing into one shared flat N-by-N result matrix that starts as
np.zeros. -/
def dijkstraCore (c : CSR) (directed : Bool) : List ℚ :=
  let N := c.n
  let s0 : HState :=
    { nodes := List.replicate N default, minN := none, buckets := fun _ => none }
  let s0 := (List.range N).foldl (fun s i => initNode s i 0) s0
  let row0 := List.replicate (N * N) (0 : ℚ)
  if directed then
    ((List.range N).foldl (fun (p : HState × List ℚ) i => dirOneRow c i N p.1 p.2)
      (s0, row0)).2
  else
    let cT := transposeCSR c
    ((List.range N).foldl (fun (p : HState × List ℚ) i => undirOneRow c cT i N p.1 p.2)
      (s0, row0)).2

/-- The def dijkstra entry point on an already-CSR input with indices =
None: reject any negative stored weight before any search state is
created, otherwise run the full all-sources search. -/
def dijkstraModel (c : CSR) (directed : Bool) : Except String (List ℚ) :=
  if c.data.any (fun x => decide (x < 0)) then
    Except.error "Negative distances are not supported"
  else
    Except.ok (dijkstraCore c directed)

/-- The method-resolution step of graph_shortest_path (lines choosing
between Dijkstra and Floyd-Warshall): under method auto, pick D exactly
when Nk < N * N / 4, where the division is the floor division the
Python-2-era Cython source performs on these integer operands. -/
def resolveMethod (N Nk : ℕ) (method : String) : String :=
  if method = "auto" then (if Nk < N * N / 4 then "D" else "FW") else method

/-- The def graph_shortest_path entry point on a dense input: convert to
CSR, resolve method auto by edge density, then dispatch to
floyd_warshall, to dijkstra, or to the unrecognized-method error. -/
def graphShortestPath (N : ℕ) (m : List ℚ) (directed : Bool) (method : String) :
    Except String (List ℚ) :=
  let c := denseToCSR N m
  let meth := resolveMethod N c.data.length method
  if meth = "FW" then Except.ok (floydWarshallAlg N directed (toDense c))
  else if meth = "D" then dijkstraModel c directed
  else Except.error ("unrecognized method " ++ method)

/-- The storage layout of the caller's dist_matrix argument, as far as the
copy-or-alias decision of floyd_warshall observes it. -/
inductive MatKind where
  | spmatrix
  | ndarray (cOrder : Bool) (f64 : Bool)
  | pylist
deriving DecidableEq, Repr

/-- Modelled from the spec: whether np.asarray(dist_matrix, dtype=float64,
order=C) returns the caller's own buffer rather than a fresh copy (numpy
is an external collaborator per the spec); it aliases exactly when the
argument is already a dense C-ordered float64 array.  np.array and
toarray() always produce a fresh buffer. -/
def asarrayAliases : MatKind → Bool
  | .ndarray true true => true
  | _ => false

/-- The copy-or-alias decision of the def floyd_warshall wrapper: a sparse
input is densified into a fresh buffer; a dense input aliases the caller's
buffer exactly when overwrite is set and np.asarray does not copy. -/
def fwSharesBuffer (kind : MatKind) (overwrite : Bool) : Bool :=
  match kind with
  | .spmatrix => false
  | k => if overwrite then asarrayAliases k else false

/-- The def floyd_warshall wrapper observed at the value level: it returns
the computed matrix together with the contents of the caller's buffer
after the call (mutated in place exactly when the buffer was aliased). -/
def floydWarshallWrap (N : ℕ) (directed overwrite : Bool) (kind : MatKind)
    (m : List ℚ) : (List ℚ) × (List ℚ) :=
  let result := floydWarshallAlg N directed m
  (result, if fwSharesBuffer kind overwrite then result else m)

/-- One operation of the standalone heap test harness. -/
inductive HeapOp where
  | ins (i : ℕ) (v : ℚ)
  | dec (i : ℕ) (v : ℚ)
  | ext
deriving DecidableEq, Repr

/-- The initial harness state: K freshly initialized nodes and an empty
heap. -/
def hInit (K : ℕ) : HState :=
  { nodes := (List.range K).map (fun i =>
      { index := i, rank := 0, state := 0, val := 0,
        parent := none, leftSib := none, rightSib := none, children := none })
    minN := none
    buckets := fun _ => none }

/-- Run one harness operation, recording the value of each extracted
node. -/
def runOp (p : HState × List ℚ) (op : HeapOp) : HState × List ℚ :=
  match op with
  | .ins i v => (insertNode (initNode p.1 i v) i, p.2)
  | .dec i v => (decreaseVal p.1 i v, p.2)
  | .ext =>
    match removeMin p.1 with
    | none => p
    | some (s, v) => (s, p.2 ++ [(getN s v).val])

/-- Run a whole harness operation sequence on K fresh nodes. -/
def runOps (K : ℕ) (ops : List HeapOp) : HState × List ℚ :=
  ops.foldl runOp (hInit K, [])

/-- Extract the matrix of a successful run (the empty list on error). -/
def exOk (e : Except String (List ℚ)) : List ℚ :=
  match e with | .ok r => r | .error _ => []

/-- The spec-side property that a sequence of values is non-decreasing. -/
def nondecreasing : List ℚ → Bool
  | [] => true
  | [_] => true
  | a :: b :: t => decide (a ≤ b) && nondecreasing (b :: t)

/-- A 7-vertex directed graph with non-negative weights, flat row-major:
edges 0 to 1..5 with weights 10..14, 0 to 6 with weight 2, 6 to 5 with
weight 1, 5 to 1 with weight 1.  The shortest distance from 0 to 1 is 4
(via 6 and 5). -/
def gDir7 : List ℚ :=
  [0,10,11,12,13,14,2,
   0,0,0,0,0,0,0,
   0,0,0,0,0,0,0,
   0,0,0,0,0,0,0,
   0,0,0,0,0,0,0,
   0,1,0,0,0,0,0,
   0,0,0,0,0,1,0]

/-- The symmetric closure of gDir7: the same seven-vertex graph with every
edge present in both directions (a valid undirected-mode input). -/
def gUnd7 : List ℚ :=
  [0,10,11,12,13,14,2,
   10,0,0,0,0,1,0,
   11,0,0,0,0,0,0,
   12,0,0,0,0,0,0,
   13,0,0,0,0,0,0,
   14,1,0,0,0,0,1,
   2,0,0,0,0,1,0]

/-- A heap-harness sequence obeying every stated precondition: two inserts,
one decrease-value (5 lowered to 1 on an in-heap node), then two
extract-min calls. -/
def heapSeqDecrease : List HeapOp :=
  [.ins 0 2, .ins 1 5, .dec 1 1, .ext, .ext]

/-- A heap-harness sequence whose final extract-min consolidates two
equal-rank equal-value roots (nodes 3 and 4, both value 5, rank 0) while
neither of them is the extracted minimum (node 5, value 1) nor the
provisional minimum (node 1, value 2). -/
def heapSeqTie : List HeapOp :=
  [.ins 0 0, .ins 1 2, .ins 2 3, .ext, .ins 3 5, .ins 4 5, .ins 5 1, .ext]

/-- A two-node consolidation state: node 0 (value 5, rank 0) already
occupies bucket 0 and node 1 (value 5, rank 0) is the incoming root; the
provisional minimum is unset, so the tie is between two non-minimum
roots. -/
def linkTieState : HState :=
  { nodes :=
      [ { index := 0, rank := 0, state := 1, val := 5,
          parent := none, leftSib := none, rightSib := none, children := none },
        { index := 1, rank := 0, state := 1, val := 5,
          parent := none, leftSib := some 0, rightSib := none, children := none } ]
    minN := none
    buckets := fun r => if r = 0 then some 0 else none }

/-- A node that is a well-formed root for the purposes of consolidation:
in bounds, parentless, and its children pointer (when set) designates an
in-bounds node that points back to it. -/
def rootOK (s : HState) (n : ℕ) : Prop :=
  n < s.nodes.length ∧ (getN s n).parent = none ∧
  (∀ c, (getN s n).children = some c → (getN s c).parent = some n ∧ c < s.nodes.length)

/-- The consolidation-phase invariant of the roots_by_rank table: every
occupant is an in-bounds parentless root whose rank matches its bucket
index and whose children pointer (when set) points back consistently. -/
def bucketsOK (s : HState) : Prop :=
  ∀ r o, s.buckets r = some o → (getN s o).rank = r ∧ rootOK s o

/-- A stored (nonzero) entry of a flat dense matrix, i.e. an edge of the
graph it encodes. -/
def dEdge (m : List ℚ) (N a b : ℕ) : Prop := m.getD (a * N + b) 0 ≠ 0

/-- One traversal step on a dense input: a stored edge, or (in undirected
mode) a stored edge in the opposite direction. -/
def dStep (m : List ℚ) (N : ℕ) (directed : Bool) (a b : ℕ) : Prop :=
  dEdge m N a b ∨ (directed = false ∧ dEdge m N b a)

/-- Reachability on a dense input, in the mode the algorithm is run in. -/
def DReach (m : List ℚ) (N : ℕ) (directed : Bool) (a b : ℕ) : Prop :=
  Relation.ReflTransGen (dStep m N directed) a b

/-- Well-formedness of a CSR matrix: a proper row-pointer array delimiting
monotone in-range slices, parallel data arrays, and in-range column
indices. -/
def CSRWF (c : CSR) : Prop :=
  c.ptr.length = c.n + 1 ∧
  c.ptr.getD 0 0 = 0 ∧
  (∀ i, i < c.n → c.ptr.getD i 0 ≤ c.ptr.getD (i + 1) 0) ∧
  c.ptr.getD c.n 0 = c.ind.length ∧
  c.data.length = c.ind.length ∧
  (∀ k, k < c.ind.length → c.ind.getD k 0 < c.n)

/-- A stored edge (a, b) of a CSR matrix. -/
def cEdge (c : CSR) (a b : ℕ) : Prop :=
  ∃ idx ∈ rowIdxList c a, c.ind.getD idx 0 = b

/-- One traversal step of the sparse search: an outgoing stored edge, or in
undirected mode also an incoming one. -/
def cStep (c : CSR) (directed : Bool) (a b : ℕ) : Prop :=
  cEdge c a b ∨ (directed = false ∧ cEdge c b a)

/-- Reachability on a CSR input in the mode the search is run in. -/
def CReach (c : CSR) (directed : Bool) (a b : ℕ) : Prop :=
  Relation.ReflTransGen (cStep c directed) a b

/-- The doubly-linked sibling chain discipline: the listed nodes are linked
left to right, the first one pointing back at prev. -/
def chainFrom (s : HState) : Option ℕ → List ℕ → Prop
  | _, [] => True
  | prev, a :: rest =>
      (getN s a).leftSib = prev ∧ (getN s a).rightSib = rest.head? ∧
      chainFrom s (some a) rest

/-- A node whose link fields and rank are exactly as initialize_node leaves
them. -/
def cleanNode (nd : FNode) : Prop :=
  nd.parent = none ∧ nd.leftSib = none ∧ nd.rightSib = none ∧
  nd.children = none ∧ nd.rank = 0

/-- The abstract shape of the heap: the root list in sibling order, each
member's child list in sibling order, and the list of all heap members. -/
structure HLayout where
  roots : List ℕ
  kids : ℕ → List ℕ
  mem : List ℕ

/-- Reachability downwards from the root list through child lists. -/
inductive KReach (roots : List ℕ) (kids : ℕ → List ℕ) : ℕ → Prop where
  | root (i : ℕ) (h : i ∈ roots) : KReach roots kids i
  | child (p c : ℕ) (hp : KReach roots kids p) (hc : c ∈ kids p) :
      KReach roots kids c

/-- The arena realizes the abstract layout: chains are laid out through the
sibling pointers, parent pointers match the child lists, ranks count
children, the children pointer designates a child, min_node is a root
(none exactly when the heap is empty), every tree hangs from the root
list, and every non-member node is clean. -/
structure Realize (s : HState) (L : HLayout) : Prop where
  rootsND : L.roots.Nodup
  kidsND : ∀ p, (L.kids p).Nodup
  memND : L.mem.Nodup
  memLT : ∀ i ∈ L.mem, i < s.nodes.length
  rootsMem : ∀ i ∈ L.roots, i ∈ L.mem
  kidsMem : ∀ p, ∀ c ∈ L.kids p, c ∈ L.mem
  kidsNil : ∀ p, p ∉ L.mem → L.kids p = []
  rootsPar : ∀ i ∈ L.roots, (getN s i).parent = none
  kidsPar : ∀ p, ∀ c ∈ L.kids p, (getN s c).parent = some p
  cover : ∀ i ∈ L.mem, i ∈ L.roots ∨ ∃ p, i ∈ L.kids p
  rootsChain : chainFrom s none L.roots
  kidsChain : ∀ p ∈ L.mem, chainFrom s none (L.kids p)
  rankEq : ∀ p ∈ L.mem, (getN s p).rank = (L.kids p).length
  chPtr : ∀ p ∈ L.mem, ((getN s p).children = none ↔ L.kids p = []) ∧
    (∀ c, (getN s p).children = some c → c ∈ L.kids p)
  acyc : ∀ i ∈ L.mem, KReach L.roots L.kids i
  minOK : match s.minN with | none => L.roots = [] | some m => m ∈ L.roots
  cleanOut : ∀ i, i < s.nodes.length → i ∉ L.mem → cleanNode (getN s i)

/-- The number of fresh (state-0) nodes among the first N arena slots, the
second component of the termination measure of the single-source search
loop. -/
def zcount (s : HState) (N : ℕ) : ℕ :=
  ((Finset.range N).filter (fun i => (getN s i).state = 0)).card

/-- The occupants of the roots_by_rank table all lie in the visited region
Q of the root list and sit in the bucket matching their rank. -/
def BInv (s : HState) (Q : List ℕ) : Prop :=
  ∀ r o, s.buckets r = some o → o ∈ Q ∧ (getN s o).rank = r

/-- The state/heap-membership dictionary of the search loop: a node is in
state 1 (IN_HEAP) exactly when it is a heap member. -/
def stIff (s : HState) (N : ℕ) (mem : List ℕ) : Prop :=
  ∀ i, i < N → ((getN s i).state = 1 ↔ i ∈ mem)

/-- The arena shape right after a row's initialization: the source alone
is in the heap and every node is fresh (the source included, since
insert_node does not touch the state field). -/
def startShape (s : HState) (N src : ℕ) (mem : List ℕ) : Prop :=
  mem = [src] ∧ ∀ i, i < N → (getN s i).state = 0

/-- The invariant of the single-source search loop, minus the state
dictionary: the arena realizes a layout, lengths and indices are sane,
states are in range, and every heap member is reachable from the
source. -/
structure SInv (c : CSR) (d : Bool) (src N : ℕ) (s : HState) (L : HLayout) : Prop where
  real : Realize s L
  len : s.nodes.length = N
  idx : ∀ i, i < N → (getN s i).index = i
  stR : ∀ i, i < N → (getN s i).state ≤ 2
  reach : ∀ i ∈ L.mem, CReach c d src i

/-- Edge soundness of a relaxation matrix cX used while searching c: every
stored column index is in range and every stored edge of cX is a
legitimate traversal step of the mode-d search on c. -/
def edgeOK (cX c : CSR) (d : Bool) (N : ℕ) : Prop :=
  ∀ v, v < N → ∀ k ∈ rowIdxList cX v,
    cX.ind.getD k 0 < N ∧ cStep c d v (cX.ind.getD k 0)

/-- Every cell of the shared flat result matrix whose column is unreached
from its row's source is still zero. -/
def zeroPres (c : CSR) (d : Bool) (N : ℕ) (row : List ℚ) : Prop :=
  ∀ i j, i < N → j < N → ¬ CReach c d i j → row.getD (i * N + j) 0 = 0

/-- C1: on the directed non-negative graph gDir7 the dense all-pairs
algorithm computes the true shortest distance 4 from vertex 0 to vertex 1,
but the sparse algorithm run for every source returns 10 for the same
entry, so the two N-by-N result matrices are not identical (the gap 10
versus 4 is far beyond any floating-point tolerance).  The sparse result
is wrong because decrease_val fails to update heap.min_node when the
decreased node is a root, so remove_min later extracts a non-minimal node
whose tentative distance is not yet final. -/
theorem C1_dense_sparse_disagree :
    (floydWarshallAlg 7 true gDir7).getD 1 0 = 4 ∧
    (exOk (dijkstraModel (denseToCSR 7 gDir7) true)).getD 1 0 = 10 ∧
    floydWarshallAlg 7 true gDir7 ≠ exOk (dijkstraModel (denseToCSR 7 gDir7) true) := by
  decide!

/-- C2: the harness sequence heapSeqDecrease (insert value 2, insert value
5, decrease the in-heap value 5 to 1, then extract twice) satisfies every
stated precondition, yet the two successive extract-min calls return
values 2 and then 1 - a strictly decreasing sequence.  decrease_val on a
root node never updates heap.min_node, so the second extraction does not
return the minimum. -/
theorem C2_extract_order_violated :
    (runOps 2 heapSeqDecrease).2 = [2, 1] ∧
    nondecreasing (runOps 2 heapSeqDecrease).2 = false := by
  decide!

/-- C4 counterexample: in the final extract-min of heapSeqTie, the
consolidation walk merges the bucket occupant node 3 (value 5, rank 0)
with the incoming node 4 (value 5, rank 0).  The extracted former minimum
was node 5 and the provisional minimum during consolidation is node 1, so
neither party is the heap's former minimum - yet the incoming node 4
becomes the child of the occupant node 3, contradicting the claimed tie
rule that the incoming node is made the parent. -/
theorem C4_tie_occupant_wins :
    (getN (runOps 6 heapSeqTie).1 4).parent = some 3 ∧
    (getN (runOps 6 heapSeqTie).1 3).children = some 4 ∧
    (getN (runOps 6 heapSeqTie).1 3).val = 5 ∧
    (getN (runOps 6 heapSeqTie).1 4).val = 5 ∧
    (getN (runOps 6 heapSeqTie).1 3).rank = 1 ∧
    (runOps 6 heapSeqTie).1.minN = some 1 ∧
    (runOps 6 heapSeqTie).2 = [0, 1] := by
  decide!

/-- C3: any CSR input whose stored value array contains a negative entry
makes the sparse entry point return the negative-weight input error before
any search state is built, producing no partial result. -/
theorem C3_negative_weight_rejected (c : CSR) (directed : Bool)
    (h : ∃ x ∈ c.data, x < 0) :
    dijkstraModel c directed = Except.error "Negative distances are not supported" := by
  have hany : c.data.any (fun x => decide (x < 0)) = true := by
    rw [List.any_eq_true]
    obtain ⟨x, hx, hneg⟩ := h
    exact ⟨x, hx, by simpa using hneg⟩
  simp [dijkstraModel, hany]

/-- Witness for C3 at a concrete two-vertex graph with one negative
edge. -/
theorem C3_negative_weight_rejected_witness :
    dijkstraModel { n := 2, data := [-1], ind := [1], ptr := [0, 1, 1] } true =
      Except.error "Negative distances are not supported" :=
  C3_negative_weight_rejected _ true ⟨-1, by simp, by norm_num⟩

/-- C5 counterexample: at N = 3 with 2 stored edges the claimed condition
holds (2 is below N squared over 4 = 2.25), yet the dispatcher resolves
method auto to the dense algorithm, because the Python-2-era source
computes N * N / 4 with integer floor division (9 / 4 = 2) and 2 < 2 is
false. -/
theorem C5_auto_boundary :
    resolveMethod 3 2 "auto" = "FW" ∧ (2 : ℚ) < 3 * 3 / 4 := by
  constructor
  · decide!
  · norm_num

/-- C5 as amended: under method auto the dispatcher selects the sparse
strategy exactly when the stored edge count is strictly below the integer
floor of N squared over 4, and the dense strategy otherwise. -/
theorem C5_auto_threshold (N Nk : ℕ) :
    (resolveMethod N Nk "auto" = "D" ↔ Nk < N * N / 4) ∧
    (resolveMethod N Nk "auto" = "FW" ↔ ¬ Nk < N * N / 4) := by
  by_cases h : Nk < N * N / 4 <;> simp [resolveMethod, h]

/-- C6 counterexample: the spec selector names dense and sparse are not
accepted by the entry point - it raises the unrecognized-method
configuration error for both (the accepted selectors are auto, FW and
D). -/
theorem C6_spec_selectors_rejected :
    graphShortestPath 2 [0, 1, 1, 0] true "dense" =
      Except.error ("unrecognized method " ++ "dense") ∧
    graphShortestPath 2 [0, 1, 1, 0] true "sparse" =
      Except.error ("unrecognized method " ++ "sparse") := by
  constructor <;> rfl

/-- C6 as amended: the entry point accepts exactly the selectors auto, FW
and D; FW dispatches to the dense all-pairs algorithm, D to the sparse
single-source algorithm, and every other explicit selector raises the
unrecognized-method configuration error. -/
theorem C6_method_dispatch (N : ℕ) (m : List ℚ) (directed : Bool) (method : String) :
    graphShortestPath N m directed "FW" =
      Except.ok (floydWarshallAlg N directed (toDense (denseToCSR N m))) ∧
    graphShortestPath N m directed "D" = dijkstraModel (denseToCSR N m) directed ∧
    (method ≠ "auto" → method ≠ "FW" → method ≠ "D" →
      graphShortestPath N m directed method =
        Except.error ("unrecognized method " ++ method)) := by
  refine ⟨rfl, rfl, fun h1 h2 h3 => ?_⟩
  simp [graphShortestPath, resolveMethod, h1, h2, h3]

/-- Witness for C6 at the concrete rejected selector dense. -/
theorem C6_method_dispatch_witness :
    graphShortestPath 1 [0] true "dense" =
      Except.error ("unrecognized method " ++ "dense") :=
  (C6_method_dispatch 1 [0] true "dense").2.2 (by decide) (by decide) (by decide)

/-- C7: on the symmetric non-negative matrix gUnd7 run in undirected mode,
the sparse algorithm produces an asymmetric output: the entry for (0, 1)
is 10 while the entry for (1, 0) is 4 (the true undirected distance).
The same heap.min_node staleness that breaks C1 makes the search from
source 0 scan vertex 1 prematurely, while the search from source 1 is
unaffected. -/
theorem C7_undirected_not_symmetric :
    (exOk (dijkstraModel (denseToCSR 7 gUnd7) false)).getD (0 * 7 + 1) 0 = 10 ∧
    (exOk (dijkstraModel (denseToCSR 7 gUnd7) false)).getD (1 * 7 + 0) 0 = 4 ∧
    (∀ i, i < 7 → ∀ j, j < 7 → gUnd7.getD (i * 7 + j) 0 = gUnd7.getD (j * 7 + i) 0) := by
  decide!

/-- C9: with overwrite false the caller's buffer is always left unchanged
(a private copy is relaxed), and the wrapper aliases the caller's buffer
exactly when overwrite is set and the input is already a dense C-ordered
float64 array - for any other storage a private copy is made regardless of
the flag. -/
theorem C9_overwrite_contract (N : ℕ) (directed : Bool) (kind : MatKind) (m : List ℚ) :
    (floydWarshallWrap N directed false kind m).2 = m ∧
    (∀ ow : Bool, fwSharesBuffer kind ow = true ↔
      (ow = true ∧ kind = MatKind.ndarray true true)) := by
  constructor
  · rcases kind with _ | ⟨co, f⟩ | _
    · simp [floydWarshallWrap, fwSharesBuffer, asarrayAliases]
    · simp [floydWarshallWrap, fwSharesBuffer, asarrayAliases]
    · simp [floydWarshallWrap, fwSharesBuffer, asarrayAliases]
  · intro ow
    rcases kind with _ | ⟨co, f⟩ | _
    · cases ow <;> simp [fwSharesBuffer, asarrayAliases]
    · cases ow <;> cases co <;> cases f <;> simp [fwSharesBuffer, asarrayAliases]
    · cases ow <;> simp [fwSharesBuffer, asarrayAliases]

/-- Reading the slot just written (when in bounds; out of bounds the write
is a no-op). -/
theorem getN_putN_self (s : HState) (i : ℕ) (f : FNode → FNode) :
    getN (putN s i f) i = if i < s.nodes.length then f (getN s i) else getN s i := by
  by_cases h : i < s.nodes.length
  · simp [getN, putN, List.getElem?_set_self h, h]
  · simp [getN, putN, List.set_eq_of_length_le (Nat.le_of_not_lt h), h]

/-- Reading a slot other than the one written. -/
theorem getN_putN_ne (s : HState) (i j : ℕ) (f : FNode → FNode) (h : i ≠ j) :
    getN (putN s i f) j = getN s j := by
  simp [getN, putN, List.getElem?_set_ne h]

theorem length_putN (s : HState) (i : ℕ) (f : FNode → FNode) :
    (putN s i f).nodes.length = s.nodes.length := by
  simp [putN]

theorem minN_putN (s : HState) (i : ℕ) (f : FNode → FNode) :
    (putN s i f).minN = s.minN := rfl

theorem buckets_putN (s : HState) (i : ℕ) (f : FNode → FNode) :
    (putN s i f).buckets = s.buckets := rfl

/-- A field untouched by the update function is unchanged at every slot. -/
theorem getN_putN_keep {α : Type} (g : FNode → α) (s : HState) (i j : ℕ)
    (f : FNode → FNode) (hf : ∀ nd, g (f nd) = g nd) :
    g (getN (putN s i f) j) = g (getN s j) := by
  by_cases h : i = j
  · subst h
    rw [getN_putN_self]
    split
    · exact hf _
    · rfl
  · rw [getN_putN_ne _ _ _ _ h]

theorem length_addSibling (s : HState) (i c : ℕ) :
    (addSibling s i c).nodes.length = s.nodes.length := by
  unfold addSibling
  dsimp only
  split <;> simp [length_putN]

theorem minN_addSibling (s : HState) (i c : ℕ) :
    (addSibling s i c).minN = s.minN := by
  unfold addSibling
  dsimp only
  split <;> rfl

theorem buckets_addSibling (s : HState) (i c : ℕ) :
    (addSibling s i c).buckets = s.buckets := by
  unfold addSibling
  dsimp only
  split <;> rfl

theorem addSibling_parent_frame (s : HState) (i c j : ℕ) (hj : j ≠ c) :
    (getN (addSibling s i c) j).parent = (getN s j).parent := by
  unfold addSibling
  dsimp only
  split
  · rw [getN_putN_keep FNode.parent, getN_putN_ne, getN_putN_keep FNode.parent]
    all_goals first
      | exact fun _ => rfl
      | exact Ne.symm hj
  · rw [getN_putN_ne, getN_putN_keep FNode.parent]
    all_goals first
      | exact fun _ => rfl
      | exact Ne.symm hj

theorem addSibling_children_frame (s : HState) (i c j : ℕ) :
    (getN (addSibling s i c) j).children = (getN s j).children := by
  unfold addSibling
  dsimp only
  split
  · rw [getN_putN_keep FNode.children, getN_putN_keep FNode.children,
      getN_putN_keep FNode.children]
    all_goals exact fun _ => rfl
  · rw [getN_putN_keep FNode.children, getN_putN_keep FNode.children]
    all_goals exact fun _ => rfl

theorem addSibling_state_frame (s : HState) (i c j : ℕ) :
    (getN (addSibling s i c) j).state = (getN s j).state := by
  unfold addSibling
  dsimp only
  split
  · rw [getN_putN_keep FNode.state, getN_putN_keep FNode.state,
      getN_putN_keep FNode.state]
    all_goals exact fun _ => rfl
  · rw [getN_putN_keep FNode.state, getN_putN_keep FNode.state]
    all_goals exact fun _ => rfl

theorem addSibling_val_frame (s : HState) (i c j : ℕ) :
    (getN (addSibling s i c) j).val = (getN s j).val := by
  unfold addSibling
  dsimp only
  split
  · rw [getN_putN_keep FNode.val, getN_putN_keep FNode.val,
      getN_putN_keep FNode.val]
    all_goals exact fun _ => rfl
  · rw [getN_putN_keep FNode.val, getN_putN_keep FNode.val]
    all_goals exact fun _ => rfl

theorem addSibling_index_frame (s : HState) (i c j : ℕ) :
    (getN (addSibling s i c) j).index = (getN s j).index := by
  unfold addSibling
  dsimp only
  split
  · rw [getN_putN_keep FNode.index, getN_putN_keep FNode.index,
      getN_putN_keep FNode.index]
    all_goals exact fun _ => rfl
  · rw [getN_putN_keep FNode.index, getN_putN_keep FNode.index]
    all_goals exact fun _ => rfl

/-- The parent the incoming sibling receives is the parent its chain mate
had. -/
theorem addSibling_parent_self (s : HState) (k c : ℕ) (hc : c < s.nodes.length) :
    (getN (addSibling s k c) c).parent = (getN s k).parent := by
  unfold addSibling
  dsimp only
  have hkeep : ∀ x : HState, ∀ a b : ℕ,
      (getN (putN x a (fun nd => { nd with rightSib := some b })) k).parent =
        (getN x k).parent :=
    fun x a b => getN_putN_keep FNode.parent x a k _ (fun _ => rfl)
  split
  · next p hmatch =>
    rw [getN_putN_keep FNode.parent, getN_putN_self, if_pos (by simpa [length_putN] using hc)]
    · exact hkeep _ _ _
    · exact fun _ => rfl
  · rw [getN_putN_self, if_pos (by simpa [length_putN] using hc)]
    exact hkeep _ _ _

theorem addSibling_rank_frame (s : HState) (k c j : ℕ) (hc : c < s.nodes.length)
    (hp : (getN s k).parent ≠ some j) :
    (getN (addSibling s k c) j).rank = (getN s j).rank := by
  unfold addSibling
  dsimp only
  have hkeep : ∀ x : HState, ∀ a b : ℕ,
      (getN (putN x a (fun nd => { nd with rightSib := some b })) k).parent =
        (getN x k).parent :=
    fun x a b => getN_putN_keep FNode.parent x a k _ (fun _ => rfl)
  have hself : ∀ x : HState, ∀ a : ℕ, ∀ po : Option ℕ, c < x.nodes.length →
      (getN (putN x c (fun nd => { nd with
          leftSib := some a, rightSib := none, parent := po })) c).parent = po := by
    intro x a po hlt
    rw [getN_putN_self, if_pos hlt]
  split
  · next p hmatch =>
    rw [getN_putN_self, if_pos (by simpa [length_putN] using hc)] at hmatch
    simp only at hmatch
    rw [hkeep] at hmatch
    have hpj : p ≠ j := fun h => hp (h ▸ hmatch)
    rw [getN_putN_ne _ _ _ _ hpj,
      getN_putN_keep FNode.rank, getN_putN_keep FNode.rank]
    all_goals exact fun _ => rfl
  · rw [getN_putN_keep FNode.rank, getN_putN_keep FNode.rank]
    all_goals exact fun _ => rfl

theorem length_removeN (s : HState) (i : ℕ) :
    (removeN s i).nodes.length = s.nodes.length := by
  unfold removeN
  dsimp only
  repeat' split
  all_goals simp [length_putN]

theorem minN_removeN (s : HState) (i : ℕ) :
    (removeN s i).minN = s.minN := by
  unfold removeN
  dsimp only
  repeat' split
  all_goals rfl

theorem buckets_removeN (s : HState) (i : ℕ) :
    (removeN s i).buckets = s.buckets := by
  unfold removeN
  dsimp only
  repeat' split
  all_goals rfl

/-- Unlinking a parentless node changes no parent link of any other
node. -/
theorem removeN_parent_frame (s : HState) (i j : ℕ)
    (hpar : (getN s i).parent = none) (hj : j ≠ i) :
    (getN (removeN s i) j).parent = (getN s j).parent := by
  unfold removeN
  dsimp only
  rw [hpar]
  dsimp only
  repeat' split
  all_goals rw [getN_putN_ne _ _ _ _ (Ne.symm hj)]
  all_goals repeat rw [getN_putN_keep FNode.parent]
  all_goals exact fun _ => rfl

/-- Unlinking a parentless in-bounds node leaves it parentless. -/
theorem removeN_parent_self (s : HState) (i : ℕ)
    (hpar : (getN s i).parent = none) (hi : i < s.nodes.length) :
    (getN (removeN s i) i).parent = none := by
  unfold removeN
  dsimp only
  rw [hpar]
  dsimp only
  repeat' split
  all_goals rw [getN_putN_self, if_pos (by (try simp only [length_putN]); exact hi)]

theorem removeN_rank_frame (s : HState) (i : ℕ)
    (hpar : (getN s i).parent = none) (j : ℕ) :
    (getN (removeN s i) j).rank = (getN s j).rank := by
  unfold removeN
  dsimp only
  rw [hpar]
  dsimp only
  repeat' split
  all_goals repeat rw [getN_putN_keep FNode.rank]
  all_goals exact fun _ => rfl

theorem removeN_children_frame (s : HState) (i : ℕ)
    (hpar : (getN s i).parent = none) (j : ℕ) :
    (getN (removeN s i) j).children = (getN s j).children := by
  unfold removeN
  dsimp only
  rw [hpar]
  dsimp only
  repeat' split
  all_goals repeat rw [getN_putN_keep FNode.children]
  all_goals exact fun _ => rfl

theorem removeN_state_frame (s : HState) (i : ℕ)
    (hpar : (getN s i).parent = none) (j : ℕ) :
    (getN (removeN s i) j).state = (getN s j).state := by
  unfold removeN
  dsimp only
  rw [hpar]
  dsimp only
  repeat' split
  all_goals repeat rw [getN_putN_keep FNode.state]
  all_goals exact fun _ => rfl

theorem removeN_val_frame (s : HState) (i : ℕ)
    (hpar : (getN s i).parent = none) (j : ℕ) :
    (getN (removeN s i) j).val = (getN s j).val := by
  unfold removeN
  dsimp only
  rw [hpar]
  dsimp only
  repeat' split
  all_goals repeat rw [getN_putN_keep FNode.val]
  all_goals exact fun _ => rfl

theorem removeN_index_frame (s : HState) (i : ℕ)
    (hpar : (getN s i).parent = none) (j : ℕ) :
    (getN (removeN s i) j).index = (getN s j).index := by
  unfold removeN
  dsimp only
  rw [hpar]
  dsimp only
  repeat' split
  all_goals repeat rw [getN_putN_keep FNode.index]
  all_goals exact fun _ => rfl

theorem getN_setBucket (s : HState) (r : ℕ) (v : Option ℕ) (j : ℕ) :
    getN (setBucket s r v) j = getN s j := rfl

theorem length_setBucket (s : HState) (r : ℕ) (v : Option ℕ) :
    (setBucket s r v).nodes.length = s.nodes.length := rfl

theorem minN_setBucket (s : HState) (r : ℕ) (v : Option ℕ) :
    (setBucket s r v).minN = s.minN := rfl

theorem buckets_setBucket (s : HState) (r : ℕ) (v : Option ℕ) (x : ℕ) :
    (setBucket s r v).buckets x = if x = r then v else s.buckets x := rfl

theorem length_addChild (s : HState) (i c : ℕ) :
    (addChild s i c).nodes.length = s.nodes.length := by
  unfold addChild
  dsimp only
  split
  · rw [length_addSibling, length_putN]
  · rw [length_putN, length_putN, length_putN]

theorem minN_addChild (s : HState) (i c : ℕ) :
    (addChild s i c).minN = s.minN := by
  unfold addChild
  dsimp only
  split
  · rw [minN_addSibling, minN_putN]
  · rfl

theorem buckets_addChild (s : HState) (i c : ℕ) :
    (addChild s i c).buckets = s.buckets := by
  unfold addChild
  dsimp only
  split
  · rw [buckets_addSibling, buckets_putN]
  · rfl

theorem addChild_parent_frame (s : HState) (i c j : ℕ) (hj : j ≠ c) :
    (getN (addChild s i c) j).parent = (getN s j).parent := by
  unfold addChild
  dsimp only
  split
  · rw [addSibling_parent_frame _ _ _ _ hj, getN_putN_ne _ _ _ _ (Ne.symm hj)]
  · rw [getN_putN_keep FNode.parent]
    rw [getN_putN_keep FNode.parent]
    rw [getN_putN_ne _ _ _ _ (Ne.symm hj)]
    all_goals exact fun _ => rfl

theorem addChild_children_frame (s : HState) (i c j : ℕ) (hj : j ≠ i) :
    (getN (addChild s i c) j).children = (getN s j).children := by
  unfold addChild
  dsimp only
  split
  · rw [addSibling_children_frame, getN_putN_keep FNode.children]
    exact fun _ => rfl
  · rw [getN_putN_keep FNode.children]
    rw [getN_putN_ne _ _ _ _ (Ne.symm hj)]
    rw [getN_putN_keep FNode.children]
    all_goals exact fun _ => rfl

theorem addChild_state_frame (s : HState) (i c j : ℕ) :
    (getN (addChild s i c) j).state = (getN s j).state := by
  unfold addChild
  dsimp only
  split
  · rw [addSibling_state_frame, getN_putN_keep FNode.state]
    exact fun _ => rfl
  · rw [getN_putN_keep FNode.state]
    rw [getN_putN_keep FNode.state]
    rw [getN_putN_keep FNode.state]
    all_goals exact fun _ => rfl

theorem addChild_val_frame (s : HState) (i c j : ℕ) :
    (getN (addChild s i c) j).val = (getN s j).val := by
  unfold addChild
  dsimp only
  split
  · rw [addSibling_val_frame, getN_putN_keep FNode.val]
    exact fun _ => rfl
  · rw [getN_putN_keep FNode.val]
    rw [getN_putN_keep FNode.val]
    rw [getN_putN_keep FNode.val]
    all_goals exact fun _ => rfl

theorem addChild_index_frame (s : HState) (i c j : ℕ) :
    (getN (addChild s i c) j).index = (getN s j).index := by
  unfold addChild
  dsimp only
  split
  · rw [addSibling_index_frame, getN_putN_keep FNode.index]
    exact fun _ => rfl
  · rw [getN_putN_keep FNode.index]
    rw [getN_putN_keep FNode.index]
    rw [getN_putN_keep FNode.index]
    all_goals exact fun _ => rfl

/-- The node made a child ends up with the adopting node as its parent. -/
theorem addChild_parent_self (s : HState) (i c : ℕ) (hic : i ≠ c)
    (hc : c < s.nodes.length)
    (hcc : ∀ k, (getN s i).children = some k → (getN s k).parent = some i) :
    (getN (addChild s i c) c).parent = some i := by
  unfold addChild
  dsimp only
  split
  · next k hk =>
    rw [getN_putN_ne _ _ _ _ (Ne.symm (Ne.symm hic).symm)] at hk
    -- hk : (getN s i).children = some k
    rw [addSibling_parent_self _ _ _ (by rw [length_putN]; exact hc)]
    by_cases hkc : k = c
    · subst hkc
      rw [getN_putN_self, if_pos hc]
    · rw [getN_putN_ne _ _ _ _ (Ne.symm hkc)]
      exact hcc k hk
  · rw [getN_putN_keep FNode.parent]
    rw [getN_putN_keep FNode.parent]
    rw [getN_putN_self, if_pos hc]
    all_goals exact fun _ => rfl

theorem addChild_rank_frame (s : HState) (i c j : ℕ) (hj : j ≠ i) (hic : i ≠ c)
    (hc : c < s.nodes.length)
    (hcc : ∀ k, (getN s i).children = some k → (getN s k).parent = some i) :
    (getN (addChild s i c) j).rank = (getN s j).rank := by
  unfold addChild
  dsimp only
  split
  · next k hk =>
    rw [getN_putN_ne _ _ _ _ (Ne.symm (Ne.symm hic).symm)] at hk
    rw [addSibling_rank_frame _ _ _ _ (by rw [length_putN]; exact hc) ?_]
    · rw [getN_putN_keep FNode.rank]
      exact fun _ => rfl
    · by_cases hkc : k = c
      · subst hkc
        rw [getN_putN_self, if_pos hc]
        intro h
        exact hj (Option.some.inj h).symm
      · rw [getN_putN_ne _ _ _ _ (Ne.symm hkc), hcc k hk]
        intro h
        exact hj (Option.some.inj h).symm
  · rw [getN_putN_keep FNode.rank]
    rw [getN_putN_ne _ _ _ _ (Ne.symm hj)]
    rw [getN_putN_keep FNode.rank]
    all_goals exact fun _ => rfl

/-- After adoption the adopting node's children pointer designates its old
first child when it had one, and the new child otherwise. -/
theorem addChild_children_self (s : HState) (i c : ℕ) (hic : i ≠ c)
    (hi : i < s.nodes.length) :
    (getN (addChild s i c) i).children = some (((getN s i).children).getD c) := by
  unfold addChild
  dsimp only
  split
  · next k hk =>
    rw [getN_putN_ne _ _ _ _ (Ne.symm (Ne.symm hic).symm)] at hk
    rw [addSibling_children_frame, getN_putN_ne _ _ _ _ (Ne.symm hic), hk]
    rfl
  · next hk =>
    rw [getN_putN_ne _ _ _ _ (Ne.symm hic)] at hk
    rw [getN_putN_keep FNode.children]
    · rw [getN_putN_self, if_pos (by rw [length_putN]; exact hi), hk]
      rfl
    · exact fun _ => rfl

/-- After a consolidation merge the loser points to the winner. -/
theorem merge_parent_loser (s : HState) (r w l : ℕ)
    (hw : rootOK s w) (hl : rootOK s l) (hwl : w ≠ l) :
    (getN (addChild (removeN (setBucket s r none) l) w l) l).parent = some w := by
  have hl0 : (getN (setBucket s r none) l).parent = none := hl.2.1
  apply addChild_parent_self _ _ _ hwl
  · rw [length_removeN, length_setBucket]
    exact hl.1
  · intro k hk
    rw [removeN_children_frame _ _ hl0, getN_setBucket] at hk
    have hkp := (hw.2.2 k hk).1
    have hkl : k ≠ l := by
      intro h
      rw [h, hl.2.1] at hkp
      exact Option.noConfusion hkp
    rw [removeN_parent_frame _ _ _ hl0 hkl, getN_setBucket]
    exact hkp

/-- A consolidation merge changes no parent link other than the loser's. -/
theorem merge_parent_frame (s : HState) (r w l j : ℕ)
    (hpl : (getN s l).parent = none) (hj : j ≠ l) :
    (getN (addChild (removeN (setBucket s r none) l) w l) j).parent =
      (getN s j).parent := by
  have hl0 : (getN (setBucket s r none) l).parent = none := hpl
  rw [addChild_parent_frame _ _ _ _ hj, removeN_parent_frame _ _ _ hl0 hj,
    getN_setBucket]

/-- A consolidation merge changes no rank other than the winner's. -/
theorem merge_rank_frame (s : HState) (r w l j : ℕ)
    (hw : rootOK s w) (hl : rootOK s l) (hwl : w ≠ l) (hj : j ≠ w) :
    (getN (addChild (removeN (setBucket s r none) l) w l) j).rank =
      (getN s j).rank := by
  have hl0 : (getN (setBucket s r none) l).parent = none := hl.2.1
  rw [addChild_rank_frame _ _ _ _ hj hwl]
  · rw [removeN_rank_frame _ _ hl0, getN_setBucket]
  · rw [length_removeN, length_setBucket]
    exact hl.1
  · intro k hk
    rw [removeN_children_frame _ _ hl0, getN_setBucket] at hk
    have hkp := (hw.2.2 k hk).1
    have hkl : k ≠ l := by
      intro h
      rw [h, hl.2.1] at hkp
      exact Option.noConfusion hkp
    rw [removeN_parent_frame _ _ _ hl0 hkl, getN_setBucket]
    exact hkp

/-- A consolidation merge changes no children pointer other than the
winner's. -/
theorem merge_children_frame (s : HState) (r w l j : ℕ)
    (hpl : (getN s l).parent = none) (hj : j ≠ w) :
    (getN (addChild (removeN (setBucket s r none) l) w l) j).children =
      (getN s j).children := by
  have hl0 : (getN (setBucket s r none) l).parent = none := hpl
  rw [addChild_children_frame _ _ _ _ hj, removeN_children_frame _ _ hl0,
    getN_setBucket]

theorem merge_length (s : HState) (r w l : ℕ) :
    (addChild (removeN (setBucket s r none) l) w l).nodes.length =
      s.nodes.length := by
  rw [length_addChild, length_removeN, length_setBucket]

theorem merge_buckets (s : HState) (r w l : ℕ) (x : ℕ) :
    (addChild (removeN (setBucket s r none) l) w l).buckets x =
      if x = r then none else s.buckets x := by
  rw [buckets_addChild, buckets_removeN]
  rfl

theorem merge_minN (s : HState) (r w l : ℕ) :
    (addChild (removeN (setBucket s r none) l) w l).minN = s.minN := by
  rw [minN_addChild, minN_removeN]
  rfl

/-- After a consolidation merge the winner is still a well-formed root. -/
theorem merge_rootOK_w (s : HState) (r w l : ℕ)
    (hw : rootOK s w) (hl : rootOK s l) (hwl : w ≠ l) :
    rootOK (addChild (removeN (setBucket s r none) l) w l) w := by
  have hl0 : (getN (setBucket s r none) l).parent = none := hl.2.1
  refine ⟨?_, ?_, ?_⟩
  · rw [merge_length]
    exact hw.1
  · rw [merge_parent_frame _ _ _ _ _ hl.2.1 hwl]
    exact hw.2.1
  · intro c hc
    have hchild := addChild_children_self (removeN (setBucket s r none) l) w l hwl
      (by rw [length_removeN, length_setBucket]; exact hw.1)
    rw [removeN_children_frame _ _ hl0, getN_setBucket] at hchild
    rw [hchild] at hc
    have hc2 := Option.some.inj hc
    rcases hk : (getN s w).children with _ | k
    · rw [hk] at hc2
      simp only [Option.getD] at hc2
      subst hc2
      exact ⟨merge_parent_loser s r w l hw hl hwl, by rw [merge_length]; exact hl.1⟩
    · rw [hk] at hc2
      simp only [Option.getD] at hc2
      subst hc2
      have hkp := (hw.2.2 k hk).1
      have hkl : k ≠ l := by
        intro h
        rw [h, hl.2.1] at hkp
        exact Option.noConfusion hkp
      refine ⟨?_, ?_⟩
      · rw [merge_parent_frame _ _ _ _ _ hl.2.1 hkl]
        exact hkp
      · rw [merge_length]
        exact (hw.2.2 k hk).2

/-- A consolidation merge adds no new bucket occupant. -/
theorem merge_not_bucket (s : HState) (r w l x : ℕ)
    (hx : ∀ rr, rr ≠ r → s.buckets rr ≠ some x) :
    ∀ rr, (addChild (removeN (setBucket s r none) l) w l).buckets rr ≠ some x := by
  intro rr
  rw [merge_buckets]
  split
  · exact fun h => Option.noConfusion h
  · next hne => exact hx rr hne

/-- A consolidation merge whose two parties sit (at most) in the cleared
bucket preserves the bucket-table invariant. -/
theorem merge_bucketsOK (s : HState) (r w l : ℕ)
    (hb : bucketsOK s) (hw : rootOK s w) (hl : rootOK s l) (hwl : w ≠ l)
    (hwb : ∀ rr, rr ≠ r → s.buckets rr ≠ some w)
    (hlb : ∀ rr, rr ≠ r → s.buckets rr ≠ some l) :
    bucketsOK (addChild (removeN (setBucket s r none) l) w l) := by
  intro r' o ho
  rw [merge_buckets] at ho
  split at ho
  · exact absurd ho (fun h => Option.noConfusion h)
  · next hne =>
    obtain ⟨hro, hoOK⟩ := hb r' o ho
    have how : o ≠ w := by
      intro h
      exact hwb r' hne (h ▸ ho)
    have hol : o ≠ l := by
      intro h
      exact hlb r' hne (h ▸ ho)
    refine ⟨?_, ?_, ?_, ?_⟩
    · rw [merge_rank_frame _ _ _ _ _ hw hl hwl how]
      exact hro
    · rw [merge_length]
      exact hoOK.1
    · rw [merge_parent_frame _ _ _ _ _ hl.2.1 hol]
      exact hoOK.2.1
    · intro c hc
      rw [merge_children_frame _ _ _ _ _ hl.2.1 how] at hc
      obtain ⟨hcp, hcb⟩ := hoOK.2.2 c hc
      have hcl : c ≠ l := by
        intro h
        rw [h, hl.2.1] at hcp
        exact Option.noConfusion hcp
      constructor
      · rw [merge_parent_frame _ _ _ _ _ hl.2.1 hcl]
        exact hcp
      · rw [merge_length]
        exact hcb

/-- Throughout the recursive consolidation of link, a node that already
has a parent keeps it: merges only ever reparent parentless roots. -/
theorem fibLink_parent_frame (f : ℕ) :
    ∀ (s : HState) (n j p : ℕ),
      bucketsOK s → rootOK s n → (∀ r, s.buckets r ≠ some n) →
      (getN s j).parent = some p →
      (getN (fibLink s n f) j).parent = some p := by
  induction f with
  | zero =>
    intro s n j p _ _ _ hjp
    simpa only [fibLink] using hjp
  | succ f ih =>
    intro s n j p hb hn hnb hjp
    simp only [fibLink]
    rcases hocc : s.buckets (getN s n).rank with _ | l
    · dsimp only
      exact hjp
    · dsimp only
      obtain ⟨hrl, hl⟩ := hb _ _ hocc
      have hnl : n ≠ l := by
        intro h
        exact hnb ((getN s n).rank) (by rw [hocc, h])
      have hlb : ∀ rr, rr ≠ (getN s n).rank → s.buckets rr ≠ some l := by
        intro rr hne h
        exact hne ((hb rr l h).1 ▸ hrl)
      have hnbr : ∀ rr, rr ≠ (getN s n).rank → s.buckets rr ≠ some n :=
        fun rr _ => hnb rr
      have hjl : j ≠ l := by
        intro h
        rw [h, hl.2.1] at hjp
        exact Option.noConfusion hjp
      have hjn : j ≠ n := by
        intro h
        rw [h, hn.2.1] at hjp
        exact Option.noConfusion hjp
      split
      · apply ih
        · exact merge_bucketsOK s _ n l hb hn hl hnl hnbr hlb
        · exact merge_rootOK_w s _ n l hn hl hnl
        · exact merge_not_bucket s _ n l n hnbr
        · rw [merge_parent_frame _ _ _ _ _ hl.2.1 hjl]
          exact hjp
      · apply ih
        · exact merge_bucketsOK s _ l n hb hl hn (Ne.symm hnl) hlb hnbr
        · exact merge_rootOK_w s _ l n hl hn (Ne.symm hnl)
        · exact merge_not_bucket s _ l n l hlb
        · rw [merge_parent_frame _ _ _ _ _ hn.2.1 hjn]
          exact hjp

/-- C4 as amended: when link finds a bucket collision between the incoming
root n and the occupant l, the incoming root becomes the parent exactly
when its value is strictly smaller or it is heap.min_node; in every other
case - including value ties between two roots neither of which is the
provisional minimum - the occupant becomes the parent.  The loser's
parent link survives the rest of the consolidation untouched. -/
theorem C4_link_merge_rule (s : HState) (n l : ℕ) (f : ℕ)
    (hocc : s.buckets (getN s n).rank = some l)
    (hn : rootOK s n) (hnb : ∀ r, s.buckets r ≠ some n) (hb : bucketsOK s) :
    (getN (fibLink s n (f + 1))
        (if (getN s n).val < (getN s l).val ∨ s.minN = some n then l else n)).parent =
      some (if (getN s n).val < (getN s l).val ∨ s.minN = some n then n else l) := by
  obtain ⟨hrl, hl⟩ := hb _ _ hocc
  have hnl : n ≠ l := by
    intro h
    exact hnb ((getN s n).rank) (by rw [hocc, h])
  have hlb : ∀ rr, rr ≠ (getN s n).rank → s.buckets rr ≠ some l := by
    intro rr hne h
    exact hne ((hb rr l h).1 ▸ hrl)
  have hnbr : ∀ rr, rr ≠ (getN s n).rank → s.buckets rr ≠ some n :=
    fun rr _ => hnb rr
  simp only [fibLink]
  rw [hocc]
  dsimp only
  simp only [getN_setBucket, minN_setBucket]
  by_cases hcond : (getN s n).val < (getN s l).val ∨ s.minN = some n
  · rw [if_pos hcond, if_pos hcond, if_pos hcond]
    apply fibLink_parent_frame f _ n l n
    · exact merge_bucketsOK s _ n l hb hn hl hnl hnbr hlb
    · exact merge_rootOK_w s _ n l hn hl hnl
    · exact merge_not_bucket s _ n l n hnbr
    · exact merge_parent_loser s _ n l hn hl hnl
  · rw [if_neg hcond, if_neg hcond, if_neg hcond]
    apply fibLink_parent_frame f _ l n l
    · exact merge_bucketsOK s _ l n hb hl hn (Ne.symm hnl) hlb hnbr
    · exact merge_rootOK_w s _ l n hl hn (Ne.symm hnl)
    · exact merge_not_bucket s _ l n l hlb
    · exact merge_parent_loser s _ l n hl hn (Ne.symm hnl)

/-- Witness for C4 at the concrete tie state: the occupant node 0 becomes
the parent of the incoming equal-valued node 1. -/
theorem C4_link_merge_rule_witness :
    (getN (fibLink linkTieState 1 2) 1).parent = some 0 := by
  have hcond : ¬ ((getN linkTieState 1).val < (getN linkTieState 0).val ∨
      linkTieState.minN = some 1) := by
    intro h
    rcases h with h | h
    · exact absurd h (by decide)
    · exact Option.noConfusion h
  have h := C4_link_merge_rule linkTieState 1 0 1 rfl
    ⟨by decide, rfl, fun c hc => Option.noConfusion hc⟩
    (by
      intro r h
      revert h
      by_cases hr : r = 0
      · subst hr
        intro h
        have h0 := Option.some.inj (show some 0 = some 1 from h)
        exact Nat.noConfusion h0
      · intro h
        have : (linkTieState.buckets r) = none := by
          simp [linkTieState, hr]
        rw [this] at h
        exact Option.noConfusion h)
    (by
      intro r o h
      by_cases hr : r = 0
      · subst hr
        have h0 : o = 0 := by
          have : (linkTieState.buckets 0) = some 0 := rfl
          rw [this] at h
          exact (Option.some.inj h).symm
        subst h0
        exact ⟨rfl, by decide, rfl, fun c hc => Option.noConfusion hc⟩
      · have : (linkTieState.buckets r) = none := by
          simp [linkTieState, hr]
        rw [this] at h
        exact absurd h (fun hh => Option.noConfusion hh))
  rw [if_neg hcond, if_neg hcond] at h
  exact h

/-- Decompose reading a flat matrix after a single cell write. -/
theorem getD_set_flat {α : Type} (l : List α) (p q : ℕ) (v d : α) :
    (l.set p v).getD q d = if p = q ∧ p < l.length then v else l.getD q d := by
  by_cases hpq : p = q
  · subst hpq
    by_cases hp : p < l.length
    · simp [List.getElem?_set_self hp, hp]
    · simp [List.set_eq_of_length_le (Nat.le_of_not_lt hp), hp]
  · simp [List.getElem?_set_ne hpq, hpq]

/-- Row-major flat indices are injective on in-range column parts. -/
theorem flat_inj {N a b c d : ℕ} (hb : b < N) (hd : d < N)
    (h : a * N + b = c * N + d) : a = c ∧ b = d := by
  have hN : 0 < N := Nat.pos_of_ne_zero (by omega)
  have ha : (a * N + b) / N = a := by
    rw [Nat.add_comm, Nat.add_mul_div_right _ _ hN, Nat.div_eq_of_lt hb, Nat.zero_add]
  have hc : (c * N + d) / N = c := by
    rw [Nat.add_comm, Nat.add_mul_div_right _ _ hN, Nat.div_eq_of_lt hd, Nat.zero_add]
  have hac : a = c := by rw [← ha, ← hc, h]
  subst hac
  exact ⟨rfl, by omega⟩

/-- Fold preservation of an invariant. -/
theorem foldl_inv {α β : Type} (P : α → Prop) (f : α → β → α) (l : List β)
    (s : α) (h : P s) (hf : ∀ a x, x ∈ l → P a → P (f a x)) :
    P (l.foldl f s) := by
  induction l generalizing s with
  | nil => exact h
  | cons x t ih =>
    exact ih (f s x) (hf s x (by simp) h)
      (fun a y hy ha => hf a y (by simp [hy]) ha)

/-- An IEEE sum is finite exactly when both operands are. -/
theorem FVal.add_ne_inf {x y : FVal} (h : FVal.add x y ≠ FVal.inf) :
    x ≠ FVal.inf ∧ y ≠ FVal.inf := by
  cases x <;> cases y <;> simp_all [FVal.add]

theorem flat_lt {N i j : ℕ} (hi : i < N) (hj : j < N) : i * N + j < N * N := by
  calc i * N + j < i * N + N := by omega
  _ = (i + 1) * N := by ring
  _ ≤ N * N := Nat.mul_le_mul_right N hi

/-- Reachability in undirected mode is symmetric. -/
theorem DReach_symm {m : List ℚ} {N : ℕ} {a b : ℕ}
    (h : DReach m N false a b) : DReach m N false b a := by
  induction h with
  | refl => exact Relation.ReflTransGen.refl
  | tail _ hstep ih =>
    refine Relation.ReflTransGen.head ?_ ih
    rcases hstep with h1 | ⟨_, h1⟩
    · exact Or.inr ⟨rfl, h1⟩
    · exact Or.inl h1

/-- The reachability invariant of the dense relaxation: a finite entry at
(a, b) witnesses that b is reachable from a in the input graph. -/
def FwInv (m : List ℚ) (N : ℕ) (directed : Bool) (g : List FVal) : Prop :=
  g.length = N * N ∧
  ∀ a b, a < N → b < N → getM g N a b ≠ FVal.inf → DReach m N directed a b

theorem fwInit_inv (m : List ℚ) (N : ℕ) (directed : Bool)
    (hlen : m.length = N * N) : FwInv m N directed (fwInit m) := by
  constructor
  · simp [fwInit, hlen]
  · intro a b ha hb hne
    have hidx : a * N + b < m.length := hlen ▸ flat_lt ha hb
    have : getM (fwInit m) N a b =
        (if m.getD (a * N + b) 0 = 0 then FVal.inf else FVal.fin (m.getD (a * N + b) 0)) := by
      unfold getM fwInit
      rw [List.getD_eq_getElem?_getD, List.getElem?_map,
        List.getElem?_eq_getElem hidx]
      simp [List.getD_eq_getElem?_getD, List.getElem?_eq_getElem hidx]
    rw [this] at hne
    split at hne
    · exact absurd rfl hne
    · next hz =>
      exact Relation.ReflTransGen.single (Or.inl hz)

theorem fwDiag_inv (m : List ℚ) (N : ℕ) (directed : Bool) (g : List FVal)
    (h : FwInv m N directed g) : FwInv m N directed (fwDiag N g) := by
  unfold fwDiag
  refine foldl_inv _ _ _ _ h ?_
  intro g0 k hk ⟨hlen, hg⟩
  rw [List.mem_range] at hk
  constructor
  · simp [hlen]
  · intro a b ha hb hne
    unfold getM at hne
    rw [getD_set_flat] at hne
    split at hne
    · next hcond =>
      have : k * (N + 1) = k * N + k := by ring
      rw [this] at hcond
      obtain ⟨hak, hbk⟩ := flat_inj hb hk hcond.1.symm
      subst hak
      subst hbk
      exact Relation.ReflTransGen.refl
    · exact hg a b ha hb hne

theorem fwSym_inv (m : List ℚ) (N : ℕ) (g : List FVal)
    (h : FwInv m N false g) : FwInv m N false (fwSym N g) := by
  unfold fwSym
  refine foldl_inv _ _ _ _ h ?_
  intro g0 i hi hInv
  rw [List.mem_range] at hi
  refine foldl_inv _ _ _ _ hInv ?_
  intro g1 j hj ⟨hlen, hg⟩
  rw [List.mem_range'_1] at hj
  have hjN : j < N := by omega
  split
  · constructor
    · simp [hlen]
    · intro a b ha hb hne
      unfold getM at hne
      rw [getD_set_flat] at hne
      split at hne
      · next hcond =>
        obtain ⟨hai, hbj⟩ := flat_inj hb hjN hcond.1.symm
        subst hai
        subst hbj
        exact DReach_symm (hg _ _ hjN ha hne)
      · exact hg a b ha hb hne
  · constructor
    · simp [hlen]
    · intro a b ha hb hne
      unfold getM at hne
      rw [getD_set_flat] at hne
      split at hne
      · next hcond =>
        obtain ⟨haj, hbi⟩ := flat_inj hb (by omega : i < N) hcond.1.symm
        subst haj
        subst hbi
        exact DReach_symm (hg _ _ (by omega) hjN hne)
      · exact hg a b ha hb hne

theorem fwRelax_inv (m : List ℚ) (N : ℕ) (directed : Bool) (g : List FVal)
    (h : FwInv m N directed g) : FwInv m N directed (fwRelax N g) := by
  unfold fwRelax
  refine foldl_inv _ _ _ _ h ?_
  intro g0 k hk hInv0
  rw [List.mem_range] at hk
  refine foldl_inv _ _ _ _ hInv0 ?_
  intro g1 i hi hInv1
  rw [List.mem_range] at hi
  split
  · exact hInv1
  · refine foldl_inv _ _ _ _ hInv1 ?_
    intro g2 j hj ⟨hlen, hg⟩
    rw [List.mem_range] at hj
    split
    · constructor
      · simp [hlen]
      · intro a b ha hb hne
        unfold getM at hne
        rw [getD_set_flat] at hne
        split at hne
        · next hcond =>
          obtain ⟨hai, hbj⟩ := flat_inj hb hj hcond.1.symm
          subst hai
          subst hbj
          obtain ⟨h1, h2⟩ := FVal.add_ne_inf hne
          exact Relation.ReflTransGen.trans (hg _ _ ha hk h1) (hg _ _ hk hb h2)
        · exact hg a b ha hb hne
    · exact ⟨hlen, hg⟩

/-- The dense half of C8: an unreachable pair yields a zero entry in the
Floyd-Warshall output. -/
theorem fw_unreachable_zero (m : List ℚ) (N : ℕ) (directed : Bool) (i j : ℕ)
    (hlen : m.length = N * N) (hi : i < N) (hj : j < N)
    (hur : ¬ DReach m N directed i j) :
    (floydWarshallAlg N directed m).getD (i * N + j) 0 = 0 := by
  have hfin : ∀ g : List FVal, FwInv m N directed g →
      (fwFin g).getD (i * N + j) 0 = 0 := by
    intro g ⟨hglen, hg⟩
    have hidx : i * N + j < g.length := hglen ▸ flat_lt hi hj
    have hentry : getM g N i j = FVal.inf := by
      by_contra hne
      exact hur (hg i j hi hj hne)
    unfold fwFin
    rw [List.getD_eq_getElem?_getD, List.getElem?_map,
      List.getElem?_eq_getElem hidx]
    have : g[i * N + j] = FVal.inf := by
      have := hentry
      unfold getM at this
      rwa [List.getD_eq_getElem?_getD, List.getElem?_eq_getElem hidx] at this
    rw [this]
    rfl
  unfold floydWarshallAlg
  split
  · next hdir =>
    exact hfin _ (fwRelax_inv _ _ _ _ (fwDiag_inv _ _ _ _ (fwInit_inv _ _ _ hlen)))
  · next hdir =>
    have hd : directed = false := by
      cases directed
      · rfl
      · exact absurd rfl hdir
    subst hd
    exact hfin _ (fwRelax_inv _ _ _ _
      (fwSym_inv _ _ _ (fwDiag_inv _ _ _ _ (fwInit_inv _ _ _ hlen))))

/-- A chain is insensitive to state changes that do not touch the sibling
links of its members. -/
theorem chainFrom_frame (s s' : HState) (l : List ℕ) (prev : Option ℕ)
    (hkeep : ∀ x ∈ l, (getN s' x).leftSib = (getN s x).leftSib ∧
      (getN s' x).rightSib = (getN s x).rightSib)
    (h : chainFrom s prev l) : chainFrom s' prev l := by
  induction l generalizing prev with
  | nil => trivial
  | cons a rest ih =>
    obtain ⟨h1, h2, h3⟩ := h
    exact ⟨(hkeep a (by simp)).1.trans h1, (hkeep a (by simp)).2.trans h2,
      ih (some a) (fun x hx => hkeep x (by simp [hx])) h3⟩

/-- The sibling links of a chain member, read off its position. -/
theorem chainFrom_links (s : HState) (l1 l2 : List ℕ) (x : ℕ)
    (h : chainFrom s none (l1 ++ x :: l2)) :
    (getN s x).leftSib = l1.getLast? ∧ (getN s x).rightSib = l2.head? := by
  induction l1 generalizing x with
  | nil =>
    obtain ⟨h1, h2, _⟩ := h
    exact ⟨h1, h2⟩
  | cons a rest ih =>
    -- peel one element; track the new prev through an auxiliary statement
    suffices haux : ∀ (prev : Option ℕ) (l1 : List ℕ),
        chainFrom s prev (l1 ++ x :: l2) → l1 ≠ [] →
        (getN s x).leftSib = l1.getLast? ∧ (getN s x).rightSib = l2.head? by
      exact haux none (a :: rest) h (by simp)
    intro prev l1
    induction l1 generalizing prev with
    | nil => intro _ hne; exact absurd rfl hne
    | cons b t ih2 =>
      intro hch _
      obtain ⟨_, _, h3⟩ := hch
      rcases t with _ | ⟨u, t2⟩
      · obtain ⟨hx1, hx2, _⟩ := h3
        exact ⟨by simpa using hx1, hx2⟩
      · have := ih2 (some b) h3 (by simp)
        simpa using this

/-- Walking right from a chain member with enough fuel lands on the last
element of the chain. -/
theorem chainFrom_rightmost (s : HState) (l2 : List ℕ) :
    ∀ (l1 : List ℕ) (x : ℕ) (fuel : ℕ), chainFrom s none (l1 ++ x :: l2) →
    l2.length ≤ fuel → rightmostSib s fuel x = l2.getLastD x := by
  induction l2 with
  | nil =>
    intro l1 x fuel h _
    have hx := (chainFrom_links s l1 [] x h).2
    cases fuel with
    | zero => rfl
    | succ f =>
      unfold rightmostSib
      rw [hx]
      rfl
  | cons y t ih =>
    intro l1 x fuel h hfuel
    have hx := (chainFrom_links s l1 (y :: t) x h).2
    cases fuel with
    | zero => exact absurd hfuel (by simp)
    | succ f =>
      unfold rightmostSib
      rw [hx]
      dsimp only [List.head?]
      have hre : l1 ++ x :: y :: t = (l1 ++ [x]) ++ y :: t := by simp
      have := ih (l1 ++ [x]) y f (by rw [← hre]; exact h) (by simpa using hfuel)
      rw [this]
      rcases t with _ | ⟨z, t2⟩
      · rfl
      · rfl

/-- Walking left from a chain member with enough fuel lands on the head of
the chain. -/
theorem chainFrom_leftmost (s : HState) (l1 : List ℕ) :
    ∀ (l2 : List ℕ) (x : ℕ) (fuel : ℕ), chainFrom s none (l1 ++ x :: l2) →
    l1.length ≤ fuel → leftmostSib s fuel x = l1.headD x := by
  induction l1 using List.reverseRecOn with
  | nil =>
    intro l2 x fuel h _
    have hx := (chainFrom_links s [] l2 x h).1
    cases fuel with
    | zero => rfl
    | succ f =>
      unfold leftmostSib
      rw [show (List.getLast? ([] : List ℕ)) = none from rfl] at hx
      rw [hx]
      rfl
  | append_singleton t z ih =>
    intro l2 x fuel h hfuel
    have hx := (chainFrom_links s (t ++ [z]) l2 x h).1
    cases fuel with
    | zero => exact absurd hfuel (by simp)
    | succ f =>
      unfold leftmostSib
      rw [hx, List.getLast?_concat]
      dsimp only
      have hre : (t ++ [z]) ++ x :: l2 = t ++ z :: (x :: l2) := by simp
      have := ih (x :: l2) z f (by rw [← hre]; exact h) (by simpa using hfuel)
      rw [this]
      rcases t with _ | ⟨a, t2⟩
      · rfl
      · rfl

/-- Appending a fresh node c after the last element z of a chain. -/
theorem chainFrom_append (s s' : HState) (l : List ℕ) (z c : ℕ) (prev : Option ℕ)
    (hl : chainFrom s prev (l ++ [z]))
    (hz : (getN s' z).leftSib = (getN s z).leftSib ∧ (getN s' z).rightSib = some c)
    (hcl : (getN s' c).leftSib = some z ∧ (getN s' c).rightSib = none)
    (hrest : ∀ x ∈ l, (getN s' x).leftSib = (getN s x).leftSib ∧
      (getN s' x).rightSib = (getN s x).rightSib) :
    chainFrom s' prev (l ++ [z] ++ [c]) := by
  induction l generalizing prev with
  | nil =>
    obtain ⟨h1, h2, _⟩ := hl
    exact ⟨hz.1.trans h1, by simpa using hz.2, hcl.1, hcl.2, trivial⟩
  | cons a t ih =>
    obtain ⟨h1, h2, h3⟩ := hl
    refine ⟨(hrest a (by simp)).1.trans h1, ?_, ?_⟩
    · rw [(hrest a (by simp)).2, h2]
      rcases t with _ | ⟨b, t2⟩ <;> rfl
    · exact ih (some a) h3 (fun x hx => hrest x (by simp [hx]))

/-- Removing the interior element x from a chain, with the two neighbours
relinked across it. -/
theorem chainFrom_erase (s s' : HState) (l1 : List ℕ) :
    ∀ (l2 : List ℕ) (x : ℕ) (prev : Option ℕ),
    chainFrom s prev (l1 ++ x :: l2) →
    (l1 ++ x :: l2).Nodup →
    (∀ y, l1.getLast? = some y → (getN s' y).leftSib = (getN s y).leftSib ∧
      (getN s' y).rightSib = (getN s x).rightSib) →
    (∀ y, l2.head? = some y → (getN s' y).leftSib = (getN s x).leftSib ∧
      (getN s' y).rightSib = (getN s y).rightSib) →
    (∀ y ∈ l1 ++ l2, l1.getLast? ≠ some y → l2.head? ≠ some y →
      (getN s' y).leftSib = (getN s y).leftSib ∧
      (getN s' y).rightSib = (getN s y).rightSib) →
    chainFrom s' prev (l1 ++ l2) := by
  induction l1 with
  | nil =>
    intro l2 x prev hch hnd hlast hhead hrest
    obtain ⟨hx1, hx2, hch2⟩ := hch
    rcases l2 with _ | ⟨y, t⟩
    · trivial
    · obtain ⟨hy1, hy2, hch3⟩ := hch2
      refine ⟨(hhead y rfl).1.trans hx1, (hhead y rfl).2.trans hy2, ?_⟩
      refine chainFrom_frame s s' t (some y) ?_ hch3
      intro e he
      refine hrest e (by simp [he]) (by simp) ?_
      intro hcon
      have : y = e := Option.some.inj hcon
      subst this
      simp at hnd
      exact absurd he (by tauto)
  | cons a t ih =>
    intro l2 x prev hch hnd hlast hhead hrest
    obtain ⟨ha1, ha2, hch2⟩ := hch
    rcases t with _ | ⟨b, t2⟩
    · -- l1 = [a]: a is the left neighbour of x
      obtain ⟨hx1, hx2, hch3⟩ := hch2
      refine ⟨(hlast a rfl).1.trans ha1, ?_, ?_⟩
      · rw [(hlast a rfl).2, hx2]
        rcases l2 with _ | ⟨y, t⟩ <;> rfl
      · rcases l2 with _ | ⟨y, t⟩
        · trivial
        · obtain ⟨hy1, hy2, hch4⟩ := hch3
          refine ⟨(hhead y rfl).1.trans (by simpa using hx1), (hhead y rfl).2.trans hy2, ?_⟩
          refine chainFrom_frame s s' t (some y) ?_ hch4
          intro e he
          refine hrest e (by simp [he]) ?_ ?_
          · intro hcon
            have hae : a = e := Option.some.inj (by simpa using hcon)
            subst hae
            simp at hnd
            exact absurd he (by tauto)
          · intro hcon
            have : y = e := Option.some.inj (by simpa using hcon)
            subst this
            simp at hnd
            exact absurd he (by tauto)
    · -- l1 = a :: b :: t2: a is untouched
      have hga : (a :: b :: t2).getLast? = (b :: t2).getLast? := by
        simp [List.getLast?_cons_cons]
      have hnd2 : ((b :: t2) ++ x :: l2).Nodup := (List.nodup_cons.mp hnd).2
      have hamem : a ∉ (b :: t2) ++ x :: l2 := (List.nodup_cons.mp hnd).1
      have hrestA := hrest a (by simp)
      refine ⟨?_, ?_, ?_⟩
      · refine (hrestA ?_ ?_).1.trans ha1
        · rw [hga]
          intro hcon
          exact hamem (by
            have hm := List.mem_of_getLast?_eq_some hcon
            simp at hm ⊢
            tauto)
        · intro hcon
          rcases l2 with _ | ⟨y, t⟩
          · exact Option.noConfusion hcon
          · have : y = a := Option.some.inj hcon
            subst this
            exact hamem (by simp)
      · have hright := (hrestA ?_ ?_).2
        · rw [hright, ha2]
          rfl
        · rw [hga]
          intro hcon
          exact hamem (by
            have hm := List.mem_of_getLast?_eq_some hcon
            simp at hm ⊢
            tauto)
        · intro hcon
          rcases l2 with _ | ⟨y, t⟩
          · exact Option.noConfusion hcon
          · have : y = a := Option.some.inj hcon
            subst this
            exact hamem (by simp)
      · refine ih l2 x (some a) hch2 hnd2 ?_ hhead ?_
        · intro y hy
          exact hlast y (by rw [hga]; exact hy)
        · intro y hy h1 h2
          refine hrest y (by simp at hy ⊢; tauto) ?_ h2
          rw [hga]
          exact h1

/-- A duplicate-free list of naturals below n has at most n elements. -/
theorem nodup_lt_length (l : List ℕ) (n : ℕ) (hnd : l.Nodup)
    (hb : ∀ x ∈ l, x < n) : l.length ≤ n := by
  have h1 : l.toFinset ⊆ Finset.range n := by
    intro x hx
    simp only [List.mem_toFinset] at hx
    exact Finset.mem_range.mpr (hb x hx)
  have h2 := Finset.card_le_card h1
  rwa [List.toFinset_card_of_nodup hnd, Finset.card_range] at h2

/-- Layouts that agree pointwise are realized by the same states. -/
theorem realize_congr (s : HState) (L L' : HLayout)
    (hr : L.roots = L'.roots) (hk : ∀ q, L.kids q = L'.kids q)
    (hm : L.mem = L'.mem) (h : Realize s L) : Realize s L' := by
  obtain ⟨r, k, m⟩ := L
  obtain ⟨r', k', m'⟩ := L'
  dsimp only at hr hm hk
  subst hr hm
  have hkk : k = k' := funext hk
  subst hkk
  exact h

/-- Realization only reads the link fields, the rank, min_node and the
arena length: any update preserving those preserves it. -/
theorem realize_frame (s s' : HState) (L : HLayout)
    (hlen : s'.nodes.length = s.nodes.length)
    (hmin : s'.minN = s.minN)
    (hkeep : ∀ j, j < s.nodes.length →
      (getN s' j).parent = (getN s j).parent ∧
      (getN s' j).leftSib = (getN s j).leftSib ∧
      (getN s' j).rightSib = (getN s j).rightSib ∧
      (getN s' j).children = (getN s j).children ∧
      (getN s' j).rank = (getN s j).rank)
    (h : Realize s L) : Realize s' L := by
  have hm : ∀ j ∈ L.mem, j < s.nodes.length := h.memLT
  refine ⟨h.rootsND, h.kidsND, h.memND, fun i hi => hlen ▸ h.memLT i hi,
    h.rootsMem, h.kidsMem, h.kidsNil, ?_, ?_, h.cover, ?_, ?_, ?_, ?_, h.acyc, ?_, ?_⟩
  · intro i hi
    rw [(hkeep i (hm i (h.rootsMem i hi))).1]
    exact h.rootsPar i hi
  · intro p c hc
    rw [(hkeep c (hm c (h.kidsMem p c hc))).1]
    exact h.kidsPar p c hc
  · exact chainFrom_frame s s' L.roots none
      (fun x hx => ⟨(hkeep x (hm x (h.rootsMem x hx))).2.1,
        (hkeep x (hm x (h.rootsMem x hx))).2.2.1⟩) h.rootsChain
  · intro p hp
    exact chainFrom_frame s s' (L.kids p) none
      (fun x hx => ⟨(hkeep x (hm x (h.kidsMem p x hx))).2.1,
        (hkeep x (hm x (h.kidsMem p x hx))).2.2.1⟩) (h.kidsChain p hp)
  · intro p hp
    rw [(hkeep p (hm p hp)).2.2.2.2]
    exact h.rankEq p hp
  · intro p hp
    rw [(hkeep p (hm p hp)).2.2.2.1]
    exact h.chPtr p hp
  · rw [hmin]
    exact h.minOK
  · intro i hlt hni
    have h0 := h.cleanOut i (by rwa [hlen] at hlt) hni
    obtain ⟨k1, k2, k3, k4, k5⟩ := hkeep i (by rwa [hlen] at hlt)
    exact ⟨k1.trans h0.1, k2.trans h0.2.1, k3.trans h0.2.2.1, k4.trans h0.2.2.2.1,
      k5.trans h0.2.2.2.2⟩

/-- Bucket writes do not affect realization. -/
theorem realize_setBucket (s : HState) (L : HLayout) (r : ℕ) (v : Option ℕ)
    (h : Realize s L) : Realize (setBucket s r v) L :=
  realize_frame s (setBucket s r v) L rfl rfl
    (fun _ _ => ⟨rfl, rfl, rfl, rfl, rfl⟩) h

/-- Clearing the bucket table does not affect realization. -/
theorem realize_clearBuckets (s : HState) (L : HLayout)
    (h : Realize s L) : Realize (clearBuckets s) L :=
  realize_frame s (clearBuckets s) L rfl rfl
    (fun _ _ => ⟨rfl, rfl, rfl, rfl, rfl⟩) h

/-- Redirecting min_node to a root preserves realization. -/
theorem realize_minN (s : HState) (L : HLayout) (t : ℕ) (ht : t ∈ L.roots)
    (h : Realize s L) : Realize { s with minN := some t } L := by
  refine ⟨h.rootsND, h.kidsND, h.memND, h.memLT, h.rootsMem, h.kidsMem, h.kidsNil,
    h.rootsPar, h.kidsPar, h.cover, ?_, ?_, h.rankEq, h.chPtr, h.acyc, ht, h.cleanOut⟩
  · exact chainFrom_frame s _ L.roots none (fun _ _ => ⟨rfl, rfl⟩) h.rootsChain
  · exact fun p hp =>
      chainFrom_frame s _ (L.kids p) none (fun _ _ => ⟨rfl, rfl⟩) (h.kidsChain p hp)

/-- No element is reachable from an empty root list. -/
theorem kreach_nil (kids : ℕ → List ℕ) (i : ℕ) (h : KReach [] kids i) : False := by
  induction h with
  | root j hj => simp at hj
  | child p c hp hc ih => exact ih

/-- An empty root list forces an empty membership list. -/
theorem realize_roots_nil (s : HState) (L : HLayout) (h : Realize s L)
    (hr : L.roots = []) : L.mem = [] := by
  cases hm : L.mem with
  | nil => rfl
  | cons a t =>
    have ha := h.acyc a (by rw [hm]; simp)
    rw [hr] at ha
    exact absurd ha (fun hh => kreach_nil L.kids a hh)

/-- Root extension preserves downward reachability. -/
theorem kreach_roots_append (roots ex : List ℕ) (kids : ℕ → List ℕ) (i : ℕ)
    (h : KReach roots kids i) : KReach (roots ++ ex) kids i := by
  induction h with
  | root j hj => exact KReach.root j (by simp [hj])
  | child p c hp hc ih => exact KReach.child p c ih hc

/-- Growing one child list preserves downward reachability. -/
theorem kreach_kids_grow (roots : List ℕ) (kids : ℕ → List ℕ) (w : ℕ)
    (ex : List ℕ) (i : ℕ) (h : KReach roots kids i) :
    KReach roots (fun q => if q = w then kids w ++ ex else kids q) i := by
  induction h with
  | root j hj => exact KReach.root j hj
  | child p c hp hc ih =>
    refine KReach.child p c ih ?_
    by_cases hq : p = w
    · subst hq
      simp [hc]
    · simpa [hq] using hc

/-- Acyclicity: no member node is its own parent. -/
theorem realize_no_self_parent (s : HState) (L : HLayout) (h : Realize s L) :
    ∀ i ∈ L.mem, (getN s i).parent ≠ some i := by
  have key : ∀ j, KReach L.roots L.kids j → (getN s j).parent ≠ some j := by
    intro j hj
    induction hj with
    | root a ha =>
      rw [h.rootsPar a ha]
      exact fun hc => Option.noConfusion hc
    | child p c hp hc ih =>
      intro hcon
      have hpc := (h.kidsPar p c hc).symm.trans hcon
      have hpc2 : p = c := Option.some.inj hpc
      subst hpc2
      exact ih (h.kidsPar p p hc)
  exact fun i hi => key i (h.acyc i hi)

/-- A root is in no child list. -/
theorem realize_root_not_kid (s : HState) (L : HLayout) (h : Realize s L)
    (i p : ℕ) (hi : i ∈ L.roots) : i ∉ L.kids p := by
  intro hk
  have h1 := h.rootsPar i hi
  have h2 := h.kidsPar p i hk
  rw [h1] at h2
  exact Option.noConfusion h2

/-- Child lists of distinct members are disjoint. -/
theorem realize_kids_unique (s : HState) (L : HLayout) (h : Realize s L)
    (p q c : ℕ) (hp : c ∈ L.kids p) (hq : c ∈ L.kids q) : p = q :=
  Option.some.inj ((h.kidsPar p c hp).symm.trans (h.kidsPar q c hq))

/-- No member is in its own child list. -/
theorem realize_not_own_kid (s : HState) (L : HLayout) (h : Realize s L)
    (p : ℕ) (hm : p ∈ L.mem) : p ∉ L.kids p :=
  fun hk => realize_no_self_parent s L h p hm (h.kidsPar p p hk)

/-- A member with no parent is a root. -/
theorem realize_parentless_root (s : HState) (L : HLayout) (h : Realize s L)
    (i : ℕ) (hi : i ∈ L.mem) (hp : (getN s i).parent = none) : i ∈ L.roots := by
  rcases h.cover i hi with hr | ⟨q, hq⟩
  · exact hr
  · rw [h.kidsPar q i hq] at hp
    exact Option.noConfusion hp

/-- A member with a parent pointer is in that parent's child list. -/
theorem realize_parent_kid (s : HState) (L : HLayout) (h : Realize s L)
    (i p : ℕ) (hi : i ∈ L.mem) (hp : (getN s i).parent = some p) : i ∈ L.kids p := by
  rcases h.cover i hi with hr | ⟨q, hq⟩
  · rw [h.rootsPar i hr] at hp
    exact Option.noConfusion hp
  · have := (h.kidsPar q i hq).symm.trans hp
    rw [← Option.some.inj this]
    exact hq

/-- Walking right from any root lands on the last root. -/
theorem rightmostSib_root (s : HState) (L : HLayout) (h : Realize s L)
    (i : ℕ) (hi : i ∈ L.roots) :
    ∃ t, L.roots.getLast? = some t ∧ rightmostSib s s.nodes.length i = t := by
  obtain ⟨p1, p2, hsplit⟩ := List.append_of_mem hi
  have hlen := nodup_lt_length L.roots s.nodes.length h.rootsND
    (fun x hx => h.memLT x (h.rootsMem x hx))
  have hfuel : p2.length ≤ s.nodes.length := by
    rw [hsplit] at hlen
    simp at hlen
    omega
  refine ⟨p2.getLastD i, ?_, ?_⟩
  · rw [hsplit, List.getLast?_append_cons]
    simp [List.getLast?_cons, List.getLastD_eq_getLast?]
  · exact chainFrom_rightmost s p2 p1 i s.nodes.length
      (by rw [← hsplit]; exact h.rootsChain) hfuel

/-- Walking left from any chain member lands on the chain head. -/
theorem leftmostSib_mem (s : HState) (l : List ℕ) (i fuel : ℕ) (hi : i ∈ l)
    (hch : chainFrom s none l) (hfuel : l.length ≤ fuel) :
    l.head? = some (leftmostSib s fuel i) := by
  obtain ⟨p1, p2, hsplit⟩ := List.append_of_mem hi
  have h1 : p1.length ≤ fuel := by
    rw [hsplit] at hfuel
    simp at hfuel
    omega
  rw [chainFrom_leftmost s p1 p2 i fuel (by rw [← hsplit]; exact hch) h1, hsplit]
  cases p1 with
  | nil => rfl
  | cons a t => rfl

/-- rightmost_sibling only reads right-sibling links. -/
theorem rightmostSib_congr (s s' : HState)
    (hkeep : ∀ x, (getN s' x).rightSib = (getN s x).rightSib) :
    ∀ fuel i, rightmostSib s' fuel i = rightmostSib s fuel i := by
  intro fuel
  induction fuel with
  | zero => intro i; rfl
  | succ f ih =>
    intro i
    unfold rightmostSib
    rw [hkeep i]
    cases (getN s i).rightSib with
    | none => rfl
    | some j => exact ih j

/-- leftmost_sibling only reads left-sibling links. -/
theorem leftmostSib_congr (s s' : HState)
    (hkeep : ∀ x, (getN s' x).leftSib = (getN s x).leftSib) :
    ∀ fuel i, leftmostSib s' fuel i = leftmostSib s fuel i := by
  intro fuel
  induction fuel with
  | zero => intro i; rfl
  | succ f ih =>
    intro i
    unfold leftmostSib
    rw [hkeep i]
    cases (getN s i).leftSib with
    | none => rfl
    | some j => exact ih j

/-- A list ending in a given element decomposes as an append. -/
theorem getLast_decomp {α : Type} (l : List α) (a : α) (h : l.getLast? = some a) :
    ∃ l', l = l' ++ [a] := by
  induction l with
  | nil => exact absurd h (by simp)
  | cons b t ih =>
    cases ht : t with
    | nil =>
      rw [ht] at h
      have : b = a := by simpa using h
      exact ⟨[], by simp [this]⟩
    | cons c t2 =>
      rw [ht] at ih
      obtain ⟨l', hl'⟩ := ih (by rw [← h, ht, List.getLast?_cons_cons])
      refine ⟨b :: l', ?_⟩
      rw [hl']
      rfl

/-- Pointwise effect of add_sibling on a parentless (root) chain: the last
chain element t gains newSib c on its right, c is linked after t with no
parent, and no other node changes. -/
theorem addSibling_spec_root (s : HState) (i c t : ℕ)
    (hpar : (getN s i).parent = none)
    (ht : rightmostSib s s.nodes.length i = t)
    (htl : t < s.nodes.length) (hcl : c < s.nodes.length) (htc : t ≠ c) :
    getN (addSibling s i c) t = { getN s t with rightSib := some c } ∧
    getN (addSibling s i c) c =
      { getN s c with leftSib := some t, rightSib := none, parent := none } ∧
    ∀ j, j ≠ t → j ≠ c → getN (addSibling s i c) j = getN s j := by
  unfold addSibling
  dsimp only
  rw [ht]
  have hpi : (getN (putN s t (fun nd => { nd with rightSib := some c })) i).parent
      = (getN s i).parent := by
    rw [getN_putN_keep FNode.parent]
    exact fun _ => rfl
  rw [hpi, hpar]
  have hc2 : c < (putN s t (fun nd => { nd with rightSib := some c })).nodes.length := by
    rwa [length_putN]
  have hscr : (getN (putN (putN s t (fun nd => { nd with rightSib := some c })) c
      (fun nd => { nd with leftSib := some t, rightSib := none, parent := none })) c).parent
      = none := by
    rw [getN_putN_self, if_pos hc2]
  rw [hscr]
  dsimp only
  refine ⟨?_, ?_, ?_⟩
  · rw [getN_putN_ne _ _ _ _ (Ne.symm htc), getN_putN_self, if_pos htl]
  · rw [getN_putN_self, if_pos hc2, getN_putN_ne _ _ _ _ htc]
  · intro j hjt hjc
    rw [getN_putN_ne _ _ _ _ (Ne.symm hjc), getN_putN_ne _ _ _ _ (Ne.symm hjt)]

/-- Pointwise effect of add_sibling on a child chain under parent p: the
last chain element t gains newSib c on its right, c is linked after t
with parent p, p's rank rises by one, and no other node changes. -/
theorem addSibling_spec_child (s : HState) (i c t p : ℕ)
    (hpar : (getN s i).parent = some p)
    (ht : rightmostSib s s.nodes.length i = t)
    (htl : t < s.nodes.length) (hcl : c < s.nodes.length) (hpl : p < s.nodes.length)
    (htc : t ≠ c) (hpt : p ≠ t) (hpc : p ≠ c) :
    getN (addSibling s i c) t = { getN s t with rightSib := some c } ∧
    getN (addSibling s i c) c =
      { getN s c with leftSib := some t, rightSib := none, parent := some p } ∧
    getN (addSibling s i c) p = { getN s p with rank := (getN s p).rank + 1 } ∧
    ∀ j, j ≠ t → j ≠ c → j ≠ p → getN (addSibling s i c) j = getN s j := by
  unfold addSibling
  dsimp only
  rw [ht]
  have hpi : (getN (putN s t (fun nd => { nd with rightSib := some c })) i).parent
      = (getN s i).parent := by
    rw [getN_putN_keep FNode.parent]
    exact fun _ => rfl
  rw [hpi, hpar]
  have hc2 : c < (putN s t (fun nd => { nd with rightSib := some c })).nodes.length := by
    rwa [length_putN]
  have hscr : (getN (putN (putN s t (fun nd => { nd with rightSib := some c })) c
      (fun nd => { nd with leftSib := some t, rightSib := none, parent := some p })) c).parent
      = some p := by
    rw [getN_putN_self, if_pos hc2]
  rw [hscr]
  dsimp only
  have hp3 : p <
      (putN (putN s t (fun nd => { nd with rightSib := some c })) c
      (fun nd => { nd with leftSib := some t, rightSib := none, parent := some p })
      ).nodes.length := by
    rwa [length_putN, length_putN]
  refine ⟨?_, ?_, ?_, ?_⟩
  · rw [getN_putN_ne _ _ _ _ hpt, getN_putN_ne _ _ _ _ (Ne.symm htc),
      getN_putN_self, if_pos htl]
  · rw [getN_putN_ne _ _ _ _ hpc, getN_putN_self, if_pos hc2,
      getN_putN_ne _ _ _ _ htc]
  · rw [getN_putN_self, if_pos hp3, getN_putN_ne _ _ _ _ (Ne.symm hpc),
      getN_putN_ne _ _ _ _ (Ne.symm hpt)]
  · intro j hjt hjc hjp
    rw [getN_putN_ne _ _ _ _ (Ne.symm hjp), getN_putN_ne _ _ _ _ (Ne.symm hjc),
      getN_putN_ne _ _ _ _ (Ne.symm hjt)]

/-- Pointwise effect of remove on a parentless node x: x's links are
cleared, its chain neighbours are relinked across it, and no other node
changes. -/
theorem removeN_spec_root (s : HState) (x : ℕ)
    (hpar : (getN s x).parent = none) (hx : x < s.nodes.length)
    (hlx : (getN s x).leftSib ≠ some x) (hrx : (getN s x).rightSib ≠ some x)
    (hlr : ∀ y, (getN s x).leftSib = some y → (getN s x).rightSib ≠ some y)
    (hlb : ∀ y, (getN s x).leftSib = some y → y < s.nodes.length)
    (hrb : ∀ y, (getN s x).rightSib = some y → y < s.nodes.length) :
    getN (removeN s x) x =
      { getN s x with leftSib := none, rightSib := none, parent := none } ∧
    (∀ y, (getN s x).leftSib = some y →
      getN (removeN s x) y = { getN s y with rightSib := (getN s x).rightSib }) ∧
    (∀ y, (getN s x).rightSib = some y →
      getN (removeN s x) y = { getN s y with leftSib := (getN s x).leftSib }) ∧
    (∀ j, j ≠ x → (getN s x).leftSib ≠ some j → (getN s x).rightSib ≠ some j →
      getN (removeN s x) j = getN s j) := by
  unfold removeN
  dsimp only
  rw [hpar]
  dsimp only
  rcases hL : (getN s x).leftSib with _ | l
  · dsimp only
    simp only [hL]
    rcases hR : (getN s x).rightSib with _ | r
    · dsimp only
      refine ⟨?_, ?_, ?_, ?_⟩
      · rw [getN_putN_self, if_pos hx]
      · exact fun y hy => Option.noConfusion hy
      · exact fun y hy => Option.noConfusion hy
      · intro j hjx _ _
        rw [getN_putN_ne _ _ _ _ (Ne.symm hjx)]
    · dsimp only
      have hrx' : r ≠ x := fun h => hrx (by rw [hR, h])
      have hr2 : r < s.nodes.length := hrb r hR
      refine ⟨?_, ?_, ?_, ?_⟩
      · rw [getN_putN_self]
        rw [show (putN s r (fun nd => { nd with leftSib := none })).nodes.length
            = s.nodes.length from length_putN s r _]
        rw [if_pos hx, getN_putN_ne _ _ _ _ hrx']
      · exact fun y hy => Option.noConfusion hy
      · intro y hy
        have hyr : r = y := Option.some.inj hy
        subst hyr
        rw [getN_putN_ne _ _ _ _ (Ne.symm hrx'), getN_putN_self, if_pos hr2]
      · intro j hjx _ hjr
        have hrj : r ≠ j := fun h => hjr (by rw [h])
        rw [getN_putN_ne _ _ _ _ (Ne.symm hjx), getN_putN_ne _ _ _ _ hrj]
  · dsimp only
    have hlx' : l ≠ x := fun h => hlx (by rw [hL, h])
    have hl2 : l < s.nodes.length := hlb l hL
    simp only [getN_putN_ne _ _ _ _ hlx']
    simp only [hL]
    rcases hR : (getN s x).rightSib with _ | r
    · dsimp only
      refine ⟨?_, ?_, ?_, ?_⟩
      · rw [getN_putN_self]
        rw [show (putN s l (fun nd => { nd with rightSib := none })).nodes.length
            = s.nodes.length from length_putN s l _]
        rw [if_pos hx, getN_putN_ne _ _ _ _ hlx']
      · intro y hy
        have hyl : l = y := Option.some.inj hy
        subst hyl
        rw [getN_putN_ne _ _ _ _ (Ne.symm hlx'), getN_putN_self, if_pos hl2]
      · exact fun y hy => Option.noConfusion hy
      · intro j hjx hjl _
        have hlj : l ≠ j := fun h => hjl (by rw [h])
        rw [getN_putN_ne _ _ _ _ (Ne.symm hjx), getN_putN_ne _ _ _ _ hlj]
    · dsimp only
      have hrx' : r ≠ x := fun h => hrx (by rw [hR, h])
      have hrl : r ≠ l := fun h => hlr l hL (by rw [hR, h])
      have hr2 : r < s.nodes.length := hrb r hR
      refine ⟨?_, ?_, ?_, ?_⟩
      · rw [getN_putN_self]
        rw [show (putN (putN s l (fun nd => { nd with rightSib := some r })) r
            (fun nd => { nd with leftSib := some l })).nodes.length
            = s.nodes.length from by rw [length_putN, length_putN]]
        rw [if_pos hx, getN_putN_ne _ _ _ _ hrx', getN_putN_ne _ _ _ _ hlx']
      · intro y hy
        have hyl : l = y := Option.some.inj hy
        subst hyl
        rw [getN_putN_ne _ _ _ _ (Ne.symm hlx'), getN_putN_ne _ _ _ _ hrl,
          getN_putN_self, if_pos hl2]
      · intro y hy
        have hyr : r = y := Option.some.inj hy
        subst hyr
        rw [getN_putN_ne _ _ _ _ (Ne.symm hrx'), getN_putN_self]
        rw [show (putN s l (fun nd => { nd with rightSib := some r })).nodes.length
            = s.nodes.length from length_putN s l _]
        rw [if_pos hr2, getN_putN_ne _ _ _ _ (Ne.symm hrl)]
      · intro j hjx hjl hjr
        have hlj : l ≠ j := fun h => hjl (by rw [h])
        have hrj : r ≠ j := fun h => hjr (by rw [h])
        rw [getN_putN_ne _ _ _ _ (Ne.symm hjx), getN_putN_ne _ _ _ _ hrj,
          getN_putN_ne _ _ _ _ hlj]

/-- Pointwise effect of remove on a node x with parent p: x's links are
cleared, p's rank drops by one and its children pointer is redirected to
a neighbour of x, x's chain neighbours are relinked across it, and no
other node changes. -/
theorem removeN_spec_kid (s : HState) (x p : ℕ)
    (hpar : (getN s x).parent = some p) (hx : x < s.nodes.length)
    (hp : p < s.nodes.length) (hpx : p ≠ x)
    (hlx : (getN s x).leftSib ≠ some x) (hrx : (getN s x).rightSib ≠ some x)
    (hlp : (getN s x).leftSib ≠ some p) (hrp : (getN s x).rightSib ≠ some p)
    (hlr : ∀ y, (getN s x).leftSib = some y → (getN s x).rightSib ≠ some y)
    (hlb : ∀ y, (getN s x).leftSib = some y → y < s.nodes.length)
    (hrb : ∀ y, (getN s x).rightSib = some y → y < s.nodes.length) :
    getN (removeN s x) x =
      { getN s x with leftSib := none, rightSib := none, parent := none } ∧
    getN (removeN s x) p =
      { getN s p with rank := (getN s p).rank - 1, children := ((getN s x).leftSib).or ((getN s x).rightSib) } ∧
    (∀ y, (getN s x).leftSib = some y →
      getN (removeN s x) y = { getN s y with rightSib := (getN s x).rightSib }) ∧
    (∀ y, (getN s x).rightSib = some y →
      getN (removeN s x) y = { getN s y with leftSib := (getN s x).leftSib }) ∧
    (∀ j, j ≠ x → j ≠ p → (getN s x).leftSib ≠ some j → (getN s x).rightSib ≠ some j →
      getN (removeN s x) j = getN s j) := by
  unfold removeN
  dsimp only
  rw [hpar]
  dsimp only
  simp only [getN_putN_ne _ _ _ _ hpx]
  rcases hL : (getN s x).leftSib with _ | l
  · dsimp only
    rcases hR : (getN s x).rightSib with _ | r
    · dsimp only
      simp only [getN_putN_ne _ _ _ _ hpx, hL, hR]
      refine ⟨?_, ?_, ?_, ?_, ?_⟩
      · rw [getN_putN_self, if_pos (by simp only [length_putN]; exact hx),
          getN_putN_ne _ _ _ _ hpx, getN_putN_ne _ _ _ _ hpx]
      · rw [getN_putN_ne _ _ _ _ (Ne.symm hpx), getN_putN_self,
          if_pos (by simp only [length_putN]; exact hp), getN_putN_self, if_pos hp]
        all_goals rfl
      · exact fun y hy => Option.noConfusion hy
      · exact fun y hy => Option.noConfusion hy
      · intro j hjx hjp _ _
        rw [getN_putN_ne _ _ _ _ (Ne.symm hjx), getN_putN_ne _ _ _ _ (Ne.symm hjp),
          getN_putN_ne _ _ _ _ (Ne.symm hjp)]
    · dsimp only
      have hrx' : r ≠ x := fun h => hrx (by rw [hR, h])
      have hrp' : r ≠ p := fun h => hrp (by rw [hR, h])
      have hr2 : r < s.nodes.length := hrb r hR
      simp only [getN_putN_ne _ _ _ _ hpx, getN_putN_ne _ _ _ _ hrx', hL, hR]
      refine ⟨?_, ?_, ?_, ?_, ?_⟩
      · rw [getN_putN_self, if_pos (by simp only [length_putN]; exact hx),
          getN_putN_ne _ _ _ _ hrx', getN_putN_ne _ _ _ _ hpx,
          getN_putN_ne _ _ _ _ hpx]
      · rw [getN_putN_ne _ _ _ _ (Ne.symm hpx), getN_putN_ne _ _ _ _ hrp',
          getN_putN_self, if_pos (by simp only [length_putN]; exact hp),
          getN_putN_self, if_pos hp]
        all_goals rfl
      · exact fun y hy => Option.noConfusion hy
      · intro y hy
        have hyr : r = y := Option.some.inj hy
        subst hyr
        rw [getN_putN_ne _ _ _ _ (Ne.symm hrx'), getN_putN_self,
          if_pos (by simp only [length_putN]; exact hr2),
          getN_putN_ne _ _ _ _ (Ne.symm hrp'), getN_putN_ne _ _ _ _ (Ne.symm hrp')]
      · intro j hjx hjp _ hjr
        have hrj : r ≠ j := fun h => hjr (by rw [h])
        rw [getN_putN_ne _ _ _ _ (Ne.symm hjx), getN_putN_ne _ _ _ _ hrj,
          getN_putN_ne _ _ _ _ (Ne.symm hjp), getN_putN_ne _ _ _ _ (Ne.symm hjp)]
  · dsimp only
    have hlx' : l ≠ x := fun h => hlx (by rw [hL, h])
    have hlp' : l ≠ p := fun h => hlp (by rw [hL, h])
    have hl2 : l < s.nodes.length := hlb l hL
    simp only [getN_putN_ne _ _ _ _ hpx, getN_putN_ne _ _ _ _ hlx', hL]
    rcases hR : (getN s x).rightSib with _ | r
    · dsimp only
      refine ⟨?_, ?_, ?_, ?_, ?_⟩
      · rw [getN_putN_self, if_pos (by simp only [length_putN]; exact hx),
          getN_putN_ne _ _ _ _ hlx', getN_putN_ne _ _ _ _ hpx,
          getN_putN_ne _ _ _ _ hpx]
      · rw [getN_putN_ne _ _ _ _ (Ne.symm hpx), getN_putN_ne _ _ _ _ hlp',
          getN_putN_self, if_pos (by simp only [length_putN]; exact hp),
          getN_putN_self, if_pos hp]
        all_goals rfl
      · intro y hy
        have hyl : l = y := Option.some.inj hy
        subst hyl
        rw [getN_putN_ne _ _ _ _ (Ne.symm hlx'), getN_putN_self,
          if_pos (by simp only [length_putN]; exact hl2),
          getN_putN_ne _ _ _ _ (Ne.symm hlp'), getN_putN_ne _ _ _ _ (Ne.symm hlp')]
      · exact fun y hy => Option.noConfusion hy
      · intro j hjx hjp hjl _
        have hlj : l ≠ j := fun h => hjl (by rw [h])
        rw [getN_putN_ne _ _ _ _ (Ne.symm hjx), getN_putN_ne _ _ _ _ hlj,
          getN_putN_ne _ _ _ _ (Ne.symm hjp), getN_putN_ne _ _ _ _ (Ne.symm hjp)]
    · dsimp only
      have hrx' : r ≠ x := fun h => hrx (by rw [hR, h])
      have hrp' : r ≠ p := fun h => hrp (by rw [hR, h])
      have hrl : r ≠ l := fun h => hlr l hL (by rw [hR, h])
      have hr2 : r < s.nodes.length := hrb r hR
      refine ⟨?_, ?_, ?_, ?_, ?_⟩
      · rw [getN_putN_self, if_pos (by simp only [length_putN]; exact hx),
          getN_putN_ne _ _ _ _ hrx', getN_putN_ne _ _ _ _ hlx',
          getN_putN_ne _ _ _ _ hpx, getN_putN_ne _ _ _ _ hpx]
      · rw [getN_putN_ne _ _ _ _ (Ne.symm hpx), getN_putN_ne _ _ _ _ hrp',
          getN_putN_ne _ _ _ _ hlp', getN_putN_self,
          if_pos (by simp only [length_putN]; exact hp), getN_putN_self, if_pos hp]
        all_goals rfl
      · intro y hy
        have hyl : l = y := Option.some.inj hy
        subst hyl
        rw [getN_putN_ne _ _ _ _ (Ne.symm hlx'), getN_putN_ne _ _ _ _ hrl,
          getN_putN_self, if_pos (by simp only [length_putN]; exact hl2),
          getN_putN_ne _ _ _ _ (Ne.symm hlp'), getN_putN_ne _ _ _ _ (Ne.symm hlp')]
      · intro y hy
        have hyr : r = y := Option.some.inj hy
        subst hyr
        rw [getN_putN_ne _ _ _ _ (Ne.symm hrx'), getN_putN_self,
          if_pos (by simp only [length_putN]; exact hr2),
          getN_putN_ne _ _ _ _ (Ne.symm hrl),
          getN_putN_ne _ _ _ _ (Ne.symm hrp'), getN_putN_ne _ _ _ _ (Ne.symm hrp')]
      · intro j hjx hjp hjl hjr
        have hlj : l ≠ j := fun h => hjl (by rw [h])
        have hrj : r ≠ j := fun h => hjr (by rw [h])
        rw [getN_putN_ne _ _ _ _ (Ne.symm hjx), getN_putN_ne _ _ _ _ hrj,
          getN_putN_ne _ _ _ _ hlj,
          getN_putN_ne _ _ _ _ (Ne.symm hjp), getN_putN_ne _ _ _ _ (Ne.symm hjp)]

/-- insert_node on a fresh (non-member) node appends it to the root list
and the membership, leaving every node's state, value and index as well as
the arena length and the bucket table unchanged. -/
theorem insertNode_realize (s : HState) (L : HLayout) (x : ℕ)
    (h : Realize s L) (hx : x < s.nodes.length) (hxm : x ∉ L.mem) :
    Realize (insertNode s x)
      { roots := L.roots ++ [x], kids := L.kids, mem := L.mem ++ [x] } ∧
    (insertNode s x).nodes.length = s.nodes.length ∧
    (insertNode s x).buckets = s.buckets ∧
    (∀ j, (getN (insertNode s x) j).state = (getN s j).state) ∧
    (∀ j, (getN (insertNode s x) j).val = (getN s j).val) ∧
    (∀ j, (getN (insertNode s x) j).index = (getN s j).index) := by
  have hcx := h.cleanOut x hx hxm
  unfold insertNode
  cases hm : s.minN with
  | none =>
    have hr0 : L.roots = [] := by
      have hh := h.minOK
      rwa [hm] at hh
    have hm0 : L.mem = [] := realize_roots_nil s L h hr0
    have hkn : ∀ p, L.kids p = [] := fun p => h.kidsNil p (by simp [hm0])
    dsimp only
    refine ⟨⟨?_, h.kidsND, ?_, ?_, ?_, ?_, ?_, ?_, ?_, ?_, ?_, ?_, ?_, ?_, ?_, ?_, ?_⟩,
      rfl, rfl, fun j => rfl, fun j => rfl, fun j => rfl⟩
    · simp [hr0]
    · simp [hm0]
    · intro i hi
      rw [hm0] at hi
      simp at hi
      subst hi
      exact hx
    · intro i hi
      rw [hr0] at hi
      simp at hi
      simp [hi]
    · intro p c hc
      rw [hkn p] at hc
      exact absurd hc (by simp)
    · intro p _
      exact hkn p
    · intro i hi
      rw [hr0] at hi
      simp at hi
      subst hi
      exact hcx.1
    · intro p c hc
      rw [hkn p] at hc
      exact absurd hc (by simp)
    · intro i hi
      rw [hm0] at hi
      simp at hi
      subst hi
      left
      simp
    · rw [hr0]
      exact ⟨hcx.2.1, hcx.2.2.1, trivial⟩
    · intro p _
      rw [hkn p]
      trivial
    · intro p hp
      rw [hm0] at hp
      simp at hp
      rw [hp]
      show (getN s x).rank = (L.kids x).length
      rw [hkn x, hcx.2.2.2.2]
      rfl
    · intro p hp
      rw [hm0] at hp
      simp at hp
      rw [hp]
      refine ⟨⟨fun _ => hkn x, fun _ => hcx.2.2.2.1⟩, ?_⟩
      intro c hcc
      have hcc2 : (getN s x).children = some c := hcc
      rw [hcx.2.2.2.1] at hcc2
      exact Option.noConfusion hcc2
    · intro i hi
      rw [hm0] at hi
      simp at hi
      subst hi
      exact KReach.root i (by simp)
    · show x ∈ L.roots ++ [x]
      simp
    · intro j hj hnj
      have hj2 : j < s.nodes.length := hj
      exact h.cleanOut j hj2 (fun hh => absurd (hm0 ▸ hh) (List.not_mem_nil j))
  | some m =>
    have hmr : m ∈ L.roots := by
      have hh := h.minOK
      rwa [hm] at hh
    obtain ⟨t, hlast, hwalk⟩ := rightmostSib_root s L h m hmr
    have htr : t ∈ L.roots := List.mem_of_getLast?_eq_some hlast
    have htm : t ∈ L.mem := h.rootsMem t htr
    have htl : t < s.nodes.length := h.memLT t htm
    have htx : t ≠ x := fun hh => hxm (hh ▸ htm)
    have hparm : (getN s m).parent = none := h.rootsPar m hmr
    obtain ⟨hspecT, hspecX, hspecF⟩ := addSibling_spec_root s m x t hparm hwalk htl hx htx
    obtain ⟨l0, hdec⟩ := getLast_decomp L.roots t hlast
    have hroots_x : x ∉ L.roots := fun hh => hxm (h.rootsMem x hh)
    have hframe_k : ∀ p, ∀ c ∈ L.kids p, getN (addSibling s m x) c = getN s c := by
      intro p c hc
      exact hspecF c (fun hh => realize_root_not_kid s L h t p htr (hh ▸ hc))
        (fun hh => hxm (hh ▸ h.kidsMem p c hc))
    have hrealA : Realize (addSibling s m x)
        { roots := L.roots ++ [x], kids := L.kids, mem := L.mem ++ [x] } := by
      refine ⟨?_, h.kidsND, ?_, ?_, ?_, ?_, ?_, ?_, ?_, ?_, ?_, ?_, ?_, ?_, ?_, ?_, ?_⟩
      · rw [List.nodup_append]
        refine ⟨h.rootsND, by simp, ?_⟩
        intro a ha hb
        simp at hb
        subst hb
        exact hroots_x ha
      · rw [List.nodup_append]
        refine ⟨h.memND, by simp, ?_⟩
        intro a ha hb
        simp at hb
        subst hb
        exact hxm ha
      · intro i hi
        rw [length_addSibling]
        rcases List.mem_append.mp hi with hi | hi
        · exact h.memLT i hi
        · simp at hi
          subst hi
          exact hx
      · intro i hi
        rcases List.mem_append.mp hi with hi | hi
        · exact List.mem_append_left _ (h.rootsMem i hi)
        · simp at hi
          subst hi
          simp
      · intro p c hc
        exact List.mem_append_left _ (h.kidsMem p c hc)
      · intro p hp
        exact h.kidsNil p (fun hh => hp (List.mem_append_left _ hh))
      · intro i hi
        rcases List.mem_append.mp hi with hi | hi
        · by_cases hit : i = t
          · subst hit
            rw [hspecT]
            exact h.rootsPar i hi
          · rw [hspecF i hit (fun hh => hroots_x (hh ▸ hi))]
            exact h.rootsPar i hi
        · simp at hi
          subst hi
          rw [hspecX]
      · intro p c hc
        rw [hframe_k p c hc]
        exact h.kidsPar p c hc
      · intro i hi
        rcases List.mem_append.mp hi with hi | hi
        · rcases h.cover i hi with hcv | ⟨p, hcv⟩
          · exact Or.inl (List.mem_append_left _ hcv)
          · exact Or.inr ⟨p, hcv⟩
        · simp at hi
          subst hi
          exact Or.inl (by simp)
      · rw [hdec]
        refine chainFrom_append s _ l0 t x none ?_ ?_ ?_ ?_
        · rw [← hdec]
          exact h.rootsChain
        · rw [hspecT]
          exact ⟨rfl, rfl⟩
        · rw [hspecX]
          exact ⟨rfl, rfl⟩
        · intro y hy
          have hnd := h.rootsND
          rw [hdec, List.nodup_append] at hnd
          have hyt : y ≠ t := fun hh => hnd.2.2 hy (by simp [hh])
          have hyx : y ≠ x := fun hh =>
            hroots_x (hh ▸ (hdec ▸ List.mem_append_left _ hy))
          rw [hspecF y hyt hyx]
          exact ⟨rfl, rfl⟩
      · intro p hp
        rcases List.mem_append.mp hp with hp | hp
        · refine chainFrom_frame s _ (L.kids p) none ?_ (h.kidsChain p hp)
          intro e he
          rw [hframe_k p e he]
          exact ⟨rfl, rfl⟩
        · simp at hp
          subst hp
          rw [h.kidsNil p hxm]
          trivial
      · intro p hp
        rcases List.mem_append.mp hp with hp | hp
        · by_cases hpt : p = t
          · subst hpt
            rw [hspecT]
            exact h.rankEq p (h.rootsMem p htr)
          · by_cases hpx2 : p = x
            · exact absurd (hpx2 ▸ hp) hxm
            · rw [hspecF p hpt hpx2]
              exact h.rankEq p hp
        · simp at hp
          subst hp
          rw [hspecX, h.kidsNil p hxm]
          exact hcx.2.2.2.2
      · intro p hp
        rcases List.mem_append.mp hp with hp | hp
        · by_cases hpt : p = t
          · subst hpt
            rw [hspecT]
            exact h.chPtr p (h.rootsMem p htr)
          · by_cases hpx2 : p = x
            · exact absurd (hpx2 ▸ hp) hxm
            · rw [hspecF p hpt hpx2]
              exact h.chPtr p hp
        · simp at hp
          subst hp
          rw [hspecX]
          constructor
          · rw [h.kidsNil p hxm]
            exact ⟨fun _ => rfl, fun _ => hcx.2.2.2.1⟩
          · intro c hcc
            have hcc2 : (getN s p).children = some c := hcc
            rw [hcx.2.2.2.1] at hcc2
            exact Option.noConfusion hcc2
      · intro i hi
        rcases List.mem_append.mp hi with hi | hi
        · exact kreach_roots_append _ [x] _ i (h.acyc i hi)
        · simp at hi
          subst hi
          exact KReach.root i (by simp)
      · rw [minN_addSibling, hm]
        exact List.mem_append_left _ hmr
      · intro j hj hnj
        rw [length_addSibling] at hj
        have hjm : j ∉ L.mem := fun hh => hnj (List.mem_append_left _ hh)
        have hjx : j ≠ x := fun hh => hnj (by simp [hh])
        have hjt : j ≠ t := fun hh => hjm (hh ▸ htm)
        rw [hspecF j hjt hjx]
        exact h.cleanOut j hj hjm
    dsimp only
    refine ⟨?_, ?_, ?_, ?_, ?_, ?_⟩
    · split
      · exact realize_minN _ _ x (by simp) hrealA
      · exact hrealA
    · split
      · exact length_addSibling s m x
      · exact length_addSibling s m x
    · split
      · exact buckets_addSibling s m x
      · exact buckets_addSibling s m x
    · intro j
      split
      · exact addSibling_state_frame s m x j
      · exact addSibling_state_frame s m x j
    · intro j
      split
      · exact addSibling_val_frame s m x j
      · exact addSibling_val_frame s m x j
    · intro j
      split
      · exact addSibling_index_frame s m x j
      · exact addSibling_index_frame s m x j

/-- The head of a list is a member. -/
theorem head_mem_of_eq {α : Type} (l : List α) (a : α) (h : l.head? = some a) :
    a ∈ l := by
  cases l with
  | nil => exact Option.noConfusion h
  | cons b t =>
    have hba : b = a := Option.some.inj h
    subst hba
    simp

/-- Walking right from any chain member with enough fuel lands on the
chain's last element. -/
theorem rightmostSib_chain (s : HState) (l : List ℕ) (i fuel : ℕ) (hi : i ∈ l)
    (hch : chainFrom s none l) (hfuel : l.length ≤ fuel) :
    ∃ t, l.getLast? = some t ∧ rightmostSib s fuel i = t := by
  obtain ⟨p1, p2, hsplit⟩ := List.append_of_mem hi
  refine ⟨p2.getLastD i, ?_, ?_⟩
  · rw [hsplit, List.getLast?_append_cons]
    simp [List.getLast?_cons, List.getLastD_eq_getLast?]
  · exact chainFrom_rightmost s p2 p1 i fuel (by rw [← hsplit]; exact hch)
      (by rw [hsplit] at hfuel; simp at hfuel; omega)

/-- remove never writes a state field. -/
theorem removeN_state_all (s : HState) (i j : ℕ) :
    (getN (removeN s i) j).state = (getN s j).state := by
  unfold removeN
  dsimp only
  repeat' split
  all_goals repeat rw [getN_putN_keep FNode.state]
  all_goals exact fun _ => rfl

/-- remove never writes a val field. -/
theorem removeN_val_all (s : HState) (i j : ℕ) :
    (getN (removeN s i) j).val = (getN s j).val := by
  unfold removeN
  dsimp only
  repeat' split
  all_goals repeat rw [getN_putN_keep FNode.val]
  all_goals exact fun _ => rfl

/-- remove never writes an index field. -/
theorem removeN_index_all (s : HState) (i j : ℕ) :
    (getN (removeN s i) j).index = (getN s j).index := by
  unfold removeN
  dsimp only
  repeat' split
  all_goals repeat rw [getN_putN_keep FNode.index]
  all_goals exact fun _ => rfl

/-- One iteration of the child-promotion loop of remove_min: cutting the
first child x of root m and appending it to the root chain turns x into
the last root and shortens m's child list by one, with the membership
unchanged. -/
theorem promote_step_realize (s : HState) (L : HLayout) (m x : ℕ) (rest : List ℕ)
    (h : Realize s L) (hm : m ∈ L.roots) (hk : L.kids m = x :: rest) :
    Realize (addSibling (removeN s x) m x)
      { roots := L.roots ++ [x], kids := fun q => if q = m then rest else L.kids q,
        mem := L.mem } := by
  have hxk : x ∈ L.kids m := by rw [hk]; simp
  have hmm : m ∈ L.mem := h.rootsMem m hm
  have hxm2 : x ∈ L.mem := h.kidsMem m x hxk
  have hx : x < s.nodes.length := h.memLT x hxm2
  have hml : m < s.nodes.length := h.memLT m hmm
  have hmx : m ≠ x := fun hh => realize_not_own_kid s L h m hmm (hh ▸ hxk)
  have hpar : (getN s x).parent = some m := h.kidsPar m x hxk
  have hchm := h.kidsChain m hmm
  rw [hk] at hchm
  obtain ⟨hxl, hxr, hchrest⟩ := hchm
  have hndk := h.kidsND m
  rw [hk] at hndk
  have hxrest : x ∉ rest := (List.nodup_cons.mp hndk).1
  have hrestk : ∀ e ∈ rest, e ∈ L.kids m := fun e he => by rw [hk]; simp [he]
  have hrhead : ∀ e, rest.head? = some e → e ∈ L.kids m :=
    fun e he => hrestk e (head_mem_of_eq _ _ he)
  have specR := removeN_spec_kid s x m hpar hx hml hmx
    (by rw [hxl]; exact fun hh => Option.noConfusion hh)
    (by rw [hxr]; intro hh; exact hxrest (head_mem_of_eq _ _ hh))
    (by rw [hxl]; exact fun hh => Option.noConfusion hh)
    (by rw [hxr]; intro hh
        exact realize_not_own_kid s L h m hmm (hrhead m hh))
    (fun y hy => by rw [hxl] at hy; exact Option.noConfusion hy)
    (fun y hy => by rw [hxl] at hy; exact Option.noConfusion hy)
    (fun y hy => h.memLT y (h.kidsMem m y (hrhead y (by rw [← hxr]; exact hy))))
  obtain ⟨hRx, hRm, hRl, hRr, hRf⟩ := specR
  have hch1 : chainFrom (removeN s x) none L.roots := by
    refine chainFrom_frame s _ L.roots none ?_ h.rootsChain
    intro e he
    by_cases hem : e = m
    · subst hem
      rw [hRm]
      exact ⟨rfl, rfl⟩
    · have hex : e ≠ x := fun hh => realize_root_not_kid s L h e m he (hh ▸ hxk)
      have hhead : (getN s x).rightSib ≠ some e := by
        rw [hxr]
        intro hh
        exact realize_root_not_kid s L h e m he (hrhead e hh)
      have hleft : (getN s x).leftSib ≠ some e := by
        rw [hxl]
        exact fun hh => Option.noConfusion hh
      rw [hRf e hex hem hleft hhead]
      exact ⟨rfl, rfl⟩
  have hfuel : L.roots.length ≤ (removeN s x).nodes.length := by
    rw [length_removeN]
    exact nodup_lt_length _ _ h.rootsND (fun a ha => h.memLT a (h.rootsMem a ha))
  obtain ⟨t, hlast, hwalk⟩ :=
    rightmostSib_chain (removeN s x) L.roots m (removeN s x).nodes.length hm hch1 hfuel
  have htr : t ∈ L.roots := List.mem_of_getLast?_eq_some hlast
  have htm : t ∈ L.mem := h.rootsMem t htr
  have htl : t < s.nodes.length := h.memLT t htm
  have htx : t ≠ x := fun hh => realize_root_not_kid s L h t m htr (hh ▸ hxk)
  have hth : rest.head? ≠ some t := by
    intro hh
    exact realize_root_not_kid s L h t m htr (hrhead t hh)
  have hparm1 : (getN (removeN s x) m).parent = none := by
    rw [hRm]
    exact h.rootsPar m hm
  obtain ⟨hAt, hAx, hAf⟩ := addSibling_spec_root (removeN s x) m x t hparm1 hwalk
    (by rw [length_removeN]; exact htl) (by rw [length_removeN]; exact hx) htx
  have hfr : ∀ j, j ≠ x → j ≠ t → j ≠ m → rest.head? ≠ some j →
      getN (addSibling (removeN s x) m x) j = getN s j := by
    intro j hjx hjt hjm hjh
    rw [hAf j hjt hjx]
    exact hRf j hjx hjm (by rw [hxl]; exact fun hh => Option.noConfusion hh)
      (by rw [hxr]; exact hjh)
  have hsib : ∀ j, j ≠ x → j ≠ t → rest.head? ≠ some j →
      (getN (addSibling (removeN s x) m x) j).leftSib = (getN s j).leftSib ∧
      (getN (addSibling (removeN s x) m x) j).rightSib = (getN s j).rightSib := by
    intro j hjx hjt hjh
    by_cases hjm : j = m
    · subst hjm
      rw [hAf j hjt hjx, hRm]
      exact ⟨rfl, rfl⟩
    · rw [hfr j hjx hjt hjm hjh]
      exact ⟨rfl, rfl⟩
  have hyspec : ∀ y, rest.head? = some y →
      getN (addSibling (removeN s x) m x) y = { getN s y with leftSib := none } := by
    intro y hy
    have hyk : y ∈ L.kids m := hrhead y hy
    have hyx : y ≠ x := fun hh => hxrest (hh ▸ head_mem_of_eq _ _ hy)
    have hyt : y ≠ t := fun hh => hth (hh ▸ hy)
    have hym : y ≠ m := fun hh => realize_not_own_kid s L h m hmm (hh ▸ hyk)
    rw [hAf y hyt hyx, hRr y (by rw [hxr]; exact hy), hxl]
  have hxspec : getN (addSibling (removeN s x) m x) x =
      { getN s x with parent := none, leftSib := some t, rightSib := none } := by
    rw [hAx, hRx]
  have hpar_all : ∀ j, j ≠ x →
      (getN (addSibling (removeN s x) m x) j).parent = (getN s j).parent := by
    intro j hjx
    by_cases hjt : j = t
    · subst hjt
      rw [hAt]
      show (getN (removeN s x) j).parent = (getN s j).parent
      by_cases hjm : j = m
      · subst hjm
        rw [hRm]
      · rw [hRf j hjx hjm (by rw [hxl]; exact fun hh => Option.noConfusion hh)
          (by rw [hxr]; exact hth)]
    · by_cases hjh : rest.head? = some j
      · rw [hyspec j hjh]
      · by_cases hjm : j = m
        · subst hjm
          rw [hAf j hjt hjx, hRm]
        · rw [hfr j hjx hjt hjm hjh]
  have hrank_all : ∀ j, j ≠ m →
      (getN (addSibling (removeN s x) m x) j).rank = (getN s j).rank := by
    intro j hjm
    by_cases hjx : j = x
    · subst hjx
      rw [hxspec]
    · by_cases hjt : j = t
      · subst hjt
        rw [hAt]
        show (getN (removeN s x) j).rank = (getN s j).rank
        rw [hRf j hjx hjm (by rw [hxl]; exact fun hh => Option.noConfusion hh)
          (by rw [hxr]; exact hth)]
      · by_cases hjh : rest.head? = some j
        · rw [hyspec j hjh]
        · rw [hfr j hjx hjt hjm hjh]
  have hch_all : ∀ j, j ≠ m →
      (getN (addSibling (removeN s x) m x) j).children = (getN s j).children := by
    intro j hjm
    by_cases hjx : j = x
    · subst hjx
      rw [hxspec]
    · by_cases hjt : j = t
      · subst hjt
        rw [hAt]
        show (getN (removeN s x) j).children = (getN s j).children
        rw [hRf j hjx hjm (by rw [hxl]; exact fun hh => Option.noConfusion hh)
          (by rw [hxr]; exact hth)]
      · by_cases hjh : rest.head? = some j
        · rw [hyspec j hjh]
        · rw [hfr j hjx hjt hjm hjh]
  have hm_spec : (getN (addSibling (removeN s x) m x) m).rank = (getN s m).rank - 1 ∧
      (getN (addSibling (removeN s x) m x) m).children = rest.head? := by
    by_cases hmt : m = t
    · constructor
      · rw [← hmt] at hAt
        rw [hAt]
        show (getN (removeN s x) m).rank = (getN s m).rank - 1
        rw [hRm]
      · rw [← hmt] at hAt
        rw [hAt]
        show (getN (removeN s x) m).children = rest.head?
        rw [hRm]
        show ((getN s x).leftSib).or ((getN s x).rightSib) = rest.head?
        rw [hxl, hxr]
        rfl
    · constructor
      · rw [hAf m hmt hmx, hRm]
      · rw [hAf m hmt hmx, hRm]
        show ((getN s x).leftSib).or ((getN s x).rightSib) = rest.head?
        rw [hxl, hxr]
        rfl
  have hrlen : (getN s m).rank = rest.length + 1 := by
    rw [h.rankEq m hmm, hk]
    rfl
  have hkr : ∀ i, KReach L.roots L.kids i →
      KReach (L.roots ++ [x]) (fun q => if q = m then rest else L.kids q) i := by
    intro i hi
    induction hi with
    | root j hj => exact KReach.root j (List.mem_append_left _ hj)
    | child q c hq hc ih =>
      by_cases hqm : q = m
      · subst hqm
        rw [hk] at hc
        rcases List.mem_cons.mp hc with hcx | hcr
        · subst hcx
          exact KReach.root c (by simp)
        · exact KReach.child q c ih (by simp [hcr])
      · exact KReach.child q c ih (by simp [hqm, hc])
  refine ⟨?_, ?_, h.memND, ?_, ?_, ?_, ?_, ?_, ?_, ?_, ?_, ?_, ?_, ?_, ?_, ?_, ?_⟩
  · rw [List.nodup_append]
    refine ⟨h.rootsND, by simp, ?_⟩
    intro a ha hb
    simp at hb
    subst hb
    exact realize_root_not_kid s L h a m ha hxk
  · intro p
    dsimp only
    by_cases hpm : p = m
    · rw [if_pos hpm]
      exact (List.nodup_cons.mp hndk).2
    · rw [if_neg hpm]
      exact h.kidsND p
  · intro i hi
    rw [length_addSibling, length_removeN]
    exact h.memLT i hi
  · intro i hi
    rcases List.mem_append.mp hi with hi | hi
    · exact h.rootsMem i hi
    · simp at hi
      subst hi
      exact hxm2
  · intro p c hc
    dsimp only at hc
    by_cases hpm : p = m
    · rw [if_pos hpm] at hc
      exact h.kidsMem m c (hrestk c hc)
    · rw [if_neg hpm] at hc
      exact h.kidsMem p c hc
  · intro p hp
    have hpm : p ≠ m := fun hh => hp (hh ▸ hmm)
    dsimp only
    rw [if_neg hpm]
    exact h.kidsNil p hp
  · intro i hi
    rcases List.mem_append.mp hi with hi | hi
    · rw [hpar_all i (fun hh => realize_root_not_kid s L h i m hi (hh ▸ hxk))]
      exact h.rootsPar i hi
    · simp at hi
      subst hi
      rw [hxspec]
  · intro p c hc
    dsimp only at hc
    by_cases hpm : p = m
    · rw [if_pos hpm] at hc
      have hck : c ∈ L.kids m := hrestk c hc
      have hcx : c ≠ x := fun hh => hxrest (hh ▸ hc)
      rw [hpar_all c hcx, hpm]
      exact h.kidsPar m c hck
    · rw [if_neg hpm] at hc
      have hcx : c ≠ x := fun hh =>
        hpm (realize_kids_unique s L h p m c hc (hh ▸ hxk))
      rw [hpar_all c hcx]
      exact h.kidsPar p c hc
  · intro i hi
    rcases h.cover i hi with hcv | ⟨p, hcv⟩
    · exact Or.inl (List.mem_append_left _ hcv)
    · by_cases hpm : p = m
      · subst hpm
        rw [hk] at hcv
        rcases List.mem_cons.mp hcv with hix | hir
        · subst hix
          exact Or.inl (by simp)
        · exact Or.inr ⟨p, by simp [hir]⟩
      · exact Or.inr ⟨p, by simp [hpm, hcv]⟩
  · obtain ⟨l0, hdec⟩ := getLast_decomp L.roots t hlast
    rw [hdec]
    refine chainFrom_append s _ l0 t x none ?_ ?_ ?_ ?_
    · rw [← hdec]
      exact h.rootsChain
    · constructor
      · rw [hAt]
        show (getN (removeN s x) t).leftSib = (getN s t).leftSib
        by_cases htm2 : t = m
        · rw [htm2, hRm]
        · rw [hRf t htx htm2 (by rw [hxl]; exact fun hh => Option.noConfusion hh)
            (by rw [hxr]; exact hth)]
      · rw [hAt]
    · rw [hxspec]
      exact ⟨rfl, rfl⟩
    · intro y hy
      have hnd := h.rootsND
      rw [hdec, List.nodup_append] at hnd
      have hyt : y ≠ t := fun hh => hnd.2.2 hy (by simp [hh])
      have hyr : y ∈ L.roots := hdec ▸ List.mem_append_left _ hy
      have hyx : y ≠ x := fun hh => realize_root_not_kid s L h y m hyr (hh ▸ hxk)
      have hyh : rest.head? ≠ some y := fun hh =>
        realize_root_not_kid s L h y m hyr (hrhead y hh)
      exact hsib y hyx hyt hyh
  · intro p hp
    dsimp only
    by_cases hpm : p = m
    · rw [if_pos hpm]
      cases hrest : rest with
      | nil => trivial
      | cons y t2 =>
        have hchr : chainFrom s (some x) (y :: t2) := by rw [← hrest]; exact hchrest
        obtain ⟨hy1, hy2, hy3⟩ := hchr
        refine ⟨?_, ?_, ?_⟩
        · rw [hyspec y (by rw [hrest]; rfl)]
        · rw [hyspec y (by rw [hrest]; rfl)]
          exact hy2
        · refine chainFrom_frame s _ t2 (some y) ?_ hy3
          intro e he
          have her : e ∈ rest := by rw [hrest]; exact List.mem_cons_of_mem y he
          have hex : e ≠ x := fun hh => hxrest (hh ▸ her)
          have het : e ≠ t := fun hh =>
            realize_root_not_kid s L h t m htr (hrestk t (hh ▸ her))
          have hndr : rest.Nodup := (List.nodup_cons.mp hndk).2
          have heh : rest.head? ≠ some e := by
            rw [hrest]
            intro hh
            have hye : y = e := Option.some.inj hh
            rw [hrest] at hndr
            exact (List.nodup_cons.mp hndr).1 (hye ▸ he)
          exact hsib e hex het heh
    · rw [if_neg hpm]
      refine chainFrom_frame s _ (L.kids p) none ?_ (h.kidsChain p hp)
      intro e he
      have hex : e ≠ x := fun hh =>
        hpm (realize_kids_unique s L h p m e he (hh ▸ hxk))
      have het : e ≠ t := fun hh => realize_root_not_kid s L h t p htr (hh ▸ he)
      have heh : rest.head? ≠ some e := fun hh =>
        hpm (realize_kids_unique s L h p m e he (hrhead e hh))
      exact hsib e hex het heh
  · intro p hp
    dsimp only
    by_cases hpm : p = m
    · rw [if_pos hpm, hpm, hm_spec.1, hrlen]
      omega
    · rw [if_neg hpm, hrank_all p hpm]
      exact h.rankEq p hp
  · intro p hp
    dsimp only
    by_cases hpm : p = m
    · rw [if_pos hpm, hpm]
      constructor
      · rw [hm_spec.2]
        cases rest with
        | nil => simp
        | cons y t2 => simp
      · intro c hcc
        rw [hm_spec.2] at hcc
        exact head_mem_of_eq _ _ hcc
    · rw [if_neg hpm]
      constructor
      · rw [hch_all p hpm]
        exact (h.chPtr p hp).1
      · intro c hcc
        rw [hch_all p hpm] at hcc
        exact (h.chPtr p hp).2 c hcc
  · intro i hi
    exact hkr i (h.acyc i hi)
  · rw [minN_addSibling, minN_removeN]
    cases hsm : s.minN with
    | none =>
      have hh := h.minOK
      rw [hsm] at hh
      rw [hh] at hm
      exact absurd hm (List.not_mem_nil m)
    | some mm =>
      have hh := h.minOK
      rw [hsm] at hh
      exact List.mem_append_left _ hh
  · intro j hj hnj
    rw [length_addSibling, length_removeN] at hj
    have hjx : j ≠ x := fun hh => hnj (hh ▸ hxm2)
    have hjt : j ≠ t := fun hh => hnj (hh ▸ htm)
    have hjm : j ≠ m := fun hh => hnj (hh ▸ hmm)
    have hjh : rest.head? ≠ some j := fun hh =>
      hnj (h.kidsMem m j (hrhead j hh))
    rw [hfr j hjx hjt hjm hjh]
    exact h.cleanOut j hj hnj

/-- Abstract form of a link merge: if the arena s' differs from s exactly
by re-parenting the root l under the root w (l unlinked from the root
chain, appended to w's child chain, w's rank raised by one), then s'
realizes the merged layout. -/
theorem merge_layout_realize (s s' : HState) (L : HLayout) (w l : ℕ)
    (h : Realize s L) (hw : w ∈ L.roots) (hl : l ∈ L.roots) (hwl : w ≠ l)
    (hminl : s.minN ≠ some l)
    (hlen : s'.nodes.length = s.nodes.length)
    (hmin : s'.minN = s.minN)
    (hLpar : (getN s' l).parent = some w)
    (hLkeep : (getN s' l).rank = (getN s l).rank ∧
      (getN s' l).children = (getN s l).children)
    (hWpar : (getN s' w).parent = (getN s w).parent)
    (hWrk : (getN s' w).rank = (getN s w).rank + 1)
    (hWch : ∀ c, (getN s' w).children = some c → c ∈ L.kids w ++ [l])
    (hWchn : (getN s' w).children ≠ none)
    (hframe : ∀ j, j ≠ l → j ≠ w →
      (getN s' j).parent = (getN s j).parent ∧
      (getN s' j).rank = (getN s j).rank ∧
      (getN s' j).children = (getN s j).children)
    (hRchain : chainFrom s' none (L.roots.erase l))
    (hKchainW : chainFrom s' none (L.kids w ++ [l]))
    (hKchainO : ∀ p ∈ L.mem, p ≠ w → chainFrom s' none (L.kids p))
    (hClean : ∀ j, j < s.nodes.length → j ∉ L.mem → getN s' j = getN s j) :
    Realize s'
      { roots := L.roots.erase l,
        kids := fun q => if q = w then L.kids w ++ [l] else L.kids q,
        mem := L.mem } := by
  have hlm : l ∈ L.mem := h.rootsMem l hl
  have hwm : w ∈ L.mem := h.rootsMem w hw
  have hlnk : ∀ p, l ∉ L.kids p := fun p => realize_root_not_kid s L h l p hl
  have hwnk : ∀ p, w ∉ L.kids p := fun p => realize_root_not_kid s L h w p hw
  have hmerase : ∀ i, i ∈ L.roots.erase l → i ∈ L.roots ∧ i ≠ l := by
    intro i hi
    have h1 := List.mem_of_mem_erase hi
    refine ⟨h1, ?_⟩
    intro hh
    subst hh
    exact (List.Nodup.not_mem_erase h.rootsND) hi
  refine ⟨?_, ?_, h.memND, ?_, ?_, ?_, ?_, ?_, ?_, ?_, hRchain, ?_, ?_, ?_, ?_, ?_, ?_⟩
  · exact h.rootsND.erase l
  · intro p
    dsimp only
    by_cases hpw : p = w
    · rw [if_pos hpw]
      rw [List.nodup_append]
      exact ⟨h.kidsND w, by simp, by intro a ha hb; simp at hb; subst hb; exact hlnk w ha⟩
    · rw [if_neg hpw]
      exact h.kidsND p
  · intro i hi
    rw [hlen]
    exact h.memLT i hi
  · intro i hi
    exact h.rootsMem i (List.mem_of_mem_erase hi)
  · intro p c hc
    dsimp only at hc
    by_cases hpw : p = w
    · rw [if_pos hpw] at hc
      rcases List.mem_append.mp hc with hc | hc
      · exact h.kidsMem w c hc
      · simp at hc
        subst hc
        exact hlm
    · rw [if_neg hpw] at hc
      exact h.kidsMem p c hc
  · intro p hp
    have hpw2 : p ≠ w := fun hh => hp (hh ▸ hwm)
    dsimp only
    rw [if_neg hpw2]
    exact h.kidsNil p hp
  · intro i hi
    obtain ⟨hir, hil⟩ := hmerase i hi
    by_cases hiw : i = w
    · subst hiw
      rw [hWpar]
      exact h.rootsPar i hir
    · rw [(hframe i hil hiw).1]
      exact h.rootsPar i hir
  · intro p c hc
    dsimp only at hc
    by_cases hpw : p = w
    · subst hpw
      rw [if_pos rfl] at hc
      rcases List.mem_append.mp hc with hc | hc
      · have hcl : c ≠ l := fun hh => hlnk p (hh ▸ hc)
        have hcw : c ≠ p := fun hh => hwnk p (hh ▸ hc)
        rw [(hframe c hcl hcw).1]
        exact h.kidsPar p c hc
      · simp at hc
        subst hc
        exact hLpar
    · rw [if_neg hpw] at hc
      have hcl : c ≠ l := fun hh => hlnk p (hh ▸ hc)
      have hcw : c ≠ w := fun hh => hwnk p (hh ▸ hc)
      rw [(hframe c hcl hcw).1]
      exact h.kidsPar p c hc
  · intro i hi
    rcases h.cover i hi with hcv | ⟨p, hcv⟩
    · by_cases hil : i = l
      · subst hil
        exact Or.inr ⟨w, by simp⟩
      · exact Or.inl ((List.mem_erase_of_ne hil).mpr hcv)
    · by_cases hpw : p = w
      · subst hpw
        exact Or.inr ⟨p, by simp [hcv]⟩
      · exact Or.inr ⟨p, by simp [hpw, hcv]⟩
  · intro p hp
    dsimp only
    by_cases hpw : p = w
    · rw [if_pos hpw]
      exact hKchainW
    · rw [if_neg hpw]
      exact hKchainO p hp hpw
  · intro p hp
    dsimp only
    by_cases hpw : p = w
    · rw [if_pos hpw, hpw, hWrk, h.rankEq w hwm]
      simp
    · rw [if_neg hpw]
      by_cases hpl : p = l
      · subst hpl
        rw [hLkeep.1]
        exact h.rankEq p hp
      · rw [(hframe p hpl hpw).2.1]
        exact h.rankEq p hp
  · intro p hp
    dsimp only
    by_cases hpw : p = w
    · rw [if_pos hpw, hpw]
      constructor
      · constructor
        · intro hh
          exact absurd hh hWchn
        · intro hh
          simp at hh
      · exact hWch
    · rw [if_neg hpw]
      by_cases hpl : p = l
      · subst hpl
        constructor
        · rw [hLkeep.2]
          exact (h.chPtr p hp).1
        · intro c hcc
          rw [hLkeep.2] at hcc
          exact (h.chPtr p hp).2 c hcc
      · constructor
        · rw [(hframe p hpl hpw).2.2]
          exact (h.chPtr p hp).1
        · intro c hcc
          rw [(hframe p hpl hpw).2.2] at hcc
          exact (h.chPtr p hp).2 c hcc
  · intro i hi
    have hkr : ∀ j, KReach L.roots L.kids j →
        KReach (L.roots.erase l)
          (fun q => if q = w then L.kids w ++ [l] else L.kids q) j := by
      intro j hj
      induction hj with
      | root a ha =>
        by_cases hal : a = l
        · subst hal
          refine KReach.child w a (KReach.root w ((List.mem_erase_of_ne hwl).mpr hw)) ?_
          simp
        · exact KReach.root a ((List.mem_erase_of_ne hal).mpr ha)
      | child q c hq hc ih =>
        refine KReach.child q c ih ?_
        by_cases hqw : q = w
        · subst hqw
          simp [hc]
        · simp [hqw, hc]
    exact hkr i (h.acyc i hi)
  · rw [hmin]
    cases hsm : s.minN with
    | none =>
      have hh := h.minOK
      rw [hsm] at hh
      rw [hh] at hl
      exact absurd hl (List.not_mem_nil l)
    | some mm =>
      have hh := h.minOK
      rw [hsm] at hh
      have hml2 : mm ≠ l := fun hx2 => hminl (by rw [hsm, hx2])
      exact (List.mem_erase_of_ne hml2).mpr hh
  · intro j hj hnj
    rw [hlen] at hj
    rw [hClean j hj hnj]
    exact h.cleanOut j hj hnj

/-- The consolidation merge of link: unlinking the losing root l and making
it a child of the winning root w erases l from the root list and appends
it to w's child list, with the membership unchanged. -/
theorem merge_realize (s : HState) (L : HLayout) (w l : ℕ)
    (h : Realize s L) (hw : w ∈ L.roots) (hl : l ∈ L.roots) (hwl : w ≠ l)
    (hminl : s.minN ≠ some l) :
    Realize (addChild (removeN s l) w l)
      { roots := L.roots.erase l,
        kids := fun q => if q = w then L.kids w ++ [l] else L.kids q,
        mem := L.mem } := by
  have hlm : l ∈ L.mem := h.rootsMem l hl
  have hwm : w ∈ L.mem := h.rootsMem w hw
  have hll : l < s.nodes.length := h.memLT l hlm
  have hwlen : w < s.nodes.length := h.memLT w hwm
  have hparl : (getN s l).parent = none := h.rootsPar l hl
  obtain ⟨a1, a2, hsplit⟩ := List.append_of_mem hl
  have hlinks := chainFrom_links s a1 a2 l (by rw [← hsplit]; exact h.rootsChain)
  have hndsp := h.rootsND
  rw [hsplit, List.nodup_append] at hndsp
  have hla1 : l ∉ a1 := fun hh => hndsp.2.2 hh (by simp)
  have hla2 : l ∉ a2 := (List.nodup_cons.mp hndsp.2.1).1
  have ha1r : ∀ e ∈ a1, e ∈ L.roots := fun e he =>
    hsplit ▸ List.mem_append_left _ he
  have ha2r : ∀ e ∈ a2, e ∈ L.roots := fun e he =>
    hsplit ▸ List.mem_append_right _ (by simp [he])
  have hLx : (getN s l).leftSib ≠ some l := by
    rw [hlinks.1]
    intro hh
    exact hla1 (List.mem_of_getLast?_eq_some hh)
  have hRx : (getN s l).rightSib ≠ some l := by
    rw [hlinks.2]
    intro hh
    exact hla2 (head_mem_of_eq _ _ hh)
  have hlrx : ∀ y, (getN s l).leftSib = some y → (getN s l).rightSib ≠ some y := by
    intro y hy hz
    rw [hlinks.1] at hy
    rw [hlinks.2] at hz
    have hy1 : y ∈ a1 := List.mem_of_getLast?_eq_some hy
    have hy2 : y ∈ a2 := head_mem_of_eq _ _ hz
    exact hndsp.2.2 hy1 (by simp [hy2])
  have hlbx : ∀ y, (getN s l).leftSib = some y → y < s.nodes.length := by
    intro y hy
    rw [hlinks.1] at hy
    exact h.memLT y (h.rootsMem y (ha1r y (List.mem_of_getLast?_eq_some hy)))
  have hrbx : ∀ y, (getN s l).rightSib = some y → y < s.nodes.length := by
    intro y hy
    rw [hlinks.2] at hy
    exact h.memLT y (h.rootsMem y (ha2r y (head_mem_of_eq _ _ hy)))
  obtain ⟨hRl2, hRlft, hRrt, hRfr⟩ :=
    removeN_spec_root s l hparl hll hLx hRx hlrx hlbx hrbx
  have hs1 : ∀ j, j ≠ l →
      (getN (removeN s l) j).parent = (getN s j).parent ∧
      (getN (removeN s l) j).rank = (getN s j).rank ∧
      (getN (removeN s l) j).children = (getN s j).children := by
    intro j hjl
    by_cases hcl1 : (getN s l).leftSib = some j
    · rw [hRlft j hcl1]
      exact ⟨rfl, rfl, rfl⟩
    · by_cases hcr1 : (getN s l).rightSib = some j
      · rw [hRrt j hcr1]
        exact ⟨rfl, rfl, rfl⟩
      · rw [hRfr j hjl hcl1 hcr1]
        exact ⟨rfl, rfl, rfl⟩
  have hs1k : ∀ j, j ≠ l → j ∉ L.roots → getN (removeN s l) j = getN s j := by
    intro j hjl hjr
    refine hRfr j hjl ?_ ?_
    · rw [hlinks.1]
      intro hh
      exact hjr (ha1r j (List.mem_of_getLast?_eq_some hh))
    · rw [hlinks.2]
      intro hh
      exact hjr (ha2r j (head_mem_of_eq _ _ hh))
  have hw1 := hs1 w hwl
  have hkw : ∀ e ∈ L.kids w, getN (removeN s l) e = getN s e := by
    intro e he
    exact hs1k e (fun hh => realize_root_not_kid s L h l w hl (hh ▸ he))
      (fun hh => realize_root_not_kid s L h e w hh he)
  have herase : L.roots.erase l = a1 ++ a2 := by
    rw [hsplit, List.erase_append_right _ hla1, List.erase_cons_head]
  unfold addChild
  dsimp only
  have hscr : (getN (putN (removeN s l) l
      (fun nd => { nd with parent := some w })) w).children
      = (getN s w).children := by
    rw [getN_putN_ne _ _ _ _ (Ne.symm hwl)]
    exact hw1.2.2
  cases hchw : (getN s w).children with
  | none =>
    rw [hscr, hchw]
    dsimp only
    have hkw0 : L.kids w = [] := (h.chPtr w hwm).1.mp hchw
    have hLfin : getN (putN (putN (putN (removeN s l) l
        (fun nd => { nd with parent := some w })) w
        (fun nd => { nd with children := some l, rank := 1 })) l
        (fun nd => { nd with rightSib := none, leftSib := none })) l =
        { getN s l with parent := some w, leftSib := none, rightSib := none } := by
      rw [getN_putN_self,
        if_pos (by simp only [length_putN, length_removeN]; exact hll),
        getN_putN_ne _ _ _ _ hwl, getN_putN_self,
        if_pos (by simp only [length_removeN]; exact hll), hRl2]
    have hWfin : getN (putN (putN (putN (removeN s l) l
        (fun nd => { nd with parent := some w })) w
        (fun nd => { nd with children := some l, rank := 1 })) l
        (fun nd => { nd with rightSib := none, leftSib := none })) w =
        { getN (removeN s l) w with children := some l, rank := 1 } := by
      rw [getN_putN_ne _ _ _ _ (Ne.symm hwl), getN_putN_self,
        if_pos (by simp only [length_putN, length_removeN]; exact hwlen),
        getN_putN_ne _ _ _ _ (Ne.symm hwl)]
    have hFfin : ∀ j, j ≠ l → j ≠ w → getN (putN (putN (putN (removeN s l) l
        (fun nd => { nd with parent := some w })) w
        (fun nd => { nd with children := some l, rank := 1 })) l
        (fun nd => { nd with rightSib := none, leftSib := none })) j =
        getN (removeN s l) j := by
      intro j hjl hjw
      rw [getN_putN_ne _ _ _ _ (Ne.symm hjl), getN_putN_ne _ _ _ _ (Ne.symm hjw),
        getN_putN_ne _ _ _ _ (Ne.symm hjl)]
    refine merge_layout_realize s _ L w l h hw hl hwl hminl ?_ ?_ ?_ ?_ ?_ ?_ ?_ ?_ ?_ ?_ ?_ ?_ ?_
    · simp only [length_putN, length_removeN]
    · simp only [minN_putN, minN_removeN]
    · rw [hLfin]
    · rw [hLfin]
      exact ⟨rfl, rfl⟩
    · rw [hWfin]
      exact hw1.1
    · rw [hWfin]
      show (1 : ℕ) = (getN s w).rank + 1
      rw [h.rankEq w hwm, hkw0]
      rfl
    · intro c hcc
      rw [hWfin] at hcc
      have hcc2 : some l = some c := hcc
      have hcl : c = l := (Option.some.inj hcc2).symm
      subst hcl
      simp
    · rw [hWfin]
      exact fun hh => Option.noConfusion hh
    · intro j hjl hjw
      rw [hFfin j hjl hjw]
      exact hs1 j hjl
    · rw [herase]
      refine chainFrom_erase s _ a1 a2 l none (by rw [← hsplit]; exact h.rootsChain)
        (by rw [← hsplit]; exact h.rootsND) ?_ ?_ ?_
      · intro y hy
        have hyl : y ≠ l := fun hh => hla1 (hh ▸ List.mem_of_getLast?_eq_some hy)
        have hrec := hRlft y (by rw [hlinks.1]; exact hy)
        by_cases hyw : y = w
        · subst hyw
          rw [hWfin, hrec]
          exact ⟨rfl, rfl⟩
        · rw [hFfin y hyl hyw, hrec]
          exact ⟨rfl, rfl⟩
      · intro y hy
        have hyl : y ≠ l := fun hh => hla2 (hh ▸ head_mem_of_eq _ _ hy)
        have hrec := hRrt y (by rw [hlinks.2]; exact hy)
        by_cases hyw : y = w
        · subst hyw
          rw [hWfin, hrec]
          exact ⟨rfl, rfl⟩
        · rw [hFfin y hyl hyw, hrec]
          exact ⟨rfl, rfl⟩
      · intro y hy h1 h2
        have hyl : y ≠ l := by
          intro hh
          subst hh
          rcases List.mem_append.mp hy with hy | hy
          · exact hla1 hy
          · exact hla2 hy
        have hfr1 := hRfr y hyl (by rw [hlinks.1]; exact fun hh => h1 hh)
          (by rw [hlinks.2]; exact fun hh => h2 hh)
        by_cases hyw : y = w
        · subst hyw
          rw [hWfin, hfr1]
          exact ⟨rfl, rfl⟩
        · rw [hFfin y hyl hyw, hfr1]
          exact ⟨rfl, rfl⟩
    · rw [hkw0]
      show chainFrom _ none [l]
      refine ⟨?_, ?_, trivial⟩
      · rw [hLfin]
      · rw [hLfin]
        rfl
    · intro p hp hpw
      refine chainFrom_frame s _ (L.kids p) none ?_ (h.kidsChain p hp)
      intro e he
      have hel : e ≠ l := fun hh => realize_root_not_kid s L h l p hl (hh ▸ he)
      have hew : e ≠ w := fun hh => realize_root_not_kid s L h w p hw (hh ▸ he)
      have her : e ∉ L.roots := fun hh => realize_root_not_kid s L h e p hh he
      rw [hFfin e hel hew, hs1k e hel her]
      exact ⟨rfl, rfl⟩
    · intro j hj hnj
      have hjl : j ≠ l := fun hh => hnj (hh ▸ hlm)
      have hjw : j ≠ w := fun hh => hnj (hh ▸ hwm)
      have hjr : j ∉ L.roots := fun hh => hnj (h.rootsMem j hh)
      rw [hFfin j hjl hjw, hs1k j hjl hjr]
  | some k =>
    rw [hscr, hchw]
    dsimp only
    have hkk : k ∈ L.kids w := (h.chPtr w hwm).2 k hchw
    have hkm : k ∈ L.mem := h.kidsMem w k hkk
    have hkl : k ≠ l := fun hh => realize_root_not_kid s L h l w hl (hh ▸ hkk)
    have hchainK : chainFrom (putN (removeN s l) l
        (fun nd => { nd with parent := some w })) none (L.kids w) := by
      refine chainFrom_frame s _ (L.kids w) none ?_ (h.kidsChain w hwm)
      intro e he
      have hel : e ≠ l := fun hh => realize_root_not_kid s L h l w hl (hh ▸ he)
      rw [getN_putN_ne _ _ _ _ (Ne.symm hel), hkw e he]
      exact ⟨rfl, rfl⟩
    have hfuelK : (L.kids w).length ≤ (putN (removeN s l) l
        (fun nd => { nd with parent := some w })).nodes.length := by
      simp only [length_putN, length_removeN]
      exact nodup_lt_length _ _ (h.kidsND w) (fun a ha => h.memLT a (h.kidsMem w a ha))
    obtain ⟨t, hlastK, hwalkK⟩ := rightmostSib_chain _ (L.kids w) k _ hkk hchainK hfuelK
    have htk : t ∈ L.kids w := List.mem_of_getLast?_eq_some hlastK
    have htm2 : t ∈ L.mem := h.kidsMem w t htk
    have htl2 : t < s.nodes.length := h.memLT t htm2
    have htlne : t ≠ l := fun hh => realize_root_not_kid s L h l w hl (hh ▸ htk)
    have htw : w ≠ t := fun hh => realize_not_own_kid s L h w hwm (hh ▸ htk)
    have hparK : (getN (putN (removeN s l) l
        (fun nd => { nd with parent := some w })) k).parent = some w := by
      rw [getN_putN_ne _ _ _ _ (Ne.symm hkl), hkw k hkk]
      exact h.kidsPar w k hkk
    obtain ⟨hAt, hAl, hAw, hAf⟩ := addSibling_spec_child _ k l t w hparK hwalkK
      (by simp only [length_putN, length_removeN]; exact htl2)
      (by simp only [length_putN, length_removeN]; exact hll)
      (by simp only [length_putN, length_removeN]; exact hwlen)
      htlne htw hwl
    have hs2f : ∀ j, j ≠ l → getN (putN (removeN s l) l
        (fun nd => { nd with parent := some w })) j = getN (removeN s l) j := by
      intro j hjl
      rw [getN_putN_ne _ _ _ _ (Ne.symm hjl)]
    have hTfin : getN (addSibling (putN (removeN s l) l
        (fun nd => { nd with parent := some w })) k l) t =
        { getN s t with rightSib := some l } := by
      rw [hAt, hs2f t htlne, hkw t htk]
    have hLfin : getN (addSibling (putN (removeN s l) l
        (fun nd => { nd with parent := some w })) k l) l =
        { getN s l with parent := some w, leftSib := some t, rightSib := none } := by
      rw [hAl, getN_putN_self,
        if_pos (by simp only [length_removeN]; exact hll), hRl2]
    have hWfin : getN (addSibling (putN (removeN s l) l
        (fun nd => { nd with parent := some w })) k l) w =
        { getN (removeN s l) w with rank := (getN (removeN s l) w).rank + 1 } := by
      rw [hAw, hs2f w hwl]
    have hFfin : ∀ j, j ≠ t → j ≠ l → j ≠ w →
        getN (addSibling (putN (removeN s l) l
          (fun nd => { nd with parent := some w })) k l) j =
        getN (removeN s l) j := by
      intro j hjt hjl hjw
      rw [hAf j hjt hjl hjw, hs2f j hjl]
    refine merge_layout_realize s _ L w l h hw hl hwl hminl ?_ ?_ ?_ ?_ ?_ ?_ ?_ ?_ ?_ ?_ ?_ ?_ ?_
    · simp only [length_addSibling, length_putN, length_removeN]
    · simp only [minN_addSibling, minN_putN, minN_removeN]
    · rw [hLfin]
    · rw [hLfin]
      exact ⟨rfl, rfl⟩
    · rw [hWfin]
      exact hw1.1
    · rw [hWfin]
      show (getN (removeN s l) w).rank + 1 = (getN s w).rank + 1
      rw [hw1.2.1]
    · intro c hcc
      rw [hWfin] at hcc
      have hcc2 : (getN (removeN s l) w).children = some c := hcc
      rw [hw1.2.2, hchw] at hcc2
      have hck : k = c := Option.some.inj hcc2
      subst hck
      exact List.mem_append_left _ hkk
    · rw [hWfin]
      show (getN (removeN s l) w).children ≠ none
      rw [hw1.2.2, hchw]
      exact fun hh => Option.noConfusion hh
    · intro j hjl hjw
      by_cases hjt : j = t
      · subst hjt
        rw [hTfin]
        exact ⟨rfl, rfl, rfl⟩
      · rw [hFfin j hjt hjl hjw]
        exact hs1 j hjl
    · rw [herase]
      refine chainFrom_erase s _ a1 a2 l none (by rw [← hsplit]; exact h.rootsChain)
        (by rw [← hsplit]; exact h.rootsND) ?_ ?_ ?_
      · intro y hy
        have hyl : y ≠ l := fun hh => hla1 (hh ▸ List.mem_of_getLast?_eq_some hy)
        have hyr : y ∈ L.roots := ha1r y (List.mem_of_getLast?_eq_some hy)
        have hyt : y ≠ t := fun hh => realize_root_not_kid s L h y w hyr (hh ▸ htk)
        have hrec := hRlft y (by rw [hlinks.1]; exact hy)
        by_cases hyw : y = w
        · subst hyw
          rw [hWfin, hrec]
          exact ⟨rfl, rfl⟩
        · rw [hFfin y hyt hyl hyw, hrec]
          exact ⟨rfl, rfl⟩
      · intro y hy
        have hyl : y ≠ l := fun hh => hla2 (hh ▸ head_mem_of_eq _ _ hy)
        have hyr : y ∈ L.roots := ha2r y (head_mem_of_eq _ _ hy)
        have hyt : y ≠ t := fun hh => realize_root_not_kid s L h y w hyr (hh ▸ htk)
        have hrec := hRrt y (by rw [hlinks.2]; exact hy)
        by_cases hyw : y = w
        · subst hyw
          rw [hWfin, hrec]
          exact ⟨rfl, rfl⟩
        · rw [hFfin y hyt hyl hyw, hrec]
          exact ⟨rfl, rfl⟩
      · intro y hy h1 h2
        have hyl : y ≠ l := by
          intro hh
          subst hh
          rcases List.mem_append.mp hy with hy | hy
          · exact hla1 hy
          · exact hla2 hy
        have hyr : y ∈ L.roots := by
          rcases List.mem_append.mp hy with hy | hy
          · exact ha1r y hy
          · exact ha2r y hy
        have hyt : y ≠ t := fun hh => realize_root_not_kid s L h y w hyr (hh ▸ htk)
        have hfr1 := hRfr y hyl (by rw [hlinks.1]; exact fun hh => h1 hh)
          (by rw [hlinks.2]; exact fun hh => h2 hh)
        by_cases hyw : y = w
        · subst hyw
          rw [hWfin, hfr1]
          exact ⟨rfl, rfl⟩
        · rw [hFfin y hyt hyl hyw, hfr1]
          exact ⟨rfl, rfl⟩
    · obtain ⟨l0k, hdecK⟩ := getLast_decomp (L.kids w) t hlastK
      rw [hdecK]
      refine chainFrom_append s _ l0k t l none ?_ ?_ ?_ ?_
      · rw [← hdecK]
        exact h.kidsChain w hwm
      · rw [hTfin]
        exact ⟨rfl, rfl⟩
      · rw [hLfin]
        exact ⟨rfl, rfl⟩
      · intro y hy
        have hndK := h.kidsND w
        rw [hdecK, List.nodup_append] at hndK
        have hyt : y ≠ t := fun hh => hndK.2.2 hy (by simp [hh])
        have hyk : y ∈ L.kids w := hdecK ▸ List.mem_append_left _ hy
        have hyl : y ≠ l := fun hh => realize_root_not_kid s L h l w hl (hh ▸ hyk)
        have hyw : y ≠ w := fun hh => realize_not_own_kid s L h w hwm (hh ▸ hyk)
        rw [hFfin y hyt hyl hyw, hkw y hyk]
        exact ⟨rfl, rfl⟩
    · intro p hp hpw
      refine chainFrom_frame s _ (L.kids p) none ?_ (h.kidsChain p hp)
      intro e he
      have hel : e ≠ l := fun hh => realize_root_not_kid s L h l p hl (hh ▸ he)
      have hew : e ≠ w := fun hh => realize_root_not_kid s L h w p hw (hh ▸ he)
      have het : e ≠ t := fun hh => hpw (realize_kids_unique s L h p w e he (hh ▸ htk))
      have her : e ∉ L.roots := fun hh => realize_root_not_kid s L h e p hh he
      rw [hFfin e het hel hew, hs1k e hel her]
      exact ⟨rfl, rfl⟩
    · intro j hj hnj
      have hjl : j ≠ l := fun hh => hnj (hh ▸ hlm)
      have hjw : j ≠ w := fun hh => hnj (hh ▸ hwm)
      have hjt : j ≠ t := fun hh => hnj (hh ▸ htm2)
      have hjr : j ∉ L.roots := fun hh => hnj (h.rootsMem j hh)
      rw [hFfin j hjt hjl hjw, hs1k j hjl hjr]

/-- The cut performed by decrease_val: removing node i from its parent p's
child list and appending it to the root chain (via add_sibling on a root
r0) turns i into the last root and erases it from p's child list, with the
membership unchanged. -/
theorem cut_attach_realize (s : HState) (L : HLayout) (p i r0 : ℕ) (k1 k2 : List ℕ)
    (h : Realize s L) (hr0 : r0 ∈ L.roots) (hpm : p ∈ L.mem)
    (hk : L.kids p = k1 ++ i :: k2) :
    Realize (addSibling (removeN s i) r0 i)
      { roots := L.roots ++ [i],
        kids := fun q => if q = p then k1 ++ k2 else L.kids q,
        mem := L.mem } := by
  have hik : i ∈ L.kids p := by rw [hk]; simp
  have him : i ∈ L.mem := h.kidsMem p i hik
  have hil : i < s.nodes.length := h.memLT i him
  have hpl : p < s.nodes.length := h.memLT p hpm
  have hpi : p ≠ i := fun hh => realize_not_own_kid s L h p hpm (hh ▸ hik)
  have hpar : (getN s i).parent = some p := h.kidsPar p i hik
  have hlinks := chainFrom_links s k1 k2 i (by rw [← hk]; exact h.kidsChain p hpm)
  have hndk := h.kidsND p
  rw [hk, List.nodup_append] at hndk
  have hik1 : i ∉ k1 := fun hh => hndk.2.2 hh (by simp)
  have hik2 : i ∉ k2 := (List.nodup_cons.mp hndk.2.1).1
  have hk1k : ∀ e ∈ k1, e ∈ L.kids p := fun e he => by rw [hk]; simp [he]
  have hk2k : ∀ e ∈ k2, e ∈ L.kids p := fun e he => by rw [hk]; simp [he]
  have hpk : p ∉ L.kids p := realize_not_own_kid s L h p hpm
  have hLx : (getN s i).leftSib ≠ some i := by
    rw [hlinks.1]
    intro hh
    exact hik1 (List.mem_of_getLast?_eq_some hh)
  have hRx : (getN s i).rightSib ≠ some i := by
    rw [hlinks.2]
    intro hh
    exact hik2 (head_mem_of_eq _ _ hh)
  have hLp : (getN s i).leftSib ≠ some p := by
    rw [hlinks.1]
    intro hh
    exact hpk (hk1k p (List.mem_of_getLast?_eq_some hh))
  have hRp : (getN s i).rightSib ≠ some p := by
    rw [hlinks.2]
    intro hh
    exact hpk (hk2k p (head_mem_of_eq _ _ hh))
  have hlrx : ∀ y, (getN s i).leftSib = some y → (getN s i).rightSib ≠ some y := by
    intro y hy hz
    rw [hlinks.1] at hy
    rw [hlinks.2] at hz
    exact hndk.2.2 (List.mem_of_getLast?_eq_some hy)
      (by simp [head_mem_of_eq _ _ hz])
  have hlbx : ∀ y, (getN s i).leftSib = some y → y < s.nodes.length := by
    intro y hy
    rw [hlinks.1] at hy
    exact h.memLT y (h.kidsMem p y (hk1k y (List.mem_of_getLast?_eq_some hy)))
  have hrbx : ∀ y, (getN s i).rightSib = some y → y < s.nodes.length := by
    intro y hy
    rw [hlinks.2] at hy
    exact h.memLT y (h.kidsMem p y (hk2k y (head_mem_of_eq _ _ hy)))
  obtain ⟨hRi, hRp2, hRlft, hRrt, hRfr⟩ :=
    removeN_spec_kid s i p hpar hil hpl hpi hLx hRx hLp hRp hlrx hlbx hrbx
  have hroots_nk : ∀ e ∈ L.roots, e ∉ L.kids p :=
    fun e he => realize_root_not_kid s L h e p he
  have hs1r : ∀ e ∈ L.roots, e ≠ p → getN (removeN s i) e = getN s e := by
    intro e he hep
    refine hRfr e (fun hh => hroots_nk e he (hh ▸ hik)) hep ?_ ?_
    · rw [hlinks.1]
      intro hh
      exact hroots_nk e he (hk1k e (List.mem_of_getLast?_eq_some hh))
    · rw [hlinks.2]
      intro hh
      exact hroots_nk e he (hk2k e (head_mem_of_eq _ _ hh))
  have hch1 : chainFrom (removeN s i) none L.roots := by
    refine chainFrom_frame s _ L.roots none ?_ h.rootsChain
    intro e he
    by_cases hep : e = p
    · subst hep
      rw [hRp2]
      exact ⟨rfl, rfl⟩
    · rw [hs1r e he hep]
      exact ⟨rfl, rfl⟩
  have hfuel : L.roots.length ≤ (removeN s i).nodes.length := by
    rw [length_removeN]
    exact nodup_lt_length _ _ h.rootsND (fun a ha => h.memLT a (h.rootsMem a ha))
  obtain ⟨t, hlast, hwalk⟩ :=
    rightmostSib_chain (removeN s i) L.roots r0 (removeN s i).nodes.length hr0 hch1 hfuel
  have htr : t ∈ L.roots := List.mem_of_getLast?_eq_some hlast
  have htm : t ∈ L.mem := h.rootsMem t htr
  have htl : t < s.nodes.length := h.memLT t htm
  have hti : t ≠ i := fun hh => hroots_nk t htr (hh ▸ hik)
  have hparr0 : (getN (removeN s i) r0).parent = none := by
    by_cases hr0p : r0 = p
    · subst hr0p
      rw [hRp2]
      exact h.rootsPar r0 hr0
    · rw [hs1r r0 hr0 hr0p]
      exact h.rootsPar r0 hr0
  obtain ⟨hAt, hAx, hAf⟩ := addSibling_spec_root (removeN s i) r0 i t hparr0 hwalk
    (by rw [length_removeN]; exact htl) (by rw [length_removeN]; exact hil) hti
  have hxspec : getN (addSibling (removeN s i) r0 i) i =
      { getN s i with parent := none, leftSib := some t, rightSib := none } := by
    rw [hAx, hRi]
  have hsib1 : ∀ j, j ≠ i → j ≠ t →
      (getN (addSibling (removeN s i) r0 i) j).leftSib
        = (getN (removeN s i) j).leftSib ∧
      (getN (addSibling (removeN s i) r0 i) j).rightSib
        = (getN (removeN s i) j).rightSib := by
    intro j hji hjt
    rw [hAf j hjt hji]
    exact ⟨rfl, rfl⟩
  have hoth1 : ∀ j, j ≠ i →
      (getN (addSibling (removeN s i) r0 i) j).parent
        = (getN (removeN s i) j).parent ∧
      (getN (addSibling (removeN s i) r0 i) j).rank
        = (getN (removeN s i) j).rank ∧
      (getN (addSibling (removeN s i) r0 i) j).children
        = (getN (removeN s i) j).children := by
    intro j hji
    by_cases hjt : j = t
    · subst hjt
      rw [hAt]
      exact ⟨rfl, rfl, rfl⟩
    · rw [hAf j hjt hji]
      exact ⟨rfl, rfl, rfl⟩
  have hs1oth : ∀ j, j ≠ i → j ≠ p →
      (getN (removeN s i) j).parent = (getN s j).parent ∧
      (getN (removeN s i) j).rank = (getN s j).rank ∧
      (getN (removeN s i) j).children = (getN s j).children := by
    intro j hji hjp
    by_cases hcl1 : (getN s i).leftSib = some j
    · rw [hRlft j hcl1]
      exact ⟨rfl, rfl, rfl⟩
    · by_cases hcr1 : (getN s i).rightSib = some j
      · rw [hRrt j hcr1]
        exact ⟨rfl, rfl, rfl⟩
      · rw [hRfr j hji hjp hcl1 hcr1]
        exact ⟨rfl, rfl, rfl⟩
  have hs1kid : ∀ j, j ≠ i → j ∉ L.kids p → j ≠ p → getN (removeN s i) j = getN s j := by
    intro j hji hjk hjp
    refine hRfr j hji hjp ?_ ?_
    · rw [hlinks.1]
      intro hh
      exact hjk (hk1k j (List.mem_of_getLast?_eq_some hh))
    · rw [hlinks.2]
      intro hh
      exact hjk (hk2k j (head_mem_of_eq _ _ hh))
  have hrlen : (getN s p).rank = k1.length + k2.length + 1 := by
    rw [h.rankEq p hpm, hk]
    simp only [List.length_append, List.length_cons]
    omega
  have hkr : ∀ j, KReach L.roots L.kids j →
      KReach (L.roots ++ [i]) (fun q => if q = p then k1 ++ k2 else L.kids q) j := by
    intro j hj
    induction hj with
    | root a ha => exact KReach.root a (List.mem_append_left _ ha)
    | child q c hq hc ih =>
      by_cases hqp : q = p
      · subst hqp
        rw [hk] at hc
        rcases List.mem_append.mp hc with hc | hc
        · exact KReach.child q c ih (by simp [hc])
        · rcases List.mem_cons.mp hc with hci | hc2
          · subst hci
            exact KReach.root c (by simp)
          · exact KReach.child q c ih (by simp [hc2])
      · exact KReach.child q c ih (by simp [hqp, hc])
  refine ⟨?_, ?_, h.memND, ?_, ?_, ?_, ?_, ?_, ?_, ?_, ?_, ?_, ?_, ?_, ?_, ?_, ?_⟩
  · rw [List.nodup_append]
    refine ⟨h.rootsND, by simp, ?_⟩
    intro a ha hb
    simp at hb
    subst hb
    exact hroots_nk a ha hik
  · intro q
    dsimp only
    by_cases hqp : q = p
    · rw [if_pos hqp]
      rw [List.nodup_append]
      refine ⟨hndk.1, (List.nodup_cons.mp hndk.2.1).2, ?_⟩
      intro a ha hb
      exact hndk.2.2 ha (by simp [hb])
    · rw [if_neg hqp]
      exact h.kidsND q
  · intro j hj
    rw [length_addSibling, length_removeN]
    exact h.memLT j hj
  · intro j hj
    rcases List.mem_append.mp hj with hj | hj
    · exact h.rootsMem j hj
    · simp at hj
      subst hj
      exact him
  · intro q c hc
    dsimp only at hc
    by_cases hqp : q = p
    · rw [if_pos hqp] at hc
      rcases List.mem_append.mp hc with hc | hc
      · exact h.kidsMem p c (hk1k c hc)
      · exact h.kidsMem p c (hk2k c hc)
    · rw [if_neg hqp] at hc
      exact h.kidsMem q c hc
  · intro q hq
    have hqp : q ≠ p := fun hh => hq (hh ▸ hpm)
    dsimp only
    rw [if_neg hqp]
    exact h.kidsNil q hq
  · intro j hj
    rcases List.mem_append.mp hj with hj | hj
    · have hji : j ≠ i := fun hh => hroots_nk j hj (hh ▸ hik)
      rw [(hoth1 j hji).1]
      by_cases hjp : j = p
      · rw [hjp, hRp2]
        show (getN s p).parent = none
        exact h.rootsPar p (hjp ▸ hj)
      · rw [(hs1oth j hji hjp).1]
        exact h.rootsPar j hj
    · simp at hj
      subst hj
      rw [hxspec]
  · intro q c hc
    dsimp only at hc
    by_cases hqp : q = p
    · rw [if_pos hqp] at hc
      have hck : c ∈ L.kids p := by
        rcases List.mem_append.mp hc with hc | hc
        · exact hk1k c hc
        · exact hk2k c hc
      have hci : c ≠ i := by
        intro hh
        subst hh
        rcases List.mem_append.mp hc with hc | hc
        · exact hik1 hc
        · exact hik2 hc
      have hcp : c ≠ p := fun hh => hpk (hh ▸ hck)
      rw [(hoth1 c hci).1, (hs1oth c hci hcp).1, hqp]
      exact h.kidsPar p c hck
    · rw [if_neg hqp] at hc
      have hci : c ≠ i := fun hh =>
        hqp (realize_kids_unique s L h q p c hc (hh ▸ hik))
      have hcp2 : c ∈ L.mem := h.kidsMem q c hc
      by_cases hcp : c = p
      · rw [(hoth1 c hci).1]
        subst hcp
        rw [hRp2]
        exact h.kidsPar q c hc
      · rw [(hoth1 c hci).1, (hs1oth c hci hcp).1]
        exact h.kidsPar q c hc
  · intro j hj
    rcases h.cover j hj with hcv | ⟨q, hcv⟩
    · exact Or.inl (List.mem_append_left _ hcv)
    · by_cases hqp : q = p
      · subst hqp
        rw [hk] at hcv
        rcases List.mem_append.mp hcv with hcv | hcv
        · exact Or.inr ⟨q, by simp [hcv]⟩
        · rcases List.mem_cons.mp hcv with hji | hcv2
          · subst hji
            exact Or.inl (by simp)
          · exact Or.inr ⟨q, by simp [hcv2]⟩
      · exact Or.inr ⟨q, by simp [hqp, hcv]⟩
  · obtain ⟨l0, hdec⟩ := getLast_decomp L.roots t hlast
    rw [hdec]
    refine chainFrom_append s _ l0 t i none ?_ ?_ ?_ ?_
    · rw [← hdec]
      exact h.rootsChain
    · constructor
      · rw [hAt]
        show (getN (removeN s i) t).leftSib = (getN s t).leftSib
        by_cases htp : t = p
        · subst htp
          rw [hRp2]
        · rw [hs1r t htr htp]
      · rw [hAt]
    · rw [hxspec]
      exact ⟨rfl, rfl⟩
    · intro y hy
      have hnd := h.rootsND
      rw [hdec, List.nodup_append] at hnd
      have hyt : y ≠ t := fun hh => hnd.2.2 hy (by simp [hh])
      have hyr : y ∈ L.roots := hdec ▸ List.mem_append_left _ hy
      have hyi : y ≠ i := fun hh => hroots_nk y hyr (hh ▸ hik)
      have hs1y : (getN (removeN s i) y).leftSib = (getN s y).leftSib ∧
          (getN (removeN s i) y).rightSib = (getN s y).rightSib := by
        by_cases hyp2 : y = p
        · subst hyp2
          rw [hRp2]
          exact ⟨rfl, rfl⟩
        · rw [hs1r y hyr hyp2]
          exact ⟨rfl, rfl⟩
      exact ⟨(hsib1 y hyi hyt).1.trans hs1y.1, (hsib1 y hyi hyt).2.trans hs1y.2⟩
  · intro q hq
    dsimp only
    by_cases hqp : q = p
    · rw [if_pos hqp]
      subst hqp
      refine chainFrom_erase s _ k1 k2 i none (by rw [← hk]; exact h.kidsChain q hq)
        (by rw [← hk]; exact h.kidsND q) ?_ ?_ ?_
      · intro y hy
        have hyk : y ∈ L.kids q := hk1k y (List.mem_of_getLast?_eq_some hy)
        have hyi : y ≠ i := fun hh => hik1 (hh ▸ List.mem_of_getLast?_eq_some hy)
        have hyt : y ≠ t := fun hh => hroots_nk t htr (hh ▸ hyk)
        have hrec := hRlft y (by rw [hlinks.1]; exact hy)
        refine ⟨(hsib1 y hyi hyt).1.trans ?_, (hsib1 y hyi hyt).2.trans ?_⟩
        · rw [hrec]
        · rw [hrec]
      · intro y hy
        have hyk : y ∈ L.kids q := hk2k y (head_mem_of_eq _ _ hy)
        have hyi : y ≠ i := fun hh => hik2 (hh ▸ head_mem_of_eq _ _ hy)
        have hyt : y ≠ t := fun hh => hroots_nk t htr (hh ▸ hyk)
        have hrec := hRrt y (by rw [hlinks.2]; exact hy)
        refine ⟨(hsib1 y hyi hyt).1.trans ?_, (hsib1 y hyi hyt).2.trans ?_⟩
        · rw [hrec]
        · rw [hrec]
      · intro y hy h1 h2
        have hyk : y ∈ L.kids q := by
          rcases List.mem_append.mp hy with hy | hy
          · exact hk1k y hy
          · exact hk2k y hy
        have hyi : y ≠ i := by
          intro hh
          subst hh
          rcases List.mem_append.mp hy with hy | hy
          · exact hik1 hy
          · exact hik2 hy
        have hyt : y ≠ t := fun hh => hroots_nk t htr (hh ▸ hyk)
        have hyp2 : y ≠ q := fun hh => hpk (hh ▸ hyk)
        have hfr1 := hRfr y hyi hyp2 (by rw [hlinks.1]; exact fun hh => h1 hh)
          (by rw [hlinks.2]; exact fun hh => h2 hh)
        refine ⟨(hsib1 y hyi hyt).1.trans ?_, (hsib1 y hyi hyt).2.trans ?_⟩
        · rw [hfr1]
        · rw [hfr1]
    · rw [if_neg hqp]
      refine chainFrom_frame s _ (L.kids q) none ?_ (h.kidsChain q hq)
      intro e he
      have hei : e ≠ i := fun hh =>
        hqp (realize_kids_unique s L h q p e he (hh ▸ hik))
      have het : e ≠ t := fun hh => realize_root_not_kid s L h t q htr (hh ▸ he)
      by_cases hep : e = p
      · refine ⟨(hsib1 e hei het).1.trans ?_, (hsib1 e hei het).2.trans ?_⟩
        · subst hep
          rw [hRp2]
        · subst hep
          rw [hRp2]
      · have hekp : e ∉ L.kids p := fun hh =>
          hqp (realize_kids_unique s L h q p e he hh)
        refine ⟨(hsib1 e hei het).1.trans ?_, (hsib1 e hei het).2.trans ?_⟩
        · rw [hs1kid e hei hekp hep]
        · rw [hs1kid e hei hekp hep]
  · intro q hq
    dsimp only
    by_cases hqp : q = p
    · rw [if_pos hqp, hqp, (hoth1 p hpi).2.1, hRp2]
      show (getN s p).rank - 1 = (k1 ++ k2).length
      rw [hrlen, List.length_append]
      omega
    · rw [if_neg hqp]
      by_cases hqi : q = i
      · rw [hqi, hxspec]
        show (getN s i).rank = (L.kids i).length
        exact h.rankEq i him
      · rw [(hoth1 q hqi).2.1, (hs1oth q hqi hqp).2.1]
        exact h.rankEq q hq
  · intro q hq
    dsimp only
    by_cases hqp : q = p
    · rw [if_pos hqp, hqp]
      have hchp : (getN (addSibling (removeN s i) r0 i) p).children
          = (k1.getLast?).or k2.head? := by
        rw [(hoth1 p hpi).2.2, hRp2]
        show ((getN s i).leftSib).or ((getN s i).rightSib) = _
        rw [hlinks.1, hlinks.2]
      constructor
      · rw [hchp]
        constructor
        · intro hh
          cases hgl : k1.getLast? with
          | some a =>
            rw [hgl] at hh
            exact Option.noConfusion hh
          | none =>
            rw [hgl] at hh
            have hh2 : k2.head? = none := hh
            have hk10 : k1 = [] := by
              cases hk1c : k1 with
              | nil => rfl
              | cons a b =>
                rw [hk1c] at hgl
                rw [List.getLast?_cons] at hgl
                exact Option.noConfusion hgl
            have hk20 : k2 = [] := by
              cases hk2c : k2 with
              | nil => rfl
              | cons a b =>
                rw [hk2c] at hh2
                exact Option.noConfusion hh2
            rw [hk10, hk20]
            rfl
        · intro hh
          obtain ⟨h1, h2⟩ := List.append_eq_nil.mp hh
          rw [h1, h2]
          rfl
      · intro c hcc
        rw [hchp] at hcc
        cases hgl : k1.getLast? with
        | some a =>
          rw [hgl] at hcc
          have hac : a = c := Option.some.inj hcc
          subst hac
          exact List.mem_append_left _ (List.mem_of_getLast?_eq_some hgl)
        | none =>
          rw [hgl] at hcc
          have hcc2 : k2.head? = some c := hcc
          exact List.mem_append_right _ (head_mem_of_eq _ _ hcc2)
    · rw [if_neg hqp]
      by_cases hqi : q = i
      · constructor
        · rw [hqi, hxspec]
          show (getN s i).children = none ↔ L.kids i = []
          exact (h.chPtr i him).1
        · intro c hcc
          rw [hqi, hxspec] at hcc
          have hcc2 : (getN s i).children = some c := hcc
          rw [hqi]
          exact (h.chPtr i him).2 c hcc2
      · constructor
        · rw [(hoth1 q hqi).2.2, (hs1oth q hqi hqp).2.2]
          exact (h.chPtr q hq).1
        · intro c hcc
          rw [(hoth1 q hqi).2.2, (hs1oth q hqi hqp).2.2] at hcc
          exact (h.chPtr q hq).2 c hcc
  · intro j hj
    exact hkr j (h.acyc j hj)
  · rw [minN_addSibling, minN_removeN]
    cases hsm : s.minN with
    | none =>
      have hh := h.minOK
      rw [hsm] at hh
      rw [hh] at hr0
      exact absurd hr0 (List.not_mem_nil r0)
    | some mm =>
      have hh := h.minOK
      rw [hsm] at hh
      exact List.mem_append_left _ hh
  · intro j hj hnj
    rw [length_addSibling, length_removeN] at hj
    have hji : j ≠ i := fun hh => hnj (hh ▸ him)
    have hjt : j ≠ t := fun hh => hnj (hh ▸ htm)
    have hjp : j ≠ p := fun hh => hnj (hh ▸ hpm)
    have hjk : j ∉ L.kids p := fun hh => hnj (h.kidsMem p j hh)
    rw [hAf j hjt hji, hs1kid j hji hjk hjp]
    exact h.cleanOut j hj hnj

/-- insert_node applied to a freshly cut child i (still a member): the cut
node becomes the last root and leaves its parent's child list. -/
theorem insertNode_cut_realize (s : HState) (L : HLayout) (p i : ℕ) (k1 k2 : List ℕ)
    (h : Realize s L) (hpm : p ∈ L.mem) (hk : L.kids p = k1 ++ i :: k2) :
    Realize (insertNode (removeN s i) i)
      { roots := L.roots ++ [i],
        kids := fun q => if q = p then k1 ++ k2 else L.kids q,
        mem := L.mem } := by
  unfold insertNode
  rw [minN_removeN]
  cases hsm : s.minN with
  | none =>
    have hr0 : L.roots = [] := by
      have hh := h.minOK
      rwa [hsm] at hh
    have hm0 : L.mem = [] := realize_roots_nil s L h hr0
    rw [hm0] at hpm
    exact absurd hpm (List.not_mem_nil p)
  | some mm =>
    have hmr : mm ∈ L.roots := by
      have hh := h.minOK
      rwa [hsm] at hh
    dsimp only
    have hreal := cut_attach_realize s L p i mm k1 k2 h hmr hpm hk
    split
    · exact realize_minN _ _ i (by simp) hreal
    · exact hreal

/-- decrease_val preserves realization with the membership unchanged, and
touches no state, index, length or bucket data and no value other than
node i's. -/
theorem decreaseVal_realize (s : HState) (L : HLayout) (i : ℕ) (nv : ℚ)
    (h : Realize s L) (him : i ∈ L.mem) :
    ∃ L', Realize (decreaseVal s i nv) L' ∧ L'.mem = L.mem ∧
      (decreaseVal s i nv).nodes.length = s.nodes.length ∧
      (decreaseVal s i nv).buckets = s.buckets ∧
      (∀ j, (getN (decreaseVal s i nv) j).state = (getN s j).state) ∧
      (∀ j, (getN (decreaseVal s i nv) j).index = (getN s j).index) ∧
      (∀ j, j ≠ i → (getN (decreaseVal s i nv) j).val = (getN s j).val) := by
  have hreal1 : Realize (putN s i (fun nd => { nd with val := nv })) L := by
    refine realize_frame s _ L (length_putN s i _) (minN_putN s i _) ?_ h
    intro j _
    refine ⟨?_, ?_, ?_, ?_, ?_⟩
    · rw [getN_putN_keep FNode.parent]
      exact fun _ => rfl
    · rw [getN_putN_keep FNode.leftSib]
      exact fun _ => rfl
    · rw [getN_putN_keep FNode.rightSib]
      exact fun _ => rfl
    · rw [getN_putN_keep FNode.children]
      exact fun _ => rfl
    · rw [getN_putN_keep FNode.rank]
      exact fun _ => rfl
  unfold decreaseVal
  dsimp only
  have hval_keep : ∀ j, j ≠ i →
      (getN (putN s i (fun nd => { nd with val := nv })) j).val = (getN s j).val := by
    intro j hji
    rw [getN_putN_ne _ _ _ _ (Ne.symm hji)]
  have hstate_keep : ∀ j,
      (getN (putN s i (fun nd => { nd with val := nv })) j).state = (getN s j).state := by
    intro j
    rw [getN_putN_keep FNode.state]
    exact fun _ => rfl
  have hindex_keep : ∀ j,
      (getN (putN s i (fun nd => { nd with val := nv })) j).index = (getN s j).index := by
    intro j
    rw [getN_putN_keep FNode.index]
    exact fun _ => rfl
  have hpar_keep : (getN (putN s i (fun nd => { nd with val := nv })) i).parent
      = (getN s i).parent := by
    rw [getN_putN_keep FNode.parent]
    exact fun _ => rfl
  rw [hpar_keep]
  cases hp : (getN s i).parent with
  | none =>
    refine ⟨L, hreal1, rfl, length_putN s i _, buckets_putN s i _,
      hstate_keep, hindex_keep, hval_keep⟩
  | some p =>
    dsimp only
    split
    · have hik : i ∈ L.kids p := realize_parent_kid s L h i p him hp
      obtain ⟨k1, k2, hsplit⟩ := List.append_of_mem hik
      have hpm2 : p ∈ L.mem := by
        rcases h.cover i him with hcv | ⟨q, hcv⟩
        · rw [h.rootsPar i hcv] at hp
          exact Option.noConfusion hp
        · have hqp : q = p := Option.some.inj ((h.kidsPar q i hcv).symm.trans hp)
          have hqm : q ∈ L.mem := by
            by_contra hqm
            rw [h.kidsNil q hqm] at hcv
            exact absurd hcv (List.not_mem_nil i)
          exact hqp ▸ hqm
      have hik1 : i ∈ L.kids p := hik
      refine ⟨_, insertNode_cut_realize _ L p i k1 k2 hreal1 hpm2 hsplit, rfl, ?_, ?_, ?_, ?_, ?_⟩
      · show (insertNode (removeN _ i) i).nodes.length = s.nodes.length
        cases hm2 : (removeN (putN s i (fun nd => { nd with val := nv })) i).minN with
        | none =>
          unfold insertNode
          rw [hm2]
          simp only [length_removeN, length_putN]
        | some mm =>
          unfold insertNode
          rw [hm2]
          dsimp only
          split
          · simp only [length_addSibling, length_removeN, length_putN]
          · simp only [length_addSibling, length_removeN, length_putN]
      · show (insertNode (removeN _ i) i).buckets = s.buckets
        cases hm2 : (removeN (putN s i (fun nd => { nd with val := nv })) i).minN with
        | none =>
          unfold insertNode
          rw [hm2]
          simp only [buckets_removeN, buckets_putN]
        | some mm =>
          unfold insertNode
          rw [hm2]
          dsimp only
          split
          · simp only [buckets_addSibling, buckets_removeN, buckets_putN]
          · simp only [buckets_addSibling, buckets_removeN, buckets_putN]
      · intro j
        show (getN (insertNode (removeN _ i) i) j).state = (getN s j).state
        cases hm2 : (removeN (putN s i (fun nd => { nd with val := nv })) i).minN with
        | none =>
          unfold insertNode
          rw [hm2]
          show (getN (removeN _ i) j).state = (getN s j).state
          rw [removeN_state_all]
          exact hstate_keep j
        | some mm =>
          unfold insertNode
          rw [hm2]
          dsimp only
          split
          · show (getN (addSibling (removeN _ i) mm i) j).state = (getN s j).state
            rw [addSibling_state_frame, removeN_state_all]
            exact hstate_keep j
          · rw [addSibling_state_frame, removeN_state_all]
            exact hstate_keep j
      · intro j
        show (getN (insertNode (removeN _ i) i) j).index = (getN s j).index
        cases hm2 : (removeN (putN s i (fun nd => { nd with val := nv })) i).minN with
        | none =>
          unfold insertNode
          rw [hm2]
          show (getN (removeN _ i) j).index = (getN s j).index
          rw [removeN_index_all]
          exact hindex_keep j
        | some mm =>
          unfold insertNode
          rw [hm2]
          dsimp only
          split
          · show (getN (addSibling (removeN _ i) mm i) j).index = (getN s j).index
            rw [addSibling_index_frame, removeN_index_all]
            exact hindex_keep j
          · rw [addSibling_index_frame, removeN_index_all]
            exact hindex_keep j
      · intro j hji
        show (getN (insertNode (removeN _ i) i) j).val = (getN s j).val
        cases hm2 : (removeN (putN s i (fun nd => { nd with val := nv })) i).minN with
        | none =>
          unfold insertNode
          rw [hm2]
          show (getN (removeN _ i) j).val = (getN s j).val
          rw [removeN_val_all]
          exact hval_keep j hji
        | some mm =>
          unfold insertNode
          rw [hm2]
          dsimp only
          split
          · show (getN (addSibling (removeN _ i) mm i) j).val = (getN s j).val
            rw [addSibling_val_frame, removeN_val_all]
            exact hval_keep j hji
          · rw [addSibling_val_frame, removeN_val_all]
            exact hval_keep j hji
    · refine ⟨L, hreal1, rfl, length_putN s i _, buckets_putN s i _,
        hstate_keep, hindex_keep, hval_keep⟩

/-- The full child-promotion loop of remove_min: with enough fuel it moves
the whole child list of root m onto the end of the root chain in order,
emptying m's child list, with membership, states, values, indices, length,
min_node and buckets unchanged. -/
theorem promoteKids_realize :
    ∀ (ks : List ℕ) (s : HState) (L : HLayout) (m x fuel : ℕ),
    Realize s L → m ∈ L.roots → L.kids m = x :: ks → ks.length + 1 ≤ fuel →
    ∃ L', Realize (promoteKids s m x fuel) L' ∧
      L'.roots = L.roots ++ x :: ks ∧
      (∀ q, L'.kids q = if q = m then [] else L.kids q) ∧
      L'.mem = L.mem ∧
      (promoteKids s m x fuel).nodes.length = s.nodes.length ∧
      (promoteKids s m x fuel).minN = s.minN ∧
      (promoteKids s m x fuel).buckets = s.buckets ∧
      (∀ j, (getN (promoteKids s m x fuel) j).state = (getN s j).state) ∧
      (∀ j, (getN (promoteKids s m x fuel) j).val = (getN s j).val) ∧
      (∀ j, (getN (promoteKids s m x fuel) j).index = (getN s j).index) := by
  intro ks
  induction ks with
  | nil =>
    intro s L m x fuel h hm hk hfuel
    cases fuel with
    | zero => omega
    | succ f =>
      unfold promoteKids
      dsimp only
      have hchm := h.kidsChain m (h.rootsMem m hm)
      rw [hk] at hchm
      have hxr : (getN s x).rightSib = none := hchm.2.1
      rw [hxr]
      dsimp only
      refine ⟨_, promote_step_realize s L m x [] h hm hk, by simp, fun q => rfl, rfl,
        ?_, ?_, ?_, ?_, ?_, ?_⟩
      · simp only [length_addSibling, length_removeN]
      · simp only [minN_addSibling, minN_removeN]
      · simp only [buckets_addSibling, buckets_removeN]
      · intro j
        rw [addSibling_state_frame, removeN_state_all]
      · intro j
        rw [addSibling_val_frame, removeN_val_all]
      · intro j
        rw [addSibling_index_frame, removeN_index_all]
  | cons t2 ks2 ih =>
    intro s L m x fuel h hm hk hfuel
    cases fuel with
    | zero =>
      exact absurd hfuel (by simp)
    | succ f =>
      unfold promoteKids
      dsimp only
      have hchm := h.kidsChain m (h.rootsMem m hm)
      rw [hk] at hchm
      have hxr : (getN s x).rightSib = some t2 := hchm.2.1
      rw [hxr]
      dsimp only
      have hstep := promote_step_realize s L m x (t2 :: ks2) h hm hk
      obtain ⟨L2, h2real, h2roots, h2kids, h2mem, hlen2, hmin2, hbuck2, hst2, hv2, hi2⟩ :=
        ih (addSibling (removeN s x) m x) _ m t2 f hstep
          (List.mem_append_left _ hm)
          (by show (if m = m then t2 :: ks2 else L.kids m) = t2 :: ks2
              rw [if_pos rfl])
          (by simp at hfuel ⊢; omega)
      refine ⟨L2, h2real, ?_, ?_, ?_, ?_, ?_, ?_, ?_, ?_, ?_⟩
      · rw [h2roots]
        show (L.roots ++ [x]) ++ t2 :: ks2 = L.roots ++ x :: t2 :: ks2
        simp
      · intro q
        rw [h2kids q]
        by_cases hqm : q = m
        · rw [if_pos hqm, if_pos hqm]
        · rw [if_neg hqm, if_neg hqm]
          show (if q = m then t2 :: ks2 else L.kids q) = L.kids q
          rw [if_neg hqm]
      · rw [h2mem]
      · rw [hlen2]
        simp only [length_addSibling, length_removeN]
      · rw [hmin2]
        simp only [minN_addSibling, minN_removeN]
      · rw [hbuck2]
        simp only [buckets_addSibling, buckets_removeN]
      · intro j
        rw [hst2 j, addSibling_state_frame, removeN_state_all]
      · intro j
        rw [hv2 j, addSibling_val_frame, removeN_val_all]
      · intro j
        rw [hi2 j, addSibling_index_frame, removeN_index_all]

/-- The link recursion: starting from a root i in the visited region Q of
the root list, with every bucket occupant a visited root of matching rank,
none of them i, and every occupant's and i's value at least the provisional
minimum mm's, the recursion only merges visited roots into one another:
the suffix rest of the root list survives intact, membership, min_node,
states, values, indices and the arena length are unchanged, and the bucket
invariant is restored for a subset of Q. -/
theorem fibLink_realize :
    ∀ (fuel : ℕ) (s : HState) (L : HLayout) (Q rest : List ℕ) (i mm : ℕ),
    Realize s L → L.roots = Q ++ rest → i ∈ Q → s.minN = some mm →
    BInv s Q → (∀ r, s.buckets r ≠ some i) →
    (∀ r o, s.buckets r = some o → (getN s mm).val ≤ (getN s o).val) →
    (getN s mm).val ≤ (getN s i).val →
    ∃ L' Q', Realize (fibLink s i fuel) L' ∧
      L'.roots = Q' ++ rest ∧ L'.mem = L.mem ∧ Q' ⊆ Q ∧
      (fibLink s i fuel).nodes.length = s.nodes.length ∧
      (fibLink s i fuel).minN = s.minN ∧
      BInv (fibLink s i fuel) Q' ∧
      (∀ r o, (fibLink s i fuel).buckets r = some o →
        (getN (fibLink s i fuel) mm).val ≤ (getN (fibLink s i fuel) o).val) ∧
      (∀ j, (getN (fibLink s i fuel) j).state = (getN s j).state) ∧
      (∀ j, (getN (fibLink s i fuel) j).val = (getN s j).val) ∧
      (∀ j, (getN (fibLink s i fuel) j).index = (getN s j).index) := by
  intro fuel
  induction fuel with
  | zero =>
    intro s L Q rest i mm h hroots hiQ hmin hbi hni hvo hvi
    exact ⟨L, Q, h, hroots, rfl, fun a ha => ha, rfl, rfl, hbi,
      fun r o ho => hvo r o ho, fun j => rfl, fun j => rfl, fun j => rfl⟩
  | succ f ih =>
    intro s L Q rest i mm h hroots hiQ hmin hbi hni hvo hvi
    unfold fibLink
    cases hb : s.buckets (getN s i).rank with
    | none =>
      dsimp only
      refine ⟨L, Q, realize_setBucket _ _ _ _ h, hroots, rfl, fun a ha => ha, rfl, rfl,
        ?_, ?_, fun j => rfl, fun j => rfl, fun j => rfl⟩
      · intro r o ho
        rw [buckets_setBucket] at ho
        by_cases hrr : r = (getN s i).rank
        · rw [if_pos hrr] at ho
          have hio : i = o := Option.some.inj ho
          rw [← hio, getN_setBucket]
          exact ⟨hiQ, hrr.symm⟩
        · rw [if_neg hrr] at ho
          rw [getN_setBucket]
          exact hbi r o ho
      · intro r o ho
        rw [buckets_setBucket] at ho
        rw [getN_setBucket, getN_setBucket]
        by_cases hrr : r = (getN s i).rank
        · rw [if_pos hrr] at ho
          have hio : i = o := Option.some.inj ho
          rw [← hio]
          exact hvi
        · rw [if_neg hrr] at ho
          exact hvo r o ho
    | some l =>
      dsimp only
      simp only [getN_setBucket, minN_setBucket]
      obtain ⟨hlQ, hlrank⟩ := hbi (getN s i).rank l hb
      have hlroots : l ∈ L.roots := hroots ▸ List.mem_append_left _ hlQ
      have hiroots : i ∈ L.roots := hroots ▸ List.mem_append_left _ hiQ
      have hil : i ≠ l := fun hh => hni (getN s i).rank (hh ▸ hb)
      have hlm : l ∈ L.mem := h.rootsMem l hlroots
      have him : i ∈ L.mem := h.rootsMem i hiroots
      have hll : l < s.nodes.length := h.memLT l hlm
      have hilen : i < s.nodes.length := h.memLT i him
      have hreal1 : Realize (setBucket s (getN s i).rank none) L :=
        realize_setBucket _ _ _ _ h
      have hQerase : ∀ x, x ∈ Q → ∀ y, y ≠ x → y ∈ Q → y ∈ Q.erase x := by
        intro x _ y hyx hy
        exact (List.mem_erase_of_ne hyx).mpr hy
      have herQ : ∀ x ∈ Q, L.roots.erase x = Q.erase x ++ rest := by
        intro x hx
        rw [hroots]
        exact List.erase_append_left _ hx
      by_cases hcond : (getN s i).val < (getN s l).val ∨ s.minN = some i
      · rw [if_pos hcond]
        have hlmm : l ≠ mm := by
          rcases hcond with hcv | hcm
          · intro hh
            rw [hh] at hcv
            exact absurd hcv (not_lt.mpr hvi)
          · have hmi : mm = i := Option.some.inj (hmin.symm.trans hcm)
            intro hh
            exact hil (by rw [hh, hmi])
        have hminl : (setBucket s (getN s i).rank none).minN ≠ some l := by
          rw [minN_setBucket, hmin]
          exact fun hh => hlmm (Option.some.inj hh).symm
        have hmerge := merge_realize (setBucket s (getN s i).rank none) L i l
          hreal1 hiroots hlroots hil hminl
        have hparl1 : (getN (setBucket s (getN s i).rank none) l).parent = none := by
          rw [getN_setBucket]
          exact h.rootsPar l hlroots
        have hfr2 : ∀ j, getN (addChild (removeN (setBucket s (getN s i).rank none) l) i l) j
            = getN (addChild (removeN (setBucket s (getN s i).rank none) l) i l) j := fun j => rfl
        have hstf : ∀ j, (getN (addChild (removeN (setBucket s (getN s i).rank none) l) i l) j).state
            = (getN s j).state := by
          intro j
          rw [addChild_state_frame, removeN_state_all, getN_setBucket]
        have hvlf : ∀ j, (getN (addChild (removeN (setBucket s (getN s i).rank none) l) i l) j).val
            = (getN s j).val := by
          intro j
          rw [addChild_val_frame, removeN_val_all, getN_setBucket]
        have hixf : ∀ j, (getN (addChild (removeN (setBucket s (getN s i).rank none) l) i l) j).index
            = (getN s j).index := by
          intro j
          rw [addChild_index_frame, removeN_index_all, getN_setBucket]
        have hrkf : ∀ j, j ≠ i →
            (getN (addChild (removeN (setBucket s (getN s i).rank none) l) i l) j).rank
            = (getN s j).rank := by
          intro j hji
          rw [addChild_rank_frame _ _ _ _ hji hil
            (by simp only [length_removeN, length_setBucket]; exact hll) ?_,
            removeN_rank_frame _ _ hparl1, getN_setBucket]
          intro k hk
          rw [removeN_children_frame _ _ hparl1, getN_setBucket] at hk
          have hkk : k ∈ L.kids i := (h.chPtr i him).2 k hk
          have hkl : k ≠ l := fun hh => realize_root_not_kid s L h l i hlroots (hh ▸ hkk)
          rw [removeN_parent_frame _ _ _ hparl1 hkl, getN_setBucket]
          exact h.kidsPar i k hkk
        have hlen2 : (addChild (removeN (setBucket s (getN s i).rank none) l) i l).nodes.length
            = s.nodes.length := by
          simp only [length_addChild, length_removeN, length_setBucket]
        have hmin2 : (addChild (removeN (setBucket s (getN s i).rank none) l) i l).minN
            = some mm := by
          rw [minN_addChild, minN_removeN, minN_setBucket, hmin]
        have hbuck2 : ∀ r, (addChild (removeN (setBucket s (getN s i).rank none) l) i l).buckets r
            = (if r = (getN s i).rank then none else s.buckets r) := by
          intro r
          rw [buckets_addChild, buckets_removeN, buckets_setBucket]
        obtain ⟨L2, Q2, hr2, hroots2, hmem2, hsub2, hlen3, hmin3, hbi3, hvo3, hst3, hvl3, hix3⟩ :=
          ih (addChild (removeN (setBucket s (getN s i).rank none) l) i l) _
            (Q.erase l) rest i mm hmerge
            (by show L.roots.erase l = Q.erase l ++ rest
                exact herQ l hlQ)
            ((List.mem_erase_of_ne hil).mpr hiQ)
            hmin2
            (by intro r o ho
                rw [hbuck2] at ho
                by_cases hrr : r = (getN s i).rank
                · rw [if_pos hrr] at ho
                  exact Option.noConfusion ho
                · rw [if_neg hrr] at ho
                  obtain ⟨hoQ, hork⟩ := hbi r o ho
                  have hol : o ≠ l := by
                    intro hh
                    rw [hh] at hork
                    rw [hork] at hlrank
                    exact hrr hlrank
                  have hoi : o ≠ i := fun hh => hni r (hh ▸ ho)
                  refine ⟨(List.mem_erase_of_ne hol).mpr hoQ, ?_⟩
                  rw [hrkf o hoi]
                  exact hork)
            (by intro r
                rw [hbuck2]
                by_cases hrr : r = (getN s i).rank
                · rw [if_pos hrr]
                  exact fun hh => Option.noConfusion hh
                · rw [if_neg hrr]
                  exact hni r)
            (by intro r o ho
                rw [hbuck2] at ho
                by_cases hrr : r = (getN s i).rank
                · rw [if_pos hrr] at ho
                  exact Option.noConfusion ho
                · rw [if_neg hrr] at ho
                  rw [hvlf mm, hvlf o]
                  exact hvo r o ho)
            (by rw [hvlf mm, hvlf i]
                exact hvi)
        refine ⟨L2, Q2, hr2, hroots2, hmem2.trans rfl,
          fun a ha => List.mem_of_mem_erase (hsub2 ha), ?_, ?_, hbi3, hvo3, ?_, ?_, ?_⟩
        · rw [hlen3, hlen2]
        · rw [hmin3, hmin2, hmin]
        · intro j
          rw [hst3 j, hstf j]
        · intro j
          rw [hvl3 j, hvlf j]
        · intro j
          rw [hix3 j, hixf j]
      · rw [if_neg hcond]
        push_neg at hcond
        obtain ⟨hvle, hmni⟩ := hcond
        have himm : i ≠ mm := by
          intro hh
          exact hmni (by rw [hmin, hh])
        have hminl : (setBucket s (getN s i).rank none).minN ≠ some i := by
          rw [minN_setBucket]
          exact hmni
        have hmerge := merge_realize (setBucket s (getN s i).rank none) L l i
          hreal1 hlroots hiroots (Ne.symm hil) hminl
        have hpari1 : (getN (setBucket s (getN s i).rank none) i).parent = none := by
          rw [getN_setBucket]
          exact h.rootsPar i hiroots
        have hstf : ∀ j, (getN (addChild (removeN (setBucket s (getN s i).rank none) i) l i) j).state
            = (getN s j).state := by
          intro j
          rw [addChild_state_frame, removeN_state_all, getN_setBucket]
        have hvlf : ∀ j, (getN (addChild (removeN (setBucket s (getN s i).rank none) i) l i) j).val
            = (getN s j).val := by
          intro j
          rw [addChild_val_frame, removeN_val_all, getN_setBucket]
        have hixf : ∀ j, (getN (addChild (removeN (setBucket s (getN s i).rank none) i) l i) j).index
            = (getN s j).index := by
          intro j
          rw [addChild_index_frame, removeN_index_all, getN_setBucket]
        have hrkf : ∀ j, j ≠ l →
            (getN (addChild (removeN (setBucket s (getN s i).rank none) i) l i) j).rank
            = (getN s j).rank := by
          intro j hjl
          rw [addChild_rank_frame _ _ _ _ hjl (Ne.symm hil)
            (by simp only [length_removeN, length_setBucket]; exact hilen) ?_,
            removeN_rank_frame _ _ hpari1, getN_setBucket]
          intro k hk
          rw [removeN_children_frame _ _ hpari1, getN_setBucket] at hk
          have hkk : k ∈ L.kids l := (h.chPtr l hlm).2 k hk
          have hki : k ≠ i := fun hh => realize_root_not_kid s L h i l hiroots (hh ▸ hkk)
          rw [removeN_parent_frame _ _ _ hpari1 hki, getN_setBucket]
          exact h.kidsPar l k hkk
        have hlen2 : (addChild (removeN (setBucket s (getN s i).rank none) i) l i).nodes.length
            = s.nodes.length := by
          simp only [length_addChild, length_removeN, length_setBucket]
        have hmin2 : (addChild (removeN (setBucket s (getN s i).rank none) i) l i).minN
            = some mm := by
          rw [minN_addChild, minN_removeN, minN_setBucket, hmin]
        have hbuck2 : ∀ r, (addChild (removeN (setBucket s (getN s i).rank none) i) l i).buckets r
            = (if r = (getN s i).rank then none else s.buckets r) := by
          intro r
          rw [buckets_addChild, buckets_removeN, buckets_setBucket]
        obtain ⟨L2, Q2, hr2, hroots2, hmem2, hsub2, hlen3, hmin3, hbi3, hvo3, hst3, hvl3, hix3⟩ :=
          ih (addChild (removeN (setBucket s (getN s i).rank none) i) l i) _
            (Q.erase i) rest l mm hmerge
            (by show L.roots.erase i = Q.erase i ++ rest
                exact herQ i hiQ)
            ((List.mem_erase_of_ne (Ne.symm hil)).mpr hlQ)
            hmin2
            (by intro r o ho
                rw [hbuck2] at ho
                by_cases hrr : r = (getN s i).rank
                · rw [if_pos hrr] at ho
                  exact Option.noConfusion ho
                · rw [if_neg hrr] at ho
                  obtain ⟨hoQ, hork⟩ := hbi r o ho
                  have hoi : o ≠ i := fun hh => hni r (hh ▸ ho)
                  refine ⟨(List.mem_erase_of_ne hoi).mpr hoQ, ?_⟩
                  rw [hrkf o ?_]
                  · exact hork
                  · intro hh
                    rw [hh] at hork
                    rw [hork] at hlrank
                    exact hrr hlrank)
            (by intro r
                rw [hbuck2]
                by_cases hrr : r = (getN s i).rank
                · rw [if_pos hrr]
                  exact fun hh => Option.noConfusion hh
                · rw [if_neg hrr]
                  intro hh
                  obtain ⟨hoQ, hork⟩ := hbi r l hh
                  rw [hork] at hlrank
                  exact hrr hlrank)
            (by intro r o ho
                rw [hbuck2] at ho
                by_cases hrr : r = (getN s i).rank
                · rw [if_pos hrr] at ho
                  exact Option.noConfusion ho
                · rw [if_neg hrr] at ho
                  rw [hvlf mm, hvlf o]
                  exact hvo r o ho)
            (by rw [hvlf mm, hvlf l]
                exact hvo (getN s i).rank l hb)
        refine ⟨L2, Q2, hr2, hroots2, hmem2.trans rfl,
          fun a ha => List.mem_of_mem_erase (hsub2 ha), ?_, ?_, hbi3, hvo3, ?_, ?_, ?_⟩
        · rw [hlen3, hlen2]
        · rw [hmin3, hmin2, hmin]
        · intro j
          rw [hst3 j, hstf j]
        · intro j
          rw [hvl3 j, hvlf j]
        · intro j
          rw [hix3 j, hixf j]


/-- The consolidation walk of remove_min: walking the root list from t with
enough fuel preserves realization of some layout with the same membership,
and leaves every node's state, value and index and the arena length
unchanged. -/
theorem consolidate_realize :
    ∀ (rest : List ℕ) (fuel : ℕ) (s : HState) (L : HLayout) (Q : List ℕ) (t mm : ℕ),
    Realize s L → L.roots = Q ++ t :: rest → s.minN = some mm →
    BInv s Q →
    (∀ r o, s.buckets r = some o → (getN s mm).val ≤ (getN s o).val) →
    rest.length + 1 ≤ fuel →
    ∃ L', Realize (consolidate s t fuel) L' ∧ L'.mem = L.mem ∧
      (consolidate s t fuel).nodes.length = s.nodes.length ∧
      (∀ j, (getN (consolidate s t fuel) j).state = (getN s j).state) ∧
      (∀ j, (getN (consolidate s t fuel) j).val = (getN s j).val) ∧
      (∀ j, (getN (consolidate s t fuel) j).index = (getN s j).index) := by
  intro rest
  induction rest with
  | nil =>
    intro fuel s L Q t mm h hroots hmin hbi hvo hfuel
    cases fuel with
    | zero => omega
    | succ f =>
      unfold consolidate
      dsimp only
      rw [hmin]
      dsimp only
      have htroots : t ∈ L.roots := hroots ▸ List.mem_append_right _ (by simp)
      have htQ : t ∉ Q := by
        have hnd := h.rootsND
        rw [hroots, List.nodup_append] at hnd
        exact fun hh => hnd.2.2 hh (by simp)
      have hxr : (getN s t).rightSib = none := by
        have := chainFrom_links s Q [] t (by rw [← hroots]; exact h.rootsChain)
        exact this.2
      by_cases hup : (getN s t).val < (getN s mm).val
      · rw [if_pos hup]
        have h0 : Realize { s with minN := some t } L := realize_minN s L t htroots h
        have hxr0 : (getN { s with minN := some t } t).rightSib = none := hxr
        rw [hxr0]
        dsimp only
        obtain ⟨L1, Q1, hr1, _, hmem1, _, hlen1, _, _, _, hst1, hvl1, hix1⟩ :=
          fibLink_realize 100 { s with minN := some t } L (Q ++ [t]) [] t t
            h0 (by rw [hroots]; simp) (by simp) rfl
            (by intro r o ho
                obtain ⟨hoQ, hork⟩ := hbi r o ho
                exact ⟨List.mem_append_left _ hoQ, hork⟩)
            (fun r hh => htQ (hbi r t hh).1)
            (by intro r o ho
                show (getN s t).val ≤ (getN s o).val
                exact le_of_lt (lt_of_lt_of_le hup (hvo r o ho)))
            (le_refl _)
        exact ⟨L1, hr1, hmem1, hlen1, hst1, hvl1, hix1⟩
      · rw [if_neg hup]
        rw [hxr]
        dsimp only
        obtain ⟨L1, Q1, hr1, _, hmem1, _, hlen1, _, _, _, hst1, hvl1, hix1⟩ :=
          fibLink_realize 100 s L (Q ++ [t]) [] t mm
            h (by rw [hroots]; simp) (by simp) hmin
            (by intro r o ho
                obtain ⟨hoQ, hork⟩ := hbi r o ho
                exact ⟨List.mem_append_left _ hoQ, hork⟩)
            (fun r hh => htQ (hbi r t hh).1)
            hvo
            (le_of_not_lt hup)
        exact ⟨L1, hr1, hmem1, hlen1, hst1, hvl1, hix1⟩
  | cons t2 rest2 ih =>
    intro fuel s L Q t mm h hroots hmin hbi hvo hfuel
    cases fuel with
    | zero => omega
    | succ f =>
      unfold consolidate
      dsimp only
      rw [hmin]
      dsimp only
      have htroots : t ∈ L.roots := hroots ▸ List.mem_append_right _ (by simp)
      have htQ : t ∉ Q := by
        have hnd := h.rootsND
        rw [hroots, List.nodup_append] at hnd
        exact fun hh => hnd.2.2 hh (by simp)
      have hxr : (getN s t).rightSib = some t2 := by
        have := chainFrom_links s Q (t2 :: rest2) t (by rw [← hroots]; exact h.rootsChain)
        exact this.2
      by_cases hup : (getN s t).val < (getN s mm).val
      · rw [if_pos hup]
        have h0 : Realize { s with minN := some t } L := realize_minN s L t htroots h
        have hxr0 : (getN { s with minN := some t } t).rightSib = some t2 := hxr
        rw [hxr0]
        dsimp only
        obtain ⟨L1, Q1, hr1, hroots1, hmem1, _, hlen1, hminp1, hbi1, hvo1, hst1, hvl1,
            hix1⟩ :=
          fibLink_realize 100 { s with minN := some t } L (Q ++ [t]) (t2 :: rest2) t t
            h0 (by rw [hroots]; simp) (by simp) rfl
            (by intro r o ho
                obtain ⟨hoQ, hork⟩ := hbi r o ho
                exact ⟨List.mem_append_left _ hoQ, hork⟩)
            (fun r hh => htQ (hbi r t hh).1)
            (by intro r o ho
                show (getN s t).val ≤ (getN s o).val
                exact le_of_lt (lt_of_lt_of_le hup (hvo r o ho)))
            (le_refl _)
        obtain ⟨L2, hr2, hmem2, hlen2, hst2, hvl2, hix2⟩ :=
          ih f (fibLink { s with minN := some t } t 100) L1 Q1 t2 t
            hr1 hroots1 hminp1 hbi1 hvo1
            (by simp only [List.length_cons] at hfuel; omega)
        refine ⟨L2, hr2, by rw [hmem2, hmem1], by rw [hlen2]; exact hlen1,
          fun j => ?_, fun j => ?_, fun j => ?_⟩
        · rw [hst2 j]; exact hst1 j
        · rw [hvl2 j]; exact hvl1 j
        · rw [hix2 j]; exact hix1 j
      · rw [if_neg hup]
        rw [hxr]
        dsimp only
        obtain ⟨L1, Q1, hr1, hroots1, hmem1, _, hlen1, hminp1, hbi1, hvo1, hst1, hvl1,
            hix1⟩ :=
          fibLink_realize 100 s L (Q ++ [t]) (t2 :: rest2) t mm
            h (by rw [hroots]; simp) (by simp) hmin
            (by intro r o ho
                obtain ⟨hoQ, hork⟩ := hbi r o ho
                exact ⟨List.mem_append_left _ hoQ, hork⟩)
            (fun r hh => htQ (hbi r t hh).1)
            hvo
            (le_of_not_lt hup)
        obtain ⟨L2, hr2, hmem2, hlen2, hst2, hvl2, hix2⟩ :=
          ih f (fibLink s t 100) L1 Q1 t2 mm
            hr1 hroots1 (by rw [hminp1, hmin]) hbi1 hvo1
            (by simp only [List.length_cons] at hfuel; omega)
        refine ⟨L2, hr2, by rw [hmem2, hmem1], by rw [hlen2, hlen1],
          fun j => ?_, fun j => ?_, fun j => ?_⟩
        · rw [hst2 j, hst1 j]
        · rw [hvl2 j, hvl1 j]
        · rw [hix2 j, hix1 j]

/-- Unlinking a childless root m (as remove_min does after promoting the
children away) and retargeting min_node at another root realizes the
layout with m erased from the root and member lists. -/
theorem removeRoot_realize (s : HState) (L : HLayout) (h : Realize s L) (m t : ℕ)
    (hm : m ∈ L.roots) (hkm : L.kids m = []) (ht : t ∈ L.roots.erase m) :
    Realize ({ removeN s m with minN := some t } : HState)
      ⟨L.roots.erase m, L.kids, L.mem.erase m⟩ := by
  obtain ⟨p1, p2, hsplit⟩ := List.append_of_mem hm
  have hndr : (p1 ++ m :: p2).Nodup := hsplit ▸ h.rootsND
  have hmmem : m ∈ L.mem := h.rootsMem m hm
  have hmlt : m < s.nodes.length := h.memLT m hmmem
  have hpar : (getN s m).parent = none := h.rootsPar m hm
  have hchain : chainFrom s none (p1 ++ m :: p2) := hsplit ▸ h.rootsChain
  have hlinks := chainFrom_links s p1 p2 m hchain
  have hm1 : m ∉ p1 := by
    rw [List.nodup_append] at hndr
    exact fun hh => hndr.2.2 hh (by simp)
  have hm2 : m ∉ p2 := by
    rw [List.nodup_append] at hndr
    exact (List.nodup_cons.mp hndr.2.1).1
  have hhead_mem : ∀ y, p2.head? = some y → y ∈ p2 := by
    intro y hy
    cases p2 with
    | nil => simp at hy
    | cons a r =>
      simp at hy
      simp [hy]
  have hp1roots : ∀ y ∈ p1, y ∈ L.roots := fun y hy =>
    hsplit ▸ List.mem_append_left _ hy
  have hp2roots : ∀ y ∈ p2, y ∈ L.roots := fun y hy =>
    hsplit ▸ List.mem_append_right _ (by simp [hy])
  have hlx : (getN s m).leftSib ≠ some m := by
    rw [hlinks.1]
    intro hh
    exact hm1 (List.mem_of_getLast?_eq_some hh)
  have hrx : (getN s m).rightSib ≠ some m := by
    rw [hlinks.2]
    intro hh
    exact hm2 (hhead_mem m hh)
  have hdisj : ∀ y ∈ p1, y ∉ p2 := by
    rw [List.nodup_append] at hndr
    intro y hy hy2
    exact hndr.2.2 hy (by simp [hy2])
  have hlr : ∀ y, (getN s m).leftSib = some y → (getN s m).rightSib ≠ some y := by
    intro y hy hh
    rw [hlinks.1] at hy
    rw [hlinks.2] at hh
    exact hdisj y (List.mem_of_getLast?_eq_some hy) (hhead_mem y hh)
  have hlb : ∀ y, (getN s m).leftSib = some y → y < s.nodes.length := by
    intro y hy
    rw [hlinks.1] at hy
    exact h.memLT y (h.rootsMem y (hp1roots y (List.mem_of_getLast?_eq_some hy)))
  have hrb : ∀ y, (getN s m).rightSib = some y → y < s.nodes.length := by
    intro y hy
    rw [hlinks.2] at hy
    exact h.memLT y (h.rootsMem y (hp2roots y (hhead_mem y hy)))
  obtain ⟨hxm, hln, hrn, hfr⟩ := removeN_spec_root s m hpar hmlt hlx hrx hlr hlb hrb
  have hgEq : ∀ j, getN ({ removeN s m with minN := some t } : HState) j
      = getN (removeN s m) j := fun j => rfl
  have hkeepJ : ∀ j, j ≠ m →
      (getN (removeN s m) j).parent = (getN s j).parent ∧
      (getN (removeN s m) j).children = (getN s j).children ∧
      (getN (removeN s m) j).rank = (getN s j).rank := by
    intro j hjm
    by_cases hj1 : (getN s m).leftSib = some j
    · rw [hln j hj1]
      exact ⟨rfl, rfl, rfl⟩
    · by_cases hj2 : (getN s m).rightSib = some j
      · rw [hrn j hj2]
        exact ⟨rfl, rfl, rfl⟩
      · rw [hfr j hjm hj1 hj2]
        exact ⟨rfl, rfl, rfl⟩
  have hlen' : ({ removeN s m with minN := some t } : HState).nodes.length
      = s.nodes.length := length_removeN s m
  have herase : L.roots.erase m = p1 ++ p2 := by
    rw [hsplit, List.erase_append_right _ hm1, List.erase_cons_head]
  have hkidsne : ∀ p c, c ∈ L.kids p → c ≠ m := by
    intro p c hc hh
    rw [hh] at hc
    have := h.kidsPar p m hc
    rw [hpar] at this
    exact Option.noConfusion this
  refine ⟨h.rootsND.erase m, h.kidsND, h.memND.erase m, ?_, ?_, ?_, ?_, ?_, ?_, ?_,
    ?_, ?_, ?_, ?_, ?_, ht, ?_⟩
  · intro i hi
    rw [hlen']
    exact h.memLT i (List.mem_of_mem_erase hi)
  · intro i hi
    have hne : i ≠ m := fun hh => (List.Nodup.not_mem_erase h.rootsND) (hh ▸ hi)
    exact (List.mem_erase_of_ne hne).mpr
      (h.rootsMem i (List.mem_of_mem_erase hi))
  · intro p c hc
    exact (List.mem_erase_of_ne (hkidsne p c hc)).mpr (h.kidsMem p c hc)
  · intro p hp
    by_cases hpm : p = m
    · rw [hpm]
      exact hkm
    · refine h.kidsNil p ?_
      intro hpmem
      exact hp ((List.mem_erase_of_ne hpm).mpr hpmem)
  · intro i hi
    have hne : i ≠ m := fun hh => (List.Nodup.not_mem_erase h.rootsND) (hh ▸ hi)
    rw [hgEq i, (hkeepJ i hne).1]
    exact h.rootsPar i (List.mem_of_mem_erase hi)
  · intro p c hc
    rw [hgEq c, (hkeepJ c (hkidsne p c hc)).1]
    exact h.kidsPar p c hc
  · intro i hi
    have hne : i ≠ m := fun hh => (List.Nodup.not_mem_erase h.memND) (hh ▸ hi)
    rcases h.cover i (List.mem_of_mem_erase hi) with hir | ⟨p, hp⟩
    · exact Or.inl ((List.mem_erase_of_ne hne).mpr hir)
    · exact Or.inr ⟨p, hp⟩
  · show chainFrom _ none (L.roots.erase m)
    rw [herase]
    refine chainFrom_erase s ({ removeN s m with minN := some t } : HState) p1 p2 m none
      hchain hndr ?_ ?_ ?_
    · intro y hy
      rw [hgEq y, hln y (hlinks.1.trans hy)]
      exact ⟨rfl, rfl⟩
    · intro y hy
      rw [hgEq y, hrn y (hlinks.2.trans hy)]
      exact ⟨rfl, rfl⟩
    · intro y hy hy1 hy2
      have hym : y ≠ m := by
        intro hh
        rw [hh] at hy
        rcases List.mem_append.mp hy with h1 | h2
        · exact hm1 h1
        · exact hm2 h2
      rw [hgEq y, hfr y hym (by rw [hlinks.1]; exact hy1) (by rw [hlinks.2]; exact hy2)]
      exact ⟨rfl, rfl⟩
  · intro p hp
    refine chainFrom_frame s ({ removeN s m with minN := some t } : HState) (L.kids p)
      none ?_ (h.kidsChain p (List.mem_of_mem_erase hp))
    intro x hx
    have hxm : x ≠ m := hkidsne p x hx
    have hx1 : (getN s m).leftSib ≠ some x := by
      rw [hlinks.1]
      intro hc
      have hxr := hp1roots x (List.mem_of_getLast?_eq_some hc)
      have hcon := h.rootsPar x hxr
      rw [h.kidsPar p x hx] at hcon
      exact Option.noConfusion hcon
    have hx2 : (getN s m).rightSib ≠ some x := by
      rw [hlinks.2]
      intro hc
      have hxr := hp2roots x (hhead_mem x hc)
      have hcon := h.rootsPar x hxr
      rw [h.kidsPar p x hx] at hcon
      exact Option.noConfusion hcon
    rw [hgEq x, hfr x hxm hx1 hx2]
    exact ⟨rfl, rfl⟩
  · intro p hp
    have hne : p ≠ m := fun hh => (List.Nodup.not_mem_erase h.memND) (hh ▸ hp)
    rw [hgEq p, (hkeepJ p hne).2.2]
    exact h.rankEq p (List.mem_of_mem_erase hp)
  · intro p hp
    have hne : p ≠ m := fun hh => (List.Nodup.not_mem_erase h.memND) (hh ▸ hp)
    rw [hgEq p, (hkeepJ p hne).2.1]
    exact h.chPtr p (List.mem_of_mem_erase hp)
  · have haux : ∀ i, KReach L.roots L.kids i →
        i = m ∨ KReach (L.roots.erase m) L.kids i := by
      intro i hi
      induction hi with
      | root j hj =>
        by_cases hjm : j = m
        · exact Or.inl hjm
        · exact Or.inr (KReach.root j ((List.mem_erase_of_ne hjm).mpr hj))
      | child p c hp hc ih =>
        rcases ih with hh | hh
        · rw [hh, hkm] at hc
          exact absurd hc (List.not_mem_nil c)
        · exact Or.inr (KReach.child p c hh hc)
    intro i hi
    have hne : i ≠ m := fun hh => (List.Nodup.not_mem_erase h.memND) (hh ▸ hi)
    rcases haux i (h.acyc i (List.mem_of_mem_erase hi)) with hh | hh
    · exact absurd hh hne
    · exact hh
  · intro i hilt hinm
    by_cases him : i = m
    · rw [him, hgEq m, hxm]
      refine ⟨rfl, rfl, rfl, (h.chPtr m hmmem).1.mpr hkm, ?_⟩
      show (getN s m).rank = 0
      rw [h.rankEq m hmmem, hkm]
      rfl
    · have hinmem : i ∉ L.mem := by
        intro hh
        exact hinm ((List.mem_erase_of_ne him).mpr hh)
      have hilt2 : i < s.nodes.length := by
        rw [← hlen']
        exact hilt
      have hi1 : (getN s m).leftSib ≠ some i := by
        rw [hlinks.1]
        intro hc
        exact hinmem (h.rootsMem i (hp1roots i (List.mem_of_getLast?_eq_some hc)))
      have hi2 : (getN s m).rightSib ≠ some i := by
        rw [hlinks.2]
        intro hc
        exact hinmem (h.rootsMem i (hp2roots i (hhead_mem i hc)))
      rw [hgEq i, hfr i him hi1 hi2]
      exact h.cleanOut i hilt2 hinmem

/-- The empty branch of remove_min: when the extracted node was the sole
root of a childless tree, clearing min_node leaves a realized empty heap,
and the membership list was exactly that node. -/
theorem removeMin_empty_phase (sA : HState) (LA : HLayout) (m : ℕ)
    (h : Realize sA LA) (hroots : LA.roots = [m]) (hkm : LA.kids m = []) :
    Realize ({ sA with minN := none } : HState) ⟨[], fun _ => [], []⟩ ∧
    LA.mem = [m] := by
  have hall : ∀ i, KReach LA.roots LA.kids i → i = m := by
    intro i hi
    induction hi with
    | root j hj =>
      rw [hroots] at hj
      simpa using hj
    | child p c hp hc ih =>
      rw [ih, hkm] at hc
      exact absurd hc (List.not_mem_nil c)
  have hmm : m ∈ LA.mem := h.rootsMem m (by rw [hroots]; simp)
  have hmemeq : LA.mem = [m] := by
    have hsub : ∀ x ∈ LA.mem, x = m := fun x hx => hall x (h.acyc x hx)
    rcases hmem : LA.mem with _ | ⟨a, l⟩
    · rw [hmem] at hmm
      exact absurd hmm (List.not_mem_nil m)
    · have ha : a = m := hsub a (by rw [hmem]; simp)
      have hln : l = [] := by
        rw [List.eq_nil_iff_forall_not_mem]
        intro x hx
        have hxm : x = m := hsub x (by rw [hmem]; simp [hx])
        have hnd := h.memND
        rw [hmem] at hnd
        have hnl := (List.nodup_cons.mp hnd).1
        rw [ha] at hnl
        rw [hxm] at hx
        exact hnl hx
      rw [ha, hln]
  refine ⟨⟨List.nodup_nil, fun p => List.nodup_nil, List.nodup_nil,
    fun i hi => absurd hi (List.not_mem_nil i),
    fun i hi => absurd hi (List.not_mem_nil i),
    fun p c hc => absurd hc (List.not_mem_nil c),
    fun p hp => rfl,
    fun i hi => absurd hi (List.not_mem_nil i),
    fun p c hc => absurd hc (List.not_mem_nil c),
    fun i hi => absurd hi (List.not_mem_nil i),
    trivial,
    fun p hp => trivial,
    fun p hp => absurd hp (List.not_mem_nil p),
    fun p hp => absurd hp (List.not_mem_nil p),
    fun i hi => absurd hi (List.not_mem_nil i),
    rfl,
    ?_⟩, hmemeq⟩
  intro i hilt hinm
  by_cases him : i = m
  · rw [him]
    have hch := h.rootsChain
    rw [hroots] at hch
    obtain ⟨hl0, hr0, _⟩ := hch
    refine ⟨h.rootsPar m (by rw [hroots]; simp), hl0, hr0,
      (h.chPtr m hmm).1.mpr hkm, ?_⟩
    show (getN sA m).rank = 0
    rw [h.rankEq m hmm, hkm]
    rfl
  · have hinmem : i ∉ LA.mem := by
      rw [hmemeq]
      simp [him]
    exact h.cleanOut i hilt hinmem

/-- The non-empty branch of remove_min: unlink the extracted root, aim
min_node at the head of the remaining root chain, clear the bucket table
and consolidate; the result realizes a layout with the extracted node
removed from membership, its slot clean, and all states, values, indices
and the arena length preserved. -/
theorem removeMin_link_phase (sA : HState) (LA : HLayout) (m t fuel : ℕ)
    (h : Realize sA LA) (hm : m ∈ LA.roots) (hkm : LA.kids m = [])
    (hthead : (LA.roots.erase m).head? = some t)
    (hfuel : LA.roots.length ≤ fuel) :
    ∃ L', Realize (consolidate (clearBuckets
        ({ removeN sA m with minN := some t } : HState)) t fuel) L' ∧
      L'.mem = LA.mem.erase m ∧
      (consolidate (clearBuckets
        ({ removeN sA m with minN := some t } : HState)) t fuel).nodes.length
        = sA.nodes.length ∧
      cleanNode (getN (consolidate (clearBuckets
        ({ removeN sA m with minN := some t } : HState)) t fuel) m) ∧
      (∀ j, (getN (consolidate (clearBuckets
        ({ removeN sA m with minN := some t } : HState)) t fuel) j).state
        = (getN sA j).state) ∧
      (∀ j, (getN (consolidate (clearBuckets
        ({ removeN sA m with minN := some t } : HState)) t fuel) j).val
        = (getN sA j).val) ∧
      (∀ j, (getN (consolidate (clearBuckets
        ({ removeN sA m with minN := some t } : HState)) t fuel) j).index
        = (getN sA j).index) := by
  obtain ⟨rest, hdec⟩ : ∃ rest, LA.roots.erase m = t :: rest := by
    rcases herl : LA.roots.erase m with _ | ⟨a, r⟩
    · rw [herl] at hthead
      exact Option.noConfusion hthead
    · rw [herl] at hthead
      simp at hthead
      exact ⟨r, by rw [hthead]⟩
  have ht : t ∈ LA.roots.erase m := by
    rw [hdec]
    simp
  have hreal2 := removeRoot_realize sA LA h m t hm hkm ht
  have hreal3 : Realize (clearBuckets ({ removeN sA m with minN := some t } : HState))
      ⟨LA.roots.erase m, LA.kids, LA.mem.erase m⟩ :=
    realize_clearBuckets _ _ hreal2
  obtain ⟨L', hr', hmem', hlen', hst', hvl', hix'⟩ :=
    consolidate_realize rest fuel
      (clearBuckets ({ removeN sA m with minN := some t } : HState))
      ⟨LA.roots.erase m, LA.kids, LA.mem.erase m⟩ [] t t
      hreal3
      (by show LA.roots.erase m = [] ++ t :: rest; rw [List.nil_append]; exact hdec)
      rfl
      (fun r o ho => Option.noConfusion ho)
      (fun r o ho => (Option.noConfusion ho : False).elim)
      (by
        have h1 : (LA.roots.erase m).length ≤ LA.roots.length :=
          (List.erase_sublist m LA.roots).length_le
        rw [hdec] at h1
        simp at h1
        omega)
  have hlenF : (consolidate (clearBuckets
      ({ removeN sA m with minN := some t } : HState)) t fuel).nodes.length
      = sA.nodes.length := hlen'.trans (length_removeN sA m)
  have hstF : ∀ j, (getN (consolidate (clearBuckets
      ({ removeN sA m with minN := some t } : HState)) t fuel) j).state
      = (getN sA j).state := fun j => (hst' j).trans (removeN_state_all sA m j)
  have hvlF : ∀ j, (getN (consolidate (clearBuckets
      ({ removeN sA m with minN := some t } : HState)) t fuel) j).val
      = (getN sA j).val := fun j => (hvl' j).trans (removeN_val_all sA m j)
  have hixF : ∀ j, (getN (consolidate (clearBuckets
      ({ removeN sA m with minN := some t } : HState)) t fuel) j).index
      = (getN sA j).index := fun j => (hix' j).trans (removeN_index_all sA m j)
  have hmlt : m < sA.nodes.length := h.memLT m (h.rootsMem m hm)
  have hmnot : m ∉ L'.mem := by
    intro hh
    rw [hmem'] at hh
    exact (List.Nodup.not_mem_erase h.memND) hh
  refine ⟨L', hr', hmem', hlenF, ?_, hstF, hvlF, hixF⟩
  exact hr'.cleanOut m (by rw [hlenF]; exact hmlt) hmnot

/-- The branch selector of remove_min after child promotion: the scrutinee
is none exactly when the extracted node was the sole root, and when it is
some t, t heads the root chain with the extracted node erased. -/
theorem removeMin_scrutinee (sA : HState) (LA : HLayout) (m : ℕ)
    (h : Realize sA LA) (hm : m ∈ LA.roots) :
    ((if leftmostSib sA sA.nodes.length m = m then (getN sA m).rightSib
      else some (leftmostSib sA sA.nodes.length m)) = none → LA.roots = [m]) ∧
    (∀ t, (if leftmostSib sA sA.nodes.length m = m then (getN sA m).rightSib
      else some (leftmostSib sA sA.nodes.length m)) = some t →
      (LA.roots.erase m).head? = some t) := by
  have hfl : LA.roots.length ≤ sA.nodes.length :=
    nodup_lt_length LA.roots sA.nodes.length h.rootsND
      (fun x hx => h.memLT x (h.rootsMem x hx))
  have hhead : LA.roots.head? = some (leftmostSib sA sA.nodes.length m) :=
    leftmostSib_mem sA LA.roots m sA.nodes.length hm h.rootsChain hfl
  rcases hr : LA.roots with _ | ⟨r0, rts⟩
  · rw [hr] at hhead
    exact Option.noConfusion hhead
  · rw [hr] at hhead
    simp at hhead
    have hchain := h.rootsChain
    rw [hr] at hchain
    obtain ⟨_, hrs, _⟩ := hchain
    by_cases ht0 : leftmostSib sA sA.nodes.length m = m
    · have hr0m : r0 = m := by rw [hhead, ht0]
      rw [hr0m] at hrs
      constructor
      · intro hnone
        rw [if_pos ht0] at hnone
        rw [hnone] at hrs
        have hrtsnil : rts = [] := by
          rcases rts with _ | ⟨b, l⟩
          · rfl
          · exact Option.noConfusion hrs
        rw [hr0m, hrtsnil]
      · intro t hsome
        rw [if_pos ht0] at hsome
        rw [hsome] at hrs
        rw [hr0m, List.erase_cons_head]
        exact hrs.symm
    · have hmr0 : r0 ≠ m := by
        rw [hhead]
        exact ht0
      constructor
      · intro hnone
        rw [if_neg ht0] at hnone
        exact Option.noConfusion hnone
      · intro t hsome
        rw [if_neg ht0] at hsome
        have htt : leftmostSib sA sA.nodes.length m = t := Option.some.inj hsome
        rw [List.erase_cons_tail]
        · simp
          rw [hhead, htt]
        · simp [hmr0]

/-- The cdef routine remove_min on a realized non-empty heap: it extracts
exactly the node min_node designates, realizes a layout with that node
erased from membership, leaves the extracted slot's links clean, and
preserves every node's state, value and index and the arena length. -/
theorem removeMin_realize (s : HState) (L : HLayout) (m : ℕ)
    (h : Realize s L) (hmin : s.minN = some m) :
    ∃ s' L', removeMin s = some (s', m) ∧ Realize s' L' ∧
      L'.mem = L.mem.erase m ∧
      s'.nodes.length = s.nodes.length ∧
      cleanNode (getN s' m) ∧
      (∀ j, (getN s' j).state = (getN s j).state) ∧
      (∀ j, (getN s' j).val = (getN s j).val) ∧
      (∀ j, (getN s' j).index = (getN s j).index) := by
  have hmroot : m ∈ L.roots := by
    have hmo := h.minOK
    rw [hmin] at hmo
    exact hmo
  have hmmem : m ∈ L.mem := h.rootsMem m hmroot
  have hmlt : m < s.nodes.length := h.memLT m hmmem
  unfold removeMin
  rw [hmin]
  dsimp only
  rcases hch : (getN s m).children with _ | c
  · -- no children: the state entering the scrutinee is s itself
    dsimp only
    have hkm : L.kids m = [] := (h.chPtr m hmmem).1.mp hch
    obtain ⟨hsnone, hssome⟩ := removeMin_scrutinee s L m h hmroot
    rcases hscrut : (if leftmostSib s s.nodes.length m = m then (getN s m).rightSib
        else some (leftmostSib s s.nodes.length m)) with _ | t
    · dsimp only
      have hro : L.roots = [m] := hsnone hscrut
      obtain ⟨hrealE, hmemE⟩ := removeMin_empty_phase s L m h hro hkm
      refine ⟨{ s with minN := none }, ⟨[], fun _ => [], []⟩, rfl, hrealE,
        ?_, rfl, ?_, fun j => rfl, fun j => rfl, fun j => rfl⟩
      · show ([] : List ℕ) = L.mem.erase m
        rw [hmemE, List.erase_cons_head]
      · exact hrealE.cleanOut m hmlt (List.not_mem_nil m)
    · dsimp only
      have hthead := hssome t hscrut
      have hfuel : L.roots.length ≤ (clearBuckets
          ({ removeN s m with minN := some t } : HState)).nodes.length := by
        show L.roots.length ≤ (removeN s m).nodes.length
        rw [length_removeN]
        exact nodup_lt_length L.roots s.nodes.length h.rootsND
          (fun x hx => h.memLT x (h.rootsMem x hx))
      obtain ⟨L', hr', hmem', hlen', hclean', hst', hvl', hix'⟩ :=
        removeMin_link_phase s L m t
          (clearBuckets ({ removeN s m with minN := some t } : HState)).nodes.length
          h hmroot hkm hthead hfuel
      exact ⟨_, L', rfl, hr', hmem', hlen', hclean', hst', hvl', hix'⟩
  · -- children present: promote them, then clear the children pointer
    dsimp only
    have hcmem : c ∈ L.kids m := (h.chPtr m hmmem).2 c hch
    have hkch : chainFrom s none (L.kids m) := h.kidsChain m hmmem
    have hkfl : (L.kids m).length ≤ s.nodes.length :=
      nodup_lt_length (L.kids m) s.nodes.length (h.kidsND m)
        (fun x hx => h.memLT x (h.kidsMem m x hx))
    have hheadk : (L.kids m).head? = some (leftmostSib s s.nodes.length c) :=
      leftmostSib_mem s (L.kids m) c s.nodes.length hcmem hkch hkfl
    rcases hkm0 : L.kids m with _ | ⟨tc, ks⟩
    · rw [hkm0] at hheadk
      exact Option.noConfusion hheadk
    · rw [hkm0] at hheadk
      simp at hheadk
      rw [← hheadk]
      obtain ⟨L1, hr1, hroots1, hkids1, hmem1, hlen1, hmin1, hbuck1, hst1, hvl1, hix1⟩ :=
        promoteKids_realize ks s L m tc s.nodes.length h hmroot hkm0
          (by rw [hkm0] at hkfl; simp at hkfl; omega)
      have hkids1m : L1.kids m = [] := by
        rw [hkids1 m, if_pos rfl]
      have hmemL1 : m ∈ L1.mem := by
        rw [hmem1]
        exact hmmem
      have hchn : (getN (promoteKids s m tc s.nodes.length) m).children = none :=
        (hr1.chPtr m hmemL1).1.mpr hkids1m
      have hlenA : (putN (promoteKids s m tc s.nodes.length) m
          (fun nd => { nd with children := none })).nodes.length = s.nodes.length := by
        rw [length_putN]
        exact hlen1
      have hrealA : Realize (putN (promoteKids s m tc s.nodes.length) m
          (fun nd => { nd with children := none })) L1 := by
        refine realize_frame (promoteKids s m tc s.nodes.length) _ L1
          (length_putN _ _ _) (minN_putN _ _ _) ?_ hr1
        intro j hj
        by_cases hjm : j = m
        · subst hjm
          rw [getN_putN_self, if_pos hj]
          exact ⟨rfl, rfl, rfl, hchn.symm, rfl⟩
        · rw [getN_putN_ne _ _ _ _ (fun hh => hjm hh.symm)]
          exact ⟨rfl, rfl, rfl, rfl, rfl⟩
      have hminA : (putN (promoteKids s m tc s.nodes.length) m
          (fun nd => { nd with children := none })).minN = some m := by
        rw [minN_putN, hmin1, hmin]
      have hmrootA : m ∈ L1.roots := by
        rw [hroots1]
        exact List.mem_append_left _ hmroot
      have hstA : ∀ j, (getN (putN (promoteKids s m tc s.nodes.length) m
          (fun nd => { nd with children := none })) j).state = (getN s j).state := by
        intro j
        by_cases hjm : j = m
        · subst hjm
          rw [getN_putN_self]
          split
          · exact hst1 j
          · exact hst1 j
        · rw [getN_putN_ne _ _ _ _ (fun hh => hjm hh.symm)]
          exact hst1 j
      have hvlA : ∀ j, (getN (putN (promoteKids s m tc s.nodes.length) m
          (fun nd => { nd with children := none })) j).val = (getN s j).val := by
        intro j
        by_cases hjm : j = m
        · subst hjm
          rw [getN_putN_self]
          split
          · exact hvl1 j
          · exact hvl1 j
        · rw [getN_putN_ne _ _ _ _ (fun hh => hjm hh.symm)]
          exact hvl1 j
      have hixA : ∀ j, (getN (putN (promoteKids s m tc s.nodes.length) m
          (fun nd => { nd with children := none })) j).index = (getN s j).index := by
        intro j
        by_cases hjm : j = m
        · subst hjm
          rw [getN_putN_self]
          split
          · exact hix1 j
          · exact hix1 j
        · rw [getN_putN_ne _ _ _ _ (fun hh => hjm hh.symm)]
          exact hix1 j
      obtain ⟨hsnone, hssome⟩ := removeMin_scrutinee
        (putN (promoteKids s m tc s.nodes.length) m
          (fun nd => { nd with children := none })) L1 m hrealA hmrootA
      rcases hscrut : (if leftmostSib (putN (promoteKids s m tc s.nodes.length) m
            (fun nd => { nd with children := none }))
            (putN (promoteKids s m tc s.nodes.length) m
              (fun nd => { nd with children := none })).nodes.length m = m
          then (getN (putN (promoteKids s m tc s.nodes.length) m
            (fun nd => { nd with children := none })) m).rightSib
          else some (leftmostSib (putN (promoteKids s m tc s.nodes.length) m
            (fun nd => { nd with children := none }))
            (putN (promoteKids s m tc s.nodes.length) m
              (fun nd => { nd with children := none })).nodes.length m)) with _ | t
      · dsimp only
        have hro : L1.roots = [m] := hsnone hscrut
        obtain ⟨hrealE, hmemE⟩ := removeMin_empty_phase
          (putN (promoteKids s m tc s.nodes.length) m
            (fun nd => { nd with children := none })) L1 m hrealA hro hkids1m
        refine ⟨_, ⟨[], fun _ => [], []⟩, rfl, hrealE, ?_, ?_, ?_,
          fun j => hstA j, fun j => hvlA j, fun j => hixA j⟩
        · show ([] : List ℕ) = L.mem.erase m
          rw [hmem1] at hmemE
          rw [hmemE, List.erase_cons_head]
        · exact hlenA
        · exact hrealE.cleanOut m (by rw [hlenA]; exact hmlt) (List.not_mem_nil m)
      · dsimp only
        have hthead := hssome t hscrut
        have hfuel : L1.roots.length ≤ (clearBuckets
            ({ removeN (putN (promoteKids s m tc s.nodes.length) m
              (fun nd => { nd with children := none })) m with minN := some t }
              : HState)).nodes.length := by
          show L1.roots.length ≤ (removeN (putN (promoteKids s m tc s.nodes.length) m
            (fun nd => { nd with children := none })) m).nodes.length
          rw [length_removeN]
          exact nodup_lt_length L1.roots _ hr1.rootsND
            (fun x hx => hrealA.memLT x (hrealA.rootsMem x hx))
        obtain ⟨L', hr', hmem', hlen', hclean', hst', hvl', hix'⟩ :=
          removeMin_link_phase (putN (promoteKids s m tc s.nodes.length) m
              (fun nd => { nd with children := none })) L1 m t
            (clearBuckets ({ removeN (putN (promoteKids s m tc s.nodes.length) m
              (fun nd => { nd with children := none })) m with minN := some t }
              : HState)).nodes.length
            hrealA hmrootA hkids1m hthead hfuel
        refine ⟨_, L', rfl, hr', ?_, ?_, hclean',
          fun j => (hst' j).trans (hstA j),
          fun j => (hvl' j).trans (hvlA j),
          fun j => (hix' j).trans (hixA j)⟩
        · rw [hmem', hmem1]
        · rw [hlen', hlenA]

/-- At most N nodes are fresh. -/
theorem zcount_le (s : HState) (N : ℕ) : zcount s N ≤ N := by
  unfold zcount
  calc ((Finset.range N).filter (fun i => (getN s i).state = 0)).card
      ≤ (Finset.range N).card := Finset.card_filter_le _ _
    _ = N := Finset.card_range N

/-- States agree below N, so the fresh counts agree. -/
theorem zcount_congr (s s' : HState) (N : ℕ)
    (h : ∀ i, i < N → (getN s' i).state = (getN s i).state) :
    zcount s' N = zcount s N := by
  unfold zcount
  congr 1
  apply Finset.filter_congr
  intro i hi
  rw [Finset.mem_range] at hi
  rw [h i hi]

/-- Inserting a fresh node into the heap consumes one unit of freshness. -/
theorem zcount_insert_state (s : HState) (u N : ℕ) (w : ℚ)
    (huN : u < N) (hulen : u < s.nodes.length) (h0 : (getN s u).state = 0) :
    zcount (putN s u (fun nd => { nd with state := 1, val := w })) N + 1
      = zcount s N := by
  unfold zcount
  have hmem : u ∈ (Finset.range N).filter (fun i => (getN s i).state = 0) := by
    simp [Finset.mem_filter, Finset.mem_range, huN, h0]
  have hfe : (Finset.range N).filter
      (fun i => (getN (putN s u (fun nd => { nd with state := 1, val := w })) i).state = 0)
      = ((Finset.range N).filter (fun i => (getN s i).state = 0)).erase u := by
    ext i
    simp only [Finset.mem_filter, Finset.mem_range, Finset.mem_erase]
    constructor
    · rintro ⟨hi, hsi⟩
      by_cases hiu : i = u
      · subst hiu
        rw [getN_putN_self, if_pos hulen] at hsi
        exact absurd hsi (by simp)
      · rw [getN_putN_ne _ _ _ _ (fun hh => hiu hh.symm)] at hsi
        exact ⟨hiu, hi, hsi⟩
    · rintro ⟨hiu, hi, hsi⟩
      rw [getN_putN_ne _ _ _ _ (fun hh => hiu hh.symm)]
      exact ⟨hi, hsi⟩
  rw [hfe, Finset.card_erase_of_mem hmem]
  have hpos : 0 < ((Finset.range N).filter (fun i => (getN s i).state = 0)).card :=
    Finset.card_pos.mpr ⟨u, hmem⟩
  omega

/-- Scanning a node can only reduce the fresh count. -/
theorem zcount_scan_le (s : HState) (m N : ℕ) :
    zcount (putN s m (fun nd => { nd with state := 2 })) N ≤ zcount s N := by
  unfold zcount
  apply Finset.card_le_card
  intro i hi
  simp only [Finset.mem_filter, Finset.mem_range] at hi ⊢
  refine ⟨hi.1, ?_⟩
  have h2 := hi.2
  by_cases him : i = m
  · subst him
    rw [getN_putN_self] at h2
    by_cases hlt : i < s.nodes.length
    · rw [if_pos hlt] at h2
      exact absurd h2 (by simp)
    · rw [if_neg hlt] at h2
      exact h2
  · rw [getN_putN_ne _ _ _ _ (fun hh => him hh.symm)] at h2
    exact h2

/-- Scanning a node that is not fresh leaves the fresh count unchanged. -/
theorem zcount_scan_eq (s : HState) (m N : ℕ) (h1 : (getN s m).state ≠ 0) :
    zcount (putN s m (fun nd => { nd with state := 2 })) N = zcount s N := by
  unfold zcount
  congr 1
  apply Finset.filter_congr
  intro i _
  by_cases him : i = m
  · subst him
    rw [getN_putN_self]
    split
    · simp [h1]
    · exact Iff.rfl
  · rw [getN_putN_ne _ _ _ _ (fun hh => him hh.symm)]

/-- An empty membership list forces min_node to be unset. -/
theorem realize_minN_none (s : HState) (L : HLayout) (h : Realize s L)
    (hmem : L.mem = []) : s.minN = none := by
  have hroots : L.roots = [] := by
    rw [List.eq_nil_iff_forall_not_mem]
    intro x hx
    have := h.rootsMem x hx
    rw [hmem] at this
    exact absurd this (List.not_mem_nil x)
  cases hm : s.minN with
  | none => rfl
  | some m =>
    have hmo := h.minOK
    rw [hm, hroots] at hmo
    exact absurd hmo (List.not_mem_nil m)

/-- A non-empty membership list forces min_node to be set. -/
theorem realize_minN_some (s : HState) (L : HLayout) (h : Realize s L)
    (hmem : L.mem ≠ []) : ∃ m, s.minN = some m := by
  cases hm : s.minN with
  | some m => exact ⟨m, rfl⟩
  | none =>
    have hmo := h.minOK
    rw [hm] at hmo
    exact absurd (realize_roots_nil s L h hmo) hmem

/-- Writing one flat cell does not disturb the others. -/
theorem list_getD_set_ne (l : List ℚ) (p q : ℕ) (w : ℚ) (h : p ≠ q) :
    (l.set p w).getD q 0 = l.getD q 0 := by
  simp [List.getD_eq_getElem?_getD, List.getElem?_set_ne h]

/-- Writing the cell of a reachable column preserves the all-unreached
cells-are-zero property of the flat result matrix. -/
theorem zeroPres_set (cS : CSR) (d : Bool) (N : ℕ) (row : List ℚ) (src v : ℕ) (w : ℚ)
    (hv : v < N) (hr : CReach cS d src v)
    (hz : zeroPres cS d N row) :
    zeroPres cS d N (row.set (src * N + v) w) := by
  intro i j hi hj hnr
  by_cases heq : src * N + v = i * N + j
  · have h1 : (src * N + v) / N = src := by
      rw [Nat.add_comm, Nat.add_mul_div_right v src (by omega : 0 < N),
        Nat.div_eq_of_lt hv]
      omega
    have h2 : (i * N + j) / N = i := by
      rw [Nat.add_comm, Nat.add_mul_div_right j i (by omega : 0 < N),
        Nat.div_eq_of_lt hj]
      omega
    have h3 : (src * N + v) % N = v := by
      rw [Nat.add_comm, Nat.add_mul_mod_self_right, Nat.mod_eq_of_lt hv]
    have h4 : (i * N + j) % N = j := by
      rw [Nat.add_comm, Nat.add_mul_mod_self_right, Nat.mod_eq_of_lt hj]
    have hieq : i = src := by
      rw [← h2, ← heq, h1]
    have hjeq : j = v := by
      rw [← h4, ← heq, h3]
    rw [hieq, hjeq] at hnr
    exact absurd hr hnr
  · rw [list_getD_set_ne row _ _ w heq]
    exact hz i j hi hj hnr

/-- One relaxation preserves the search invariant, the state dictionary
and the termination measure of the single-source loop. -/
theorem relaxOne_pres (cS : CSR) (d : Bool) (src N : ℕ) (s : HState) (L : HLayout)
    (v u : ℕ) (dd : ℚ)
    (hs : SInv cS d src N s L) (hst : stIff s N L.mem)
    (hu : u < N) (hru : CReach cS d src u) :
    ∃ L', SInv cS d src N (relaxOne s v u dd) L' ∧
      stIff (relaxOne s v u dd) N L'.mem ∧
      L'.mem.length + zcount (relaxOne s v u dd) N = L.mem.length + zcount s N := by
  obtain ⟨hreal, hlen, hidx, hstR, hreach⟩ := hs
  unfold relaxOne
  by_cases h2 : (getN s u).state ≠ 2
  · rw [if_pos h2]
    by_cases h0 : (getN s u).state = 0
    · rw [if_pos h0]
      dsimp only
      have hulen : u < s.nodes.length := by
        rw [hlen]
        exact hu
      have hunm : u ∉ L.mem := by
        intro hh
        have h1 := (hst u hu).mpr hh
        rw [h0] at h1
        exact absurd h1 (by simp)
      have hreal1 : Realize (putN s u
          (fun nd => { nd with state := 1, val := (getN s v).val + dd })) L := by
        refine realize_frame s _ L (length_putN s u _) (minN_putN s u _) ?_ hreal
        intro j _
        refine ⟨?_, ?_, ?_, ?_, ?_⟩
        · rw [getN_putN_keep FNode.parent]
          exact fun _ => rfl
        · rw [getN_putN_keep FNode.leftSib]
          exact fun _ => rfl
        · rw [getN_putN_keep FNode.rightSib]
          exact fun _ => rfl
        · rw [getN_putN_keep FNode.children]
          exact fun _ => rfl
        · rw [getN_putN_keep FNode.rank]
          exact fun _ => rfl
      obtain ⟨hrI, hlenI, hbuckI, hstfI, hvlfI, hixfI⟩ :=
        insertNode_realize (putN s u
          (fun nd => { nd with state := 1, val := (getN s v).val + dd })) L u hreal1
          (by rw [length_putN]; exact hulen) hunm
      refine ⟨⟨L.roots ++ [u], L.kids, L.mem ++ [u]⟩, ⟨hrI, ?_, ?_, ?_, ?_⟩, ?_, ?_⟩
      · rw [hlenI, length_putN]
        exact hlen
      · intro i hi
        rw [hixfI i, getN_putN_keep FNode.index]
        · exact hidx i hi
        · exact fun _ => rfl
      · intro i hi
        rw [hstfI i]
        by_cases hiu : i = u
        · subst hiu
          rw [getN_putN_self, if_pos hulen]
          show (1 : ℕ) ≤ 2
          omega
        · rw [getN_putN_ne _ _ _ _ (fun hh => hiu hh.symm)]
          exact hstR i hi
      · intro i hi
        rcases List.mem_append.mp hi with hh | hh
        · exact hreach i hh
        · have hiu : i = u := by simpa using hh
          rw [hiu]
          exact hru
      · intro i hi
        rw [hstfI i]
        by_cases hiu : i = u
        · subst hiu
          rw [getN_putN_self, if_pos hulen]
          simp
        · rw [getN_putN_ne _ _ _ _ (fun hh => hiu hh.symm)]
          rw [hst i hi]
          simp [List.mem_append, hiu]
      · have e1 : zcount (insertNode (putN s u
            (fun nd => { nd with state := 1, val := (getN s v).val + dd })) u) N
            = zcount (putN s u
              (fun nd => { nd with state := 1, val := (getN s v).val + dd })) N :=
          zcount_congr _ _ N (fun i _ => hstfI i)
        have e2 : zcount (putN s u
            (fun nd => { nd with state := 1, val := (getN s v).val + dd })) N + 1
            = zcount s N := zcount_insert_state s u N _ hu hulen h0
        simp only [List.length_append, List.length_cons, List.length_nil]
        omega
    · rw [if_neg h0]
      by_cases hgt : (getN s u).val > (getN s v).val + dd
      · rw [if_pos hgt]
        have hum : u ∈ L.mem := by
          refine (hst u hu).mp ?_
          have hb := hstR u hu
          omega
        obtain ⟨L', hr', hmem', hlen', hbuck', hstf', hixf', hvlf'⟩ :=
          decreaseVal_realize s L u ((getN s v).val + dd) hreal hum
        refine ⟨L', ⟨hr', by rw [hlen']; exact hlen, ?_, ?_, ?_⟩, ?_, ?_⟩
        · intro i hi
          rw [hixf' i]
          exact hidx i hi
        · intro i hi
          rw [hstf' i]
          exact hstR i hi
        · intro i hi
          rw [hmem'] at hi
          exact hreach i hi
        · intro i hi
          rw [hstf' i, hmem']
          exact hst i hi
        · rw [hmem', zcount_congr s _ N (fun i _ => hstf' i)]
      · rw [if_neg hgt]
        exact ⟨L, ⟨hreal, hlen, hidx, hstR, hreach⟩, hst, rfl⟩
  · rw [if_neg h2]
    exact ⟨L, ⟨hreal, hlen, hidx, hstR, hreach⟩, hst, rfl⟩

/-- Folding relaxations over a list of stored-edge positions preserves the
search invariant, the state dictionary and the termination measure. -/
theorem relaxFold_pres (cX cS : CSR) (d : Bool) (src N v : ℕ) :
    ∀ (ks : List ℕ) (s : HState) (L : HLayout),
    SInv cS d src N s L → stIff s N L.mem →
    (∀ k ∈ ks, cX.ind.getD k 0 < N ∧ cStep cS d v (cX.ind.getD k 0)) →
    CReach cS d src v →
    ∃ L', SInv cS d src N
        (ks.foldl (fun s idx => relaxOne s v (cX.ind.getD idx 0) (cX.data.getD idx 0)) s)
        L' ∧
      stIff (ks.foldl (fun s idx =>
        relaxOne s v (cX.ind.getD idx 0) (cX.data.getD idx 0)) s) N L'.mem ∧
      L'.mem.length + zcount (ks.foldl (fun s idx =>
        relaxOne s v (cX.ind.getD idx 0) (cX.data.getD idx 0)) s) N
        = L.mem.length + zcount s N := by
  intro ks
  induction ks with
  | nil =>
    intro s L hs hst hk hrv
    exact ⟨L, hs, hst, rfl⟩
  | cons a t ih =>
    intro s L hs hst hk hrv
    rw [List.foldl_cons]
    obtain ⟨L1, hs1, hst1, hm1⟩ := relaxOne_pres cS d src N s L v (cX.ind.getD a 0)
      (cX.data.getD a 0) hs hst (hk a (by simp)).1
      (Relation.ReflTransGen.tail hrv (hk a (by simp)).2)
    obtain ⟨L2, hs2, hst2, hm2⟩ := ih (relaxOne s v (cX.ind.getD a 0) (cX.data.getD a 0))
      L1 hs1 hst1 (fun k hkt => hk k (by simp [hkt])) hrv
    exact ⟨L2, hs2, hst2, by omega⟩

/-- Relaxing one whole stored row preserves the search invariant, the
state dictionary and the termination measure. -/
theorem relaxRow_pres (cX cS : CSR) (d : Bool) (src N : ℕ) (s : HState) (L : HLayout)
    (v : ℕ) (hv : v < N)
    (hs : SInv cS d src N s L) (hst : stIff s N L.mem)
    (hedge : edgeOK cX cS d N) (hrv : CReach cS d src v) :
    ∃ L', SInv cS d src N (relaxRow cX s v) L' ∧ stIff (relaxRow cX s v) N L'.mem ∧
      L'.mem.length + zcount (relaxRow cX s v) N = L.mem.length + zcount s N := by
  unfold relaxRow
  rw [hs.idx v hv]
  exact relaxFold_pres cX cS d src N v (rowIdxList cX v) s L hs hst
    (fun k hk => hedge v hv k hk) hrv

/-- The search loop shared by the two per-row routines: started inside the
search invariant with fuel at least the termination measure, it drains the
heap completely, preserves the invariant, and only ever writes result
cells whose column is reachable from the source. -/
theorem dijkLoop_master (c cT cS : CSR) (useT : Bool) (d : Bool) (src N : ℕ)
    (hedge : edgeOK c cS d N) (hedgeT : useT = true → edgeOK cT cS d N) :
    ∀ (fuel : ℕ) (s : HState) (L : HLayout) (row : List ℚ),
    SInv cS d src N s L →
    (stIff s N L.mem ∨ startShape s N src L.mem) →
    zeroPres cS d N row →
    L.mem.length + zcount s N ≤ fuel →
    ∃ L', SInv cS d src N (dijkLoop c cT useT src N fuel s row).1 L' ∧
      L'.mem = [] ∧
      zeroPres cS d N (dijkLoop c cT useT src N fuel s row).2 := by
  intro fuel
  induction fuel with
  | zero =>
    intro s L row hs hd hz hfuel
    have hmem : L.mem = [] := List.length_eq_zero.mp (by omega)
    exact ⟨L, hs, hmem, hz⟩
  | succ f ih =>
    intro s L row hs hd hz hfuel
    by_cases hmem : L.mem = []
    · have hmin : s.minN = none := realize_minN_none s L hs.real hmem
      have hrm : removeMin s = none := by
        unfold removeMin
        rw [hmin]
      unfold dijkLoop
      rw [hrm]
      dsimp only
      exact ⟨L, hs, hmem, hz⟩
    · obtain ⟨m, hmin⟩ := realize_minN_some s L hs.real hmem
      have hmroot : m ∈ L.roots := by
        have hmo := hs.real.minOK
        rw [hmin] at hmo
        exact hmo
      have hmm : m ∈ L.mem := hs.real.rootsMem m hmroot
      have hmN : m < N := by
        have hb := hs.real.memLT m hmm
        rw [hs.len] at hb
        exact hb
      have hreachm : CReach cS d src m := hs.reach m hmm
      obtain ⟨s', L', hrm, hr', hmem', hlen', hclean', hstf', hvlf', hixf'⟩ :=
        removeMin_realize s L m hs.real hmin
      unfold dijkLoop
      rw [hrm]
      dsimp only
      have hmlen' : m < s'.nodes.length := by
        rw [hlen', hs.len]
        exact hmN
      have hSInv2 : SInv cS d src N (putN s' m (fun nd => { nd with state := 2 })) L' := by
        refine ⟨?_, ?_, ?_, ?_, ?_⟩
        · refine realize_frame s' _ L' (length_putN s' m _) (minN_putN s' m _) ?_ hr'
          intro j _
          refine ⟨?_, ?_, ?_, ?_, ?_⟩
          · rw [getN_putN_keep FNode.parent]
            exact fun _ => rfl
          · rw [getN_putN_keep FNode.leftSib]
            exact fun _ => rfl
          · rw [getN_putN_keep FNode.rightSib]
            exact fun _ => rfl
          · rw [getN_putN_keep FNode.children]
            exact fun _ => rfl
          · rw [getN_putN_keep FNode.rank]
            exact fun _ => rfl
        · rw [length_putN, hlen']
          exact hs.len
        · intro i hi
          rw [getN_putN_keep FNode.index]
          · rw [hixf' i]
            exact hs.idx i hi
          · exact fun _ => rfl
        · intro i hi
          by_cases him : i = m
          · subst him
            rw [getN_putN_self, if_pos hmlen']
          · rw [getN_putN_ne _ _ _ _ (fun hh => him hh.symm), hstf' i]
            exact hs.stR i hi
        · intro i hi
          rw [hmem'] at hi
          exact hs.reach i (List.mem_of_mem_erase hi)
      have hmnotin' : m ∉ L'.mem := by
        rw [hmem']
        exact List.Nodup.not_mem_erase hs.real.memND
      have hstIff2 : stIff (putN s' m (fun nd => { nd with state := 2 })) N L'.mem := by
        intro i hi
        by_cases him : i = m
        · subst him
          rw [getN_putN_self, if_pos hmlen']
          constructor
          · intro hh
            exact absurd hh (by simp)
          · intro hh
            exact absurd hh hmnotin'
        · rw [getN_putN_ne _ _ _ _ (fun hh => him hh.symm), hstf' i, hmem']
          rcases hd with hdi | ⟨hms, hall0⟩
          · rw [hdi i hi]
            exact (List.mem_erase_of_ne him).symm
          · rw [hall0 i hi]
            constructor
            · intro hh
              exact absurd hh (by simp)
            · intro hh
              have hmsrc : m = src := by
                have hm2 := hmm
                rw [hms] at hm2
                simpa using hm2
              rw [hms, hmsrc, List.erase_cons_head] at hh
              exact absurd hh (List.not_mem_nil i)
      have hmemlen : L'.mem.length + 1 = L.mem.length := by
        rw [hmem', List.length_erase_of_mem hmm]
        have hp := List.length_pos.mpr hmem
        omega
      have hz2le : zcount (putN s' m (fun nd => { nd with state := 2 })) N
          ≤ zcount s N := by
        calc zcount (putN s' m (fun nd => { nd with state := 2 })) N
            ≤ zcount s' N := zcount_scan_le s' m N
          _ = zcount s N := zcount_congr s s' N (fun i _ => hstf' i)
      obtain ⟨L3, hs3, hst3, hm3⟩ := relaxRow_pres c cS d src N
        (putN s' m (fun nd => { nd with state := 2 })) L' m hmN hSInv2 hstIff2 hedge
        hreachm
      cases useT with
      | false =>
        rw [if_neg (by simp)]
        have hidx4 : (getN (relaxRow c
            (putN s' m (fun nd => { nd with state := 2 })) m) m).index = m :=
          hs3.idx m hmN
        rw [hidx4]
        have hz4 : zeroPres cS d N (row.set (src * N + m)
            (getN (relaxRow c (putN s' m (fun nd => { nd with state := 2 })) m) m).val) :=
          zeroPres_set cS d N row src m _ hmN hreachm hz
        exact ih (relaxRow c (putN s' m (fun nd => { nd with state := 2 })) m) L3 _
          hs3 (Or.inl hst3) hz4 (by omega)
      | true =>
        rw [if_pos rfl]
        obtain ⟨L4, hs4, hst4, hm4⟩ := relaxRow_pres cT cS d src N
          (relaxRow c (putN s' m (fun nd => { nd with state := 2 })) m) L3 m hmN
          hs3 hst3 (hedgeT rfl) hreachm
        have hidx4 : (getN (relaxRow cT (relaxRow c
            (putN s' m (fun nd => { nd with state := 2 })) m) m) m).index = m :=
          hs4.idx m hmN
        rw [hidx4]
        have hz4 : zeroPres cS d N (row.set (src * N + m)
            (getN (relaxRow cT (relaxRow c
              (putN s' m (fun nd => { nd with state := 2 })) m) m) m).val) :=
          zeroPres_set cS d N row src m _ hmN hreachm hz
        exact ih (relaxRow cT (relaxRow c
            (putN s' m (fun nd => { nd with state := 2 })) m) m) L4 _
          hs4 (Or.inl hst4) hz4 (by omega)

/-- The re-initialization loop of _dijkstra_directed_one_row (and of
_dijkstra): every visited slot holds a freshly initialized node, every
other slot is untouched, and the arena length, min_node and bucket table
are unchanged. -/
theorem foldl_initNode_spec :
    ∀ (l : List ℕ) (s : HState), l.Nodup →
    ((l.foldl (fun s i => initNode s i 0) s).nodes.length = s.nodes.length) ∧
    ((l.foldl (fun s i => initNode s i 0) s).minN = s.minN) ∧
    ((l.foldl (fun s i => initNode s i 0) s).buckets = s.buckets) ∧
    (∀ j, j ∈ l → j < s.nodes.length →
      getN (l.foldl (fun s i => initNode s i 0) s) j =
        { index := j, rank := 0, state := 0, val := 0,
          parent := none, leftSib := none, rightSib := none, children := none }) ∧
    (∀ j, j ∉ l → getN (l.foldl (fun s i => initNode s i 0) s) j = getN s j) := by
  intro l
  induction l with
  | nil =>
    exact fun s _ => ⟨rfl, rfl, rfl,
      fun j hj _ => absurd hj (List.not_mem_nil j), fun j _ => rfl⟩
  | cons a t ih =>
    intro s hnd
    have hat : a ∉ t := (List.nodup_cons.mp hnd).1
    rw [List.foldl_cons]
    obtain ⟨ihlen, ihmin, ihbuck, ihmem, ihout⟩ := ih (initNode s a 0) (List.nodup_cons.mp hnd).2
    have hinitlen : (initNode s a 0).nodes.length = s.nodes.length := length_putN s a _
    refine ⟨?_, ?_, ?_, ?_, ?_⟩
    · rw [ihlen]
      exact hinitlen
    · rw [ihmin]
      exact minN_putN s a _
    · rw [ihbuck]
      exact buckets_putN s a _
    · intro j hj hjlen
      rcases List.mem_cons.mp hj with hja | hjt
      · rw [ihout j (hja ▸ hat), hja]
        show getN (putN s a _) a = _
        rw [getN_putN_self, if_pos (hja ▸ hjlen)]
      · refine ihmem j hjt ?_
        rw [hinitlen]
        exact hjlen
    · intro j hj
      have hjt : j ∉ t := fun hh => hj (by simp [hh])
      have hja : j ≠ a := fun hh => hj (by simp [hh])
      rw [ihout j hjt]
      show getN (putN s a _) j = getN s j
      rw [getN_putN_ne _ _ _ _ (fun hh => hja hh.symm)]

/-- The abbreviated per-call reset loop of _dijkstra_one_row: every visited
slot has only its state and value overwritten, every other slot and the
arena length, min_node and bucket table are untouched. -/
theorem foldl_reset_spec :
    ∀ (l : List ℕ) (s : HState), l.Nodup →
    ((l.foldl (fun s i => putN s i
      (fun nd => { nd with state := 0, val := 0 })) s).nodes.length = s.nodes.length) ∧
    ((l.foldl (fun s i => putN s i
      (fun nd => { nd with state := 0, val := 0 })) s).minN = s.minN) ∧
    ((l.foldl (fun s i => putN s i
      (fun nd => { nd with state := 0, val := 0 })) s).buckets = s.buckets) ∧
    (∀ j, j ∈ l → j < s.nodes.length →
      getN (l.foldl (fun s i => putN s i
        (fun nd => { nd with state := 0, val := 0 })) s) j
        = { getN s j with state := 0, val := 0 }) ∧
    (∀ j, j ∉ l → getN (l.foldl (fun s i => putN s i
      (fun nd => { nd with state := 0, val := 0 })) s) j = getN s j) := by
  intro l
  induction l with
  | nil =>
    exact fun s _ => ⟨rfl, rfl, rfl,
      fun j hj _ => absurd hj (List.not_mem_nil j), fun j _ => rfl⟩
  | cons a t ih =>
    intro s hnd
    have hat : a ∉ t := (List.nodup_cons.mp hnd).1
    rw [List.foldl_cons]
    obtain ⟨ihlen, ihmin, ihbuck, ihmem, ihout⟩ :=
      ih (putN s a (fun nd => { nd with state := 0, val := 0 })) (List.nodup_cons.mp hnd).2
    refine ⟨?_, ?_, ?_, ?_, ?_⟩
    · rw [ihlen]
      exact length_putN s a _
    · rw [ihmin]
      exact minN_putN s a _
    · rw [ihbuck]
      exact buckets_putN s a _
    · intro j hj hjlen
      rcases List.mem_cons.mp hj with hja | hjt
      · rw [ihout j (hja ▸ hat), hja, getN_putN_self, if_pos (hja ▸ hjlen)]
      · rw [ihmem j hjt (by rw [length_putN]; exact hjlen),
          getN_putN_ne _ _ _ _ (fun hh => (fun hh2 => (hh2 ▸ hat) hjt : j ≠ a) hh.symm)]
    · intro j hj
      have hjt : j ∉ t := fun hh => hj (by simp [hh])
      have hja : j ≠ a := fun hh => hj (by simp [hh])
      rw [ihout j hjt, getN_putN_ne _ _ _ _ (fun hh => hja hh.symm)]

/-- Field-wise equality of heap states. -/
theorem hstate_ext (a b : HState) (h1 : a.nodes = b.nodes) (h2 : a.minN = b.minN)
    (h3 : a.buckets = b.buckets) : a = b := by
  cases a
  cases b
  dsimp only at h1 h2 h3
  rw [h1, h2, h3]

/-- The arena configuration every per-source search leaves behind and the
undirected rows rely on: correct length, empty heap, identity index map
and clean link fields everywhere. -/
structure AReady (N : ℕ) (s : HState) : Prop where
  len : s.nodes.length = N
  min : s.minN = none
  idx : ∀ i, i < N → (getN s i).index = i
  clean : ∀ i, i < N → cleanNode (getN s i)

/-- Inserting the source into a fresh empty arena establishes the search
loop entry invariant. -/
theorem searchEntry (cS : CSR) (d : Bool) (src N : ℕ) (s : HState)
    (hlen : s.nodes.length = N) (hmin : s.minN = none) (hsrc : src < N)
    (hidx : ∀ i, i < N → (getN s i).index = i)
    (hclean : ∀ i, i < N → cleanNode (getN s i))
    (hst0 : ∀ i, i < N → (getN s i).state = 0) :
    SInv cS d src N (insertNode s src) ⟨[src], fun _ => [], [src]⟩ ∧
    startShape (insertNode s src) N src [src] ∧
    ([src] : List ℕ).length + zcount (insertNode s src) N ≤ N + 1 := by
  have hreal0 : Realize s ⟨[], fun _ => [], []⟩ := by
    refine ⟨List.nodup_nil, fun p => List.nodup_nil, List.nodup_nil,
      fun i hi => absurd hi (List.not_mem_nil i),
      fun i hi => absurd hi (List.not_mem_nil i),
      fun p c hc => absurd hc (List.not_mem_nil c),
      fun p hp => rfl,
      fun i hi => absurd hi (List.not_mem_nil i),
      fun p c hc => absurd hc (List.not_mem_nil c),
      fun i hi => absurd hi (List.not_mem_nil i),
      trivial,
      fun p hp => trivial,
      fun p hp => absurd hp (List.not_mem_nil p),
      fun p hp => absurd hp (List.not_mem_nil p),
      fun i hi => absurd hi (List.not_mem_nil i),
      by rw [hmin],
      ?_⟩
    intro i hilt _
    refine hclean i ?_
    rw [← hlen]
    exact hilt
  obtain ⟨hrI, hlenI, hbuckI, hstfI, hvlfI, hixfI⟩ :=
    insertNode_realize s ⟨[], fun _ => [], []⟩ src hreal0 (by rw [hlen]; exact hsrc)
      (List.not_mem_nil src)
  have hstI : ∀ i, i < N → (getN (insertNode s src) i).state = 0 := by
    intro i hi
    rw [hstfI i]
    exact hst0 i hi
  refine ⟨⟨hrI, ?_, ?_, ?_, ?_⟩, ⟨rfl, hstI⟩, ?_⟩
  · rw [hlenI]
    exact hlen
  · intro i hi
    rw [hixfI i]
    exact hidx i hi
  · intro i hi
    rw [hstI i hi]
    omega
  · intro i hi
    have hisrc : i = src := by simpa using hi
    rw [hisrc]
    exact Relation.ReflTransGen.refl
  · have hze : zcount (insertNode s src) N = zcount s N :=
      zcount_congr s _ N (fun i _ => hstfI i)
    have hzl := zcount_le s N
    simp only [List.length_cons, List.length_nil]
    omega

/-- getD of a map over an index range. -/
theorem getD_map_range {α : Type} (f : ℕ → α) (d : α) (n i : ℕ) (hi : i < n) :
    ((List.range n).map f).getD i d = f i := by
  rw [List.getD_eq_getElem?_getD, List.getElem?_map, List.getElem?_range hi]
  rfl

/-- getD through a first-projection map. -/
theorem getD_map_prod_fst (ls : List (ℕ × ℚ)) (k : ℕ) (hk : k < ls.length) :
    (ls.map Prod.fst).getD k 0 = (ls.getD k (0, 0)).1 := by
  rw [List.getD_eq_getElem?_getD, List.getElem?_map, List.getElem?_eq_getElem hk,
    List.getD_eq_getElem?_getD, List.getElem?_eq_getElem hk]
  rfl

/-- getD through a second-projection map. -/
theorem getD_map_prod_snd (ls : List (ℕ × ℚ)) (k : ℕ) (hk : k < ls.length) :
    (ls.map Prod.snd).getD k 0 = (ls.getD k (0, 0)).2 := by
  rw [List.getD_eq_getElem?_getD, List.getElem?_map, List.getElem?_eq_getElem hk,
    List.getD_eq_getElem?_getD, List.getElem?_eq_getElem hk]
  rfl

/-- Indexing a flattened list of blocks inside block i. -/
theorem flatten_getD (d : ℕ × ℚ) :
    ∀ (ls : List (List (ℕ × ℚ))) (i o : ℕ), i < ls.length → o < (ls.getD i []).length →
    ls.flatten.getD (((ls.take i).map List.length).sum + o) d
      = (ls.getD i []).getD o d := by
  intro ls
  induction ls with
  | nil =>
    intro i o hi ho
    exact absurd hi (by simp)
  | cons a t ih =>
    intro i o hi ho
    cases i with
    | zero =>
      simp only [List.take_zero, List.map_nil, List.sum_nil, Nat.zero_add]
      rw [List.flatten_cons, List.getD_append a t.flatten d o ho]
      rfl
    | succ i2 =>
      have hpos : (((a :: t).take (i2+1)).map List.length).sum
          = a.length + ((t.take i2).map List.length).sum := by
        simp [List.take_succ_cons]
      rw [List.flatten_cons, hpos,
        List.getD_append_right a t.flatten d _ (by omega)]
      have hsub : a.length + ((t.take i2).map List.length).sum + o - a.length
          = ((t.take i2).map List.length).sum + o := by omega
      rw [hsub]
      exact ih i2 o (by simpa using hi) (by simpa using ho)

/-- Membership in a foldr of appended blocks. -/
theorem mem_foldr_append {α : Type} (f : ℕ → List α) :
    ∀ (l : List ℕ) (x : α),
    x ∈ l.foldr (fun i acc => f i ++ acc) [] ↔ ∃ i ∈ l, x ∈ f i := by
  intro l
  induction l with
  | nil =>
    intro x
    simp
  | cons a t ih =>
    intro x
    simp only [List.foldr_cons, List.mem_append, ih]
    constructor
    · rintro (h1 | ⟨i, hi, hx⟩)
      · exact ⟨a, by simp, h1⟩
      · exact ⟨i, by simp [hi], hx⟩
    · rintro ⟨i, hi, hx⟩
      rcases List.mem_cons.mp hi with h1 | h2
      · exact Or.inl (h1 ▸ hx)
      · exact Or.inr ⟨i, h2, hx⟩

/-- The row-pointer entries of an assembled CSR matrix are the partial sums
of the row lengths. -/
theorem buildCSR_ptr (N : ℕ) (rows : List (List (ℕ × ℚ))) (i : ℕ) (hi : i ≤ N) :
    (buildCSR N rows).ptr.getD i 0 = ((rows.take i).map List.length).sum :=
  getD_map_range _ 0 (N+1) i (by omega)

/-- An assembled CSR matrix with in-range column indices is well formed. -/
theorem buildCSR_wf (N : ℕ) (rows : List (List (ℕ × ℚ))) (hrl : rows.length = N)
    (hcol : ∀ r ∈ rows, ∀ p ∈ r, p.1 < N) : CSRWF (buildCSR N rows) := by
  refine ⟨?_, ?_, ?_, ?_, ?_, ?_⟩
  · show ((List.range (N+1)).map _).length = N + 1
    simp
  · rw [buildCSR_ptr N rows 0 (by omega)]
    simp
  · intro i hi
    have hiN : i < N := hi
    rw [buildCSR_ptr N rows i (by omega), buildCSR_ptr N rows (i+1) (by omega),
      List.map_take, List.map_take,
      List.sum_take_succ (rows.map List.length) i (by rw [List.length_map]; omega)]
    omega
  · show (buildCSR N rows).ptr.getD N 0 = (buildCSR N rows).ind.length
    rw [buildCSR_ptr N rows N (le_refl N)]
    show ((rows.take N).map List.length).sum = (rows.flatten.map Prod.fst).length
    rw [← hrl, List.take_length rows, List.length_map, List.length_flatten rows]
  · show (rows.flatten.map Prod.snd).length = (rows.flatten.map Prod.fst).length
    rw [List.length_map, List.length_map]
  · intro k hk
    have hk2 : k < rows.flatten.length := by
      have hk3 : k < (rows.flatten.map Prod.fst).length := hk
      rw [List.length_map] at hk3
      exact hk3
    show (rows.flatten.map Prod.fst).getD k 0 < N
    rw [getD_map_prod_fst rows.flatten k hk2]
    have hmem : rows.flatten.getD k (0, 0) ∈ rows.flatten := by
      rw [List.getD_eq_getElem?_getD, List.getElem?_eq_getElem hk2]
      exact List.getElem_mem hk2
    obtain ⟨r, hr, hpr⟩ := List.mem_flatten.mp hmem
    exact hcol r hr _ hpr

/-- Every stored position of row i of an assembled CSR matrix carries one
of the entries of the i-th input row. -/
theorem buildCSR_entries (N : ℕ) (rows : List (List (ℕ × ℚ))) (hrl : rows.length = N)
    (i : ℕ) (hi : i < N) :
    ∀ k ∈ rowIdxList (buildCSR N rows) i,
      ∃ p ∈ rows.getD i [],
        (buildCSR N rows).ind.getD k 0 = p.1 ∧
        (buildCSR N rows).data.getD k 0 = p.2 := by
  intro k hk
  unfold rowIdxList at hk
  rw [List.mem_range'_1] at hk
  obtain ⟨h1, h2⟩ := hk
  rw [buildCSR_ptr N rows i (by omega)] at h1
  rw [buildCSR_ptr N rows i (by omega), buildCSR_ptr N rows (i+1) (by omega)] at h2
  have hstep : ((rows.take (i+1)).map List.length).sum
      = ((rows.take i).map List.length).sum + (rows.getD i []).length := by
    rw [List.map_take, List.map_take,
      List.sum_take_succ (rows.map List.length) i (by rw [List.length_map]; omega)]
    congr 1
    rw [List.getElem_map,
      List.getD_eq_getElem?_getD, List.getElem?_eq_getElem (by omega : i < rows.length)]
    rfl
  have ho : k - ((rows.take i).map List.length).sum < (rows.getD i []).length := by
    omega
  have hflat := flatten_getD (0, 0) rows i
    (k - ((rows.take i).map List.length).sum) (by omega) ho
  have hkpos : ((rows.take i).map List.length).sum
      + (k - ((rows.take i).map List.length).sum) = k := by
    omega
  rw [hkpos] at hflat
  have hkflat : k < rows.flatten.length := by
    rw [List.length_flatten rows]
    have hmono : ((rows.take (i+1)).map List.length).sum
        ≤ (rows.map List.length).sum := by
      conv_rhs => rw [← List.take_append_drop (i+1) rows]
      rw [List.map_append, List.sum_append]
      omega
    omega
  refine ⟨(rows.getD i []).getD (k - ((rows.take i).map List.length).sum) (0, 0),
    ?_, ?_, ?_⟩
  · have hmm2 : ∀ (l : List (ℕ × ℚ)) (o : ℕ), o < l.length → l.getD o (0, 0) ∈ l := by
      intro l o holt
      rw [List.getD_eq_getElem?_getD, List.getElem?_eq_getElem holt]
      exact List.getElem_mem holt
    exact hmm2 _ _ ho
  · show (rows.flatten.map Prod.fst).getD k 0 = _
    rw [getD_map_prod_fst rows.flatten k hkflat, hflat]
  · show (rows.flatten.map Prod.snd).getD k 0 = _
    rw [getD_map_prod_snd rows.flatten k hkflat, hflat]

/-- A row index at or past the matrix dimension stores nothing. -/
theorem rowIdxList_out (c : CSR) (hplen : c.ptr.length = c.n + 1) (a : ℕ)
    (ha : c.n ≤ a) : rowIdxList c a = [] := by
  unfold rowIdxList
  have h1 : c.ptr.getD (a+1) 0 = 0 := by
    apply List.getD_eq_default
    omega
  rw [h1]
  simp

/-- The row pointers of a well-formed CSR matrix are monotone. -/
theorem csr_ptr_mono (c : CSR) (hwf : CSRWF c) :
    ∀ j i, i ≤ j → j ≤ c.n → c.ptr.getD i 0 ≤ c.ptr.getD j 0 := by
  intro j
  induction j with
  | zero =>
    intro i hij hj
    have hi0 : i = 0 := by omega
    rw [hi0]
  | succ k ihk =>
    intro i hij hj
    by_cases hik : i = k + 1
    · rw [hik]
    · exact le_trans (ihk i (by omega) (by omega)) (hwf.2.2.1 k (by omega))

/-- Every stored position of a row of a well-formed CSR matrix indexes the
column array in bounds. -/
theorem csr_edge_bound (c : CSR) (hwf : CSRWF c) (v : ℕ) (hv : v < c.n) :
    ∀ k ∈ rowIdxList c v, k < c.ind.length := by
  intro k hk
  unfold rowIdxList at hk
  rw [List.mem_range'_1] at hk
  obtain ⟨h1, h2⟩ := hk
  have hm1 : c.ptr.getD v 0 ≤ c.ptr.getD (v+1) 0 := hwf.2.2.1 v hv
  have hm2 : c.ptr.getD (v+1) 0 ≤ c.ptr.getD c.n 0 :=
    csr_ptr_mono c hwf c.n (v+1) (by omega) (le_refl _)
  have hm3 : c.ptr.getD c.n 0 = c.ind.length := hwf.2.2.2.1
  omega

/-- Every stored edge of a well-formed CSR matrix is a legitimate
traversal step of the search on the same matrix, in either mode. -/
theorem edgeOK_self (c : CSR) (d : Bool) (hwf : CSRWF c) : edgeOK c c d c.n := by
  intro v hv k hk
  exact ⟨hwf.2.2.2.2.2 k (csr_edge_bound c hwf v hv k hk), Or.inl ⟨k, hk, rfl⟩⟩

/-- Every entry the dense-to-CSR conversion stores in row i records an
in-range column and the corresponding nonzero matrix value. -/
theorem denseToCSR_entry_mem (N : ℕ) (m : List ℚ) (i : ℕ) (p : ℕ × ℚ)
    (hp : p ∈ (List.range N).filterMap (fun j =>
      let v := m.getD (i * N + j) 0
      if v = 0 then none else some (j, v))) :
    p.1 < N ∧ p.2 = m.getD (i * N + p.1) 0 ∧ m.getD (i * N + p.1) 0 ≠ 0 := by
  rw [List.mem_filterMap] at hp
  obtain ⟨j, hj, hpj⟩ := hp
  rw [List.mem_range] at hj
  dsimp only at hpj
  by_cases hz : m.getD (i * N + j) 0 = 0
  · rw [if_pos hz] at hpj
    exact Option.noConfusion hpj
  · rw [if_neg hz] at hpj
    have hpe : p = (j, m.getD (i * N + j) 0) := (Option.some.inj hpj).symm
    rw [hpe]
    exact ⟨hj, rfl, hz⟩

/-- The dense-to-CSR conversion always yields a well-formed matrix. -/
theorem denseToCSR_wf (N : ℕ) (m : List ℚ) : CSRWF (denseToCSR N m) := by
  unfold denseToCSR
  refine buildCSR_wf N _ (by simp) ?_
  intro r hr p hp
  rw [List.mem_map] at hr
  obtain ⟨i, hi, hri⟩ := hr
  rw [← hri] at hp
  exact (denseToCSR_entry_mem N m i p hp).1

/-- Every stored edge of the dense-to-CSR conversion is a nonzero entry of
the dense matrix with an in-range column. -/
theorem denseToCSR_edge (N : ℕ) (m : List ℚ) (a b : ℕ)
    (h : cEdge (denseToCSR N m) a b) : dEdge m N a b ∧ b < N := by
  obtain ⟨idx, hidx, hb⟩ := h
  by_cases ha : a < N
  · unfold denseToCSR at hidx hb
    obtain ⟨p, hpmem, hindeq, _⟩ := buildCSR_entries N _ (by simp) a ha idx hidx
    rw [getD_map_range _ [] N a ha] at hpmem
    obtain ⟨hp1, hp2, hp3⟩ := denseToCSR_entry_mem N m a p hpmem
    rw [hindeq] at hb
    rw [← hb]
    exact ⟨hp3, hp1⟩
  · have hwf := denseToCSR_wf N m
    have hempty : rowIdxList (denseToCSR N m) a = [] :=
      rowIdxList_out (denseToCSR N m) hwf.1 a (by
        show N ≤ a
        omega)
    rw [hempty] at hidx
    exact absurd hidx (List.not_mem_nil idx)

/-- Sparse reachability on the converted matrix implies dense reachability
on the original matrix, in the same mode. -/
theorem creach_dreach (N : ℕ) (m : List ℚ) (d : Bool) (a b : ℕ)
    (h : CReach (denseToCSR N m) d a b) : DReach m N d a b := by
  refine Relation.ReflTransGen.mono ?_ h
  intro x y hxy
  rcases hxy with he | ⟨hd, he⟩
  · exact Or.inl (denseToCSR_edge N m x y he).1
  · exact Or.inr ⟨hd, (denseToCSR_edge N m y x he).1⟩

/-- Every stored value of the dense-to-CSR conversion is a value of the
dense matrix, so a non-negative matrix converts to non-negative data. -/
theorem denseToCSR_data_nonneg (N : ℕ) (m : List ℚ) (hnn : ∀ x ∈ m, 0 ≤ x) :
    ∀ x ∈ (denseToCSR N m).data, 0 ≤ x := by
  intro x hx
  unfold denseToCSR buildCSR at hx
  dsimp only at hx
  rw [List.mem_map] at hx
  obtain ⟨p, hp, hpx⟩ := hx
  rw [List.mem_flatten] at hp
  obtain ⟨r, hr, hpr⟩ := hp
  rw [List.mem_map] at hr
  obtain ⟨i, _, hri⟩ := hr
  rw [← hri] at hpr
  obtain ⟨_, h2, _⟩ := denseToCSR_entry_mem N m i p hpr
  rw [← hpx, h2]
  by_cases hlt : i * N + p.1 < m.length
  · refine hnn _ ?_
    rw [List.getD_eq_getElem?_getD, List.getElem?_eq_getElem hlt]
    exact List.getElem_mem hlt
  · rw [List.getD_eq_default]
    omega

/-- The negative-weight gate of dijkstra passes on non-negative data. -/
theorem dijkstraModel_ok (c : CSR) (d : Bool) (hnn : ∀ x ∈ c.data, 0 ≤ x) :
    dijkstraModel c d = Except.ok (dijkstraCore c d) := by
  unfold dijkstraModel
  have hfalse : ¬ (c.data.any (fun x => decide (x < 0)) = true) := by
    intro hany
    rw [List.any_eq_true] at hany
    obtain ⟨x, hx, hxlt⟩ := hany
    exact absurd (hnn x hx) (not_le.mpr (of_decide_eq_true hxlt))
  rw [if_neg hfalse]

/-- Each entry of a row of the transposed view names an in-range source
row holding a stored edge into the transposed row's vertex. -/
theorem transpose_entry (c : CSR) (j : ℕ) (p : ℕ × ℚ)
    (hp : p ∈ (List.range c.n).foldr (fun i acc =>
      ((rowIdxList c i).filterMap (fun idx =>
        if c.ind.getD idx 0 = j then some (i, c.data.getD idx 0) else none)) ++ acc) []) :
    p.1 < c.n ∧ cEdge c p.1 j := by
  rw [mem_foldr_append] at hp
  obtain ⟨i, hi, hpf⟩ := hp
  rw [List.mem_range] at hi
  rw [List.mem_filterMap] at hpf
  obtain ⟨idx, hidx, hpeq⟩ := hpf
  by_cases hj : c.ind.getD idx 0 = j
  · rw [if_pos hj] at hpeq
    have hpe : p = (i, c.data.getD idx 0) := (Option.some.inj hpeq).symm
    rw [hpe]
    exact ⟨hi, ⟨idx, hidx, hj⟩⟩
  · rw [if_neg hj] at hpeq
    exact Option.noConfusion hpeq

/-- The transposed view is well formed. -/
theorem transposeCSR_wf (c : CSR) : CSRWF (transposeCSR c) := by
  unfold transposeCSR
  refine buildCSR_wf c.n _ (by simp) ?_
  intro r hr p hp
  rw [List.mem_map] at hr
  obtain ⟨j, _, hrj⟩ := hr
  rw [← hrj] at hp
  exact (transpose_entry c j p hp).1

/-- Every stored edge of the transposed view is a legitimate traversal
step of the undirected search on the original matrix. -/
theorem edgeOK_transpose (c : CSR) : edgeOK (transposeCSR c) c false c.n := by
  intro v hv k hk
  unfold transposeCSR at hk ⊢
  obtain ⟨p, hpmem, hindeq, _⟩ := buildCSR_entries c.n _ (by simp) v hv k hk
  rw [getD_map_range _ [] c.n v hv] at hpmem
  obtain ⟨hpn, hedge⟩ := transpose_entry c v p hpmem
  rw [hindeq]
  exact ⟨hpn, Or.inr ⟨rfl, hedge⟩⟩

/-- One directed row: starting from any arena of the right length, the
routine re-initializes, searches, drains the heap and leaves a clean
ready arena; cells of unreached columns stay zero. -/
theorem dirOneRow_master (c : CSR) (src N : ℕ) (s : HState) (row : List ℚ)
    (hlen : s.nodes.length = N) (hsrc : src < N)
    (hedge : edgeOK c c true N) (hz : zeroPres c true N row) :
    AReady N (dirOneRow c src N s row).1 ∧
    zeroPres c true N (dirOneRow c src N s row).2 := by
  unfold dirOneRow
  dsimp only
  obtain ⟨hflen, hfmin, hfbuck, hfmem, hfout⟩ :=
    foldl_initNode_spec (List.range N) s (List.nodup_range N)
  have hlen2 : ({ (List.range N).foldl (fun s i => initNode s i 0) s with minN := none }
      : HState).nodes.length = N := hflen.trans hlen
  have hidx2 : ∀ i, i < N →
      (getN ({ (List.range N).foldl (fun s i => initNode s i 0) s with minN := none }
        : HState) i).index = i := by
    intro i hi
    show (getN ((List.range N).foldl (fun s i => initNode s i 0) s) i).index = i
    rw [hfmem i (List.mem_range.mpr hi) (by rw [hlen]; exact hi)]
  have hclean2 : ∀ i, i < N →
      cleanNode (getN ({ (List.range N).foldl (fun s i => initNode s i 0) s with
        minN := none } : HState) i) := by
    intro i hi
    show cleanNode (getN ((List.range N).foldl (fun s i => initNode s i 0) s) i)
    rw [hfmem i (List.mem_range.mpr hi) (by rw [hlen]; exact hi)]
    exact ⟨rfl, rfl, rfl, rfl, rfl⟩
  have hst02 : ∀ i, i < N →
      (getN ({ (List.range N).foldl (fun s i => initNode s i 0) s with minN := none }
        : HState) i).state = 0 := by
    intro i hi
    show (getN ((List.range N).foldl (fun s i => initNode s i 0) s) i).state = 0
    rw [hfmem i (List.mem_range.mpr hi) (by rw [hlen]; exact hi)]
  obtain ⟨hSInv, hstart, hmeas⟩ := searchEntry c true src N
    ({ (List.range N).foldl (fun s i => initNode s i 0) s with minN := none } : HState)
    hlen2 rfl hsrc hidx2 hclean2 hst02
  obtain ⟨L', hSf, hmemf, hzf⟩ := dijkLoop_master c c c false true src N hedge
    (fun h => Bool.noConfusion h) (N+1)
    (insertNode ({ (List.range N).foldl (fun s i => initNode s i 0) s with
      minN := none } : HState) src)
    ⟨[src], fun _ => [], [src]⟩ row hSInv (Or.inr hstart) hz hmeas
  refine ⟨⟨hSf.len, realize_minN_none _ L' hSf.real hmemf, hSf.idx, ?_⟩, hzf⟩
  intro i hi
  refine hSf.real.cleanOut i (by rw [hSf.len]; exact hi) ?_
  rw [hmemf]
  exact List.not_mem_nil i

/-- One undirected row: from a ready arena the abbreviated reset plus
search drains the heap and leaves a ready arena again; cells of unreached
columns stay zero. -/
theorem undirOneRow_master (c cT : CSR) (src N : ℕ) (s : HState) (row : List ℚ)
    (hrdy : AReady N s) (hsrc : src < N)
    (hedge : edgeOK c c false N) (hedgeT : edgeOK cT c false N)
    (hz : zeroPres c false N row) :
    AReady N (undirOneRow c cT src N s row).1 ∧
    zeroPres c false N (undirOneRow c cT src N s row).2 := by
  unfold undirOneRow
  dsimp only
  obtain ⟨hflen, hfmin, hfbuck, hfmem, hfout⟩ :=
    foldl_reset_spec (List.range N) s (List.nodup_range N)
  have hlen2 : ((List.range N).foldl (fun s i => putN s i
      (fun nd => { nd with state := 0, val := 0 })) s).nodes.length = N :=
    hflen.trans hrdy.len
  have hmin2 : ((List.range N).foldl (fun s i => putN s i
      (fun nd => { nd with state := 0, val := 0 })) s).minN = none :=
    hfmin.trans hrdy.min
  have hidx2 : ∀ i, i < N →
      (getN ((List.range N).foldl (fun s i => putN s i
        (fun nd => { nd with state := 0, val := 0 })) s) i).index = i := by
    intro i hi
    rw [hfmem i (List.mem_range.mpr hi) (by rw [hrdy.len]; exact hi)]
    exact hrdy.idx i hi
  have hclean2 : ∀ i, i < N →
      cleanNode (getN ((List.range N).foldl (fun s i => putN s i
        (fun nd => { nd with state := 0, val := 0 })) s) i) := by
    intro i hi
    rw [hfmem i (List.mem_range.mpr hi) (by rw [hrdy.len]; exact hi)]
    obtain ⟨c1, c2, c3, c4, c5⟩ := hrdy.clean i hi
    exact ⟨c1, c2, c3, c4, c5⟩
  have hst02 : ∀ i, i < N →
      (getN ((List.range N).foldl (fun s i => putN s i
        (fun nd => { nd with state := 0, val := 0 })) s) i).state = 0 := by
    intro i hi
    rw [hfmem i (List.mem_range.mpr hi) (by rw [hrdy.len]; exact hi)]
  obtain ⟨hSInv, hstart, hmeas⟩ := searchEntry c false src N
    ((List.range N).foldl (fun s i => putN s i
      (fun nd => { nd with state := 0, val := 0 })) s)
    hlen2 hmin2 hsrc hidx2 hclean2 hst02
  obtain ⟨L', hSf, hmemf, hzf⟩ := dijkLoop_master c cT c true false src N hedge
    (fun _ => hedgeT) (N+1)
    (insertNode ((List.range N).foldl (fun s i => putN s i
      (fun nd => { nd with state := 0, val := 0 })) s) src)
    ⟨[src], fun _ => [], [src]⟩ row hSInv (Or.inr hstart) hz hmeas
  refine ⟨⟨hSf.len, realize_minN_none _ L' hSf.real hmemf, hSf.idx, ?_⟩, hzf⟩
  intro i hi
  refine hSf.real.cleanOut i (by rw [hSf.len]; exact hi) ?_
  rw [hmemf]
  exact List.not_mem_nil i

/-- All directed rows in sequence keep unreached cells of the shared flat
result matrix at zero. -/
theorem dirRows_fold (c : CSR) (N : ℕ) (hedge : edgeOK c c true N) :
    ∀ (l : List ℕ) (s : HState) (row : List ℚ),
    s.nodes.length = N → (∀ x ∈ l, x < N) → zeroPres c true N row →
    zeroPres c true N
      ((l.foldl (fun (p : HState × List ℚ) i => dirOneRow c i N p.1 p.2) (s, row)).2) := by
  intro l
  induction l with
  | nil =>
    intro s row _ _ hz
    exact hz
  | cons a t ih =>
    intro s row hlen hl hz
    rw [List.foldl_cons]
    obtain ⟨hrdy1, hz1⟩ := dirOneRow_master c a N s row hlen (hl a (by simp)) hedge hz
    exact ih (dirOneRow c a N s row).1 (dirOneRow c a N s row).2 hrdy1.len
      (fun x hx => hl x (by simp [hx])) hz1

/-- All undirected rows in sequence keep unreached cells of the shared
flat result matrix at zero, threading the ready-arena invariant. -/
theorem undirRows_fold (c cT : CSR) (N : ℕ) (hedge : edgeOK c c false N)
    (hedgeT : edgeOK cT c false N) :
    ∀ (l : List ℕ) (s : HState) (row : List ℚ),
    AReady N s → (∀ x ∈ l, x < N) → zeroPres c false N row →
    zeroPres c false N
      ((l.foldl (fun (p : HState × List ℚ) i => undirOneRow c cT i N p.1 p.2) (s, row)).2) := by
  intro l
  induction l with
  | nil =>
    intro s row _ _ hz
    exact hz
  | cons a t ih =>
    intro s row hrdy hl hz
    rw [List.foldl_cons]
    obtain ⟨hrdy1, hz1⟩ := undirOneRow_master c cT a N s row hrdy (hl a (by simp))
      hedge hedgeT hz
    exact ih (undirOneRow c cT a N s row).1 (undirOneRow c cT a N s row).2 hrdy1
      (fun x hx => hl x (by simp [hx])) hz1

/-- The full all-sources sparse search never writes a cell whose column is
unreachable from its row, in either mode. -/
theorem dijkstraCore_zeroPres (c : CSR) (d : Bool) (hwf : CSRWF c) :
    zeroPres c d c.n (dijkstraCore c d) := by
  unfold dijkstraCore
  dsimp only
  obtain ⟨hflen, hfmin, hfbuck, hfmem, hfout⟩ :=
    foldl_initNode_spec (List.range c.n)
      ({ nodes := List.replicate c.n default, minN := none, buckets := fun _ => none } : HState)
      (List.nodup_range c.n)
  have hlen0 : ((List.range c.n).foldl (fun s i => initNode s i 0)
      ({ nodes := List.replicate c.n default, minN := none, buckets := fun _ => none } : HState)).nodes.length = c.n := by
    rw [hflen]
    exact List.length_replicate c.n default
  have hz0 : zeroPres c d c.n (List.replicate (c.n * c.n) (0 : ℚ)) := by
    intro i j _ _ _
    by_cases hlt : i * c.n + j < c.n * c.n
    · rw [List.getD_eq_getElem?_getD,
        List.getElem?_eq_getElem (by rw [List.length_replicate]; exact hlt)]
      simp
    · rw [List.getD_eq_default]
      rw [List.length_replicate]
      omega
  cases d with
  | true =>
    rw [if_pos rfl]
    exact dirRows_fold c c.n (edgeOK_self c true hwf) (List.range c.n) _ _
      hlen0 (fun x hx => List.mem_range.mp hx) hz0
  | false =>
    rw [if_neg (by simp)]
    refine undirRows_fold c (transposeCSR c) c.n (edgeOK_self c false hwf)
      (edgeOK_transpose c) (List.range c.n) _ _ ?_ (fun x hx => List.mem_range.mp hx) hz0
    refine ⟨hlen0, ?_, ?_, ?_⟩
    · exact hfmin
    · intro i hi
      rw [hfmem i (List.mem_range.mpr hi)
        (by rw [List.length_replicate]; exact hi)]
    · intro i hi
      rw [hfmem i (List.mem_range.mpr hi)
        (by rw [List.length_replicate]; exact hi)]
      exact ⟨rfl, rfl, rfl, rfl, rfl⟩

/-- C8: for every valid non-negative square input and every pair (i, j)
with j unreachable from i in the run mode, the result entry at (i, j) is
zero under both algorithms: the dense all-pairs relaxation leaves the
cell's infinity marker in place and finalizes it to zero, and the sparse
all-sources search (run through its negative-weight gate on the converted
matrix) never writes a cell whose column the source cannot reach, leaving
the zero-initialized result matrix untouched there. -/
theorem C8_unreachable_zero (N : ℕ) (m : List ℚ) (directed : Bool) (i j : ℕ)
    (hlen : m.length = N * N) (hnn : ∀ x ∈ m, 0 ≤ x)
    (hi : i < N) (hj : j < N) (hur : ¬ DReach m N directed i j) :
    (floydWarshallAlg N directed m).getD (i * N + j) 0 = 0 ∧
    dijkstraModel (denseToCSR N m) directed
      = Except.ok (dijkstraCore (denseToCSR N m) directed) ∧
    (dijkstraCore (denseToCSR N m) directed).getD (i * N + j) 0 = 0 := by
  refine ⟨fw_unreachable_zero m N directed i j hlen hi hj hur, ?_, ?_⟩
  · exact dijkstraModel_ok (denseToCSR N m) directed (denseToCSR_data_nonneg N m hnn)
  · exact dijkstraCore_zeroPres (denseToCSR N m) directed (denseToCSR_wf N m) i j hi hj
      (fun h => hur (creach_dreach N m directed i j h))

/-- C8 witness: the 2-vertex edgeless zero matrix, where vertex 1 is
unreachable from vertex 0; both algorithm results hold zero at (0, 1) and
the sparse gate passes. -/
theorem C8_unreachable_zero_witness :
    (¬ DReach [0, 0, 0, 0] 2 true 0 1) ∧
    ((floydWarshallAlg 2 true [0, 0, 0, 0]).getD (0 * 2 + 1) 0 = 0 ∧
     dijkstraModel (denseToCSR 2 [0, 0, 0, 0]) true
       = Except.ok (dijkstraCore (denseToCSR 2 [0, 0, 0, 0]) true) ∧
     (dijkstraCore (denseToCSR 2 [0, 0, 0, 0]) true).getD (0 * 2 + 1) 0 = 0) := by
  have hzall : ∀ k, (([0, 0, 0, 0] : List ℚ).getD k 0) = 0 := by
    intro k
    match k with
    | 0 => rfl
    | 1 => rfl
    | 2 => rfl
    | 3 => rfl
    | n + 4 => rfl
  have hnd : ¬ DReach [0, 0, 0, 0] 2 true 0 1 := by
    intro h
    rcases Relation.ReflTransGen.cases_head h with heq | ⟨b, hstep, _⟩
    · exact absurd heq (by decide!)
    · rcases hstep with he | ⟨hfalse, _⟩
      · exact he (hzall _)
      · exact absurd hfalse (by decide!)
  exact ⟨hnd, C8_unreachable_zero 2 [0, 0, 0, 0] true 0 1 (by decide!) (by decide!)
    (by decide!) (by decide!) hnd⟩

/-- On a clean identity-indexed arena the abbreviated state-and-value
reset produces exactly the same arena as a full re-initialization. -/
theorem reset_eq_init (s : HState) (N : ℕ) (hlen : s.nodes.length = N)
    (hidx : ∀ i, i < N → (getN s i).index = i)
    (hclean : ∀ i, i < N → cleanNode (getN s i)) :
    (List.range N).foldl (fun s i => putN s i
        (fun nd => { nd with state := 0, val := 0 })) s
      = (List.range N).foldl (fun s i => initNode s i 0) s := by
  obtain ⟨rlen, rmin, rbuck, rmem, rout⟩ :=
    foldl_reset_spec (List.range N) s (List.nodup_range N)
  obtain ⟨ilen, imin, ibuck, imem, iout⟩ :=
    foldl_initNode_spec (List.range N) s (List.nodup_range N)
  refine hstate_ext _ _ ?_ (rmin.trans imin.symm) (rbuck.trans ibuck.symm)
  apply List.ext_getElem
  · rw [rlen, ilen]
  · intro n h1 h2
    have hg : ∀ (t : HState) (hn : n < t.nodes.length), t.nodes[n] = getN t n := by
      intro t hn
      show t.nodes[n] = t.nodes.getD n default
      rw [List.getD_eq_getElem?_getD, List.getElem?_eq_getElem hn]
      rfl
    rw [hg _ h1, hg _ h2]
    have hnN : n < N := by
      rw [rlen, hlen] at h1
      exact h1
    rw [rmem n (List.mem_range.mpr hnN) (by rw [hlen]; exact hnN),
      imem n (List.mem_range.mpr hnN) (by rw [hlen]; exact hnN)]
    obtain ⟨c1, c2, c3, c4, c5⟩ := hclean n hnN
    have hx := hidx n hnN
    cases hget : getN s n with
    | mk idx rk st vl pa ls rs ch =>
      rw [hget] at c1 c2 c3 c4 c5 hx
      dsimp only at c1 c2 c3 c4 c5 hx ⊢
      rw [c1, c2, c3, c4, c5, hx]

/-- The search loop's final arena does not depend on the result matrix it
writes into. -/
theorem dijkLoop_state_indep (c cT : CSR) (useT : Bool) (src N : ℕ) :
    ∀ (fuel : ℕ) (s : HState) (row row' : List ℚ),
    (dijkLoop c cT useT src N fuel s row).1
      = (dijkLoop c cT useT src N fuel s row').1 := by
  intro fuel
  induction fuel with
  | zero =>
    intro s row row'
    rfl
  | succ f ih =>
    intro s row row'
    unfold dijkLoop
    cases hrm : removeMin s with
    | none => rfl
    | some p =>
      obtain ⟨s1, v⟩ := p
      dsimp only
      exact ih _ _ _

/-- The all-zero flat matrix trivially keeps unreached cells at zero. -/
theorem zeroPres_replicate (c : CSR) (d : Bool) (N : ℕ) :
    zeroPres c d N (List.replicate (N * N) (0 : ℚ)) := by
  intro i j _ _ _
  by_cases hlt : i * N + j < N * N
  · rw [List.getD_eq_getElem?_getD,
      List.getElem?_eq_getElem (by rw [List.length_replicate]; exact hlt)]
    simp
  · rw [List.getD_eq_default]
    rw [List.length_replicate]
    omega

/-- C10: after the undirected per-source search of _dijkstra_one_row
terminates (its heap has drained), every node of the shared arena again
has null parent, children, left-sibling and right-sibling links and rank
zero; consequently the abbreviated per-call reset — which rewrites only
each node's state and value — leaves the node array in exactly the same
configuration as a full re-initialization. -/
theorem C10_clean_reset (c cT : CSR) (src N : ℕ) (s : HState) (row : List ℚ)
    (hlen : s.nodes.length = N) (hmin : s.minN = none)
    (hidx : ∀ i, i < N → (getN s i).index = i)
    (hclean : ∀ i, i < N → cleanNode (getN s i))
    (hsrc : src < N)
    (hedge : edgeOK c c false N) (hedgeT : edgeOK cT c false N) :
    (∀ i, i < N → cleanNode (getN (undirOneRow c cT src N s row).1 i)) ∧
    (List.range N).foldl (fun s i => putN s i
        (fun nd => { nd with state := 0, val := 0 })) (undirOneRow c cT src N s row).1
      = (List.range N).foldl (fun s i => initNode s i 0)
          (undirOneRow c cT src N s row).1 := by
  obtain ⟨hrdy', _⟩ := undirOneRow_master c cT src N s (List.replicate (N * N) (0 : ℚ))
    ⟨hlen, hmin, hidx, hclean⟩ hsrc hedge hedgeT (zeroPres_replicate c false N)
  have hstate_eq : (undirOneRow c cT src N s row).1
      = (undirOneRow c cT src N s (List.replicate (N * N) (0 : ℚ))).1 := by
    unfold undirOneRow
    dsimp only
    exact dijkLoop_state_indep c cT true src N (N+1) _ row _
  rw [hstate_eq]
  exact ⟨hrdy'.clean, reset_eq_init _ N hrdy'.len hrdy'.idx hrdy'.clean⟩

/-- C10 witness: a one-vertex arena with a single self-loop edge; the
undirected row search terminates, leaves the single node clean, and the
abbreviated reset agrees with full re-initialization. -/
theorem C10_clean_reset_witness :
    ((0 < 1 ∧ edgeOK (denseToCSR 1 [5]) (denseToCSR 1 [5]) false 1) ∧
     edgeOK (transposeCSR (denseToCSR 1 [5])) (denseToCSR 1 [5]) false 1) ∧
    ((∀ i, i < 1 → cleanNode (getN (undirOneRow (denseToCSR 1 [5])
        (transposeCSR (denseToCSR 1 [5])) 0 1
        ({ nodes := [{ index := 0, rank := 0, state := 0, val := 0, parent := none, leftSib := none, rightSib := none, children := none }], minN := none, buckets := fun _ => none } : HState)
        [0]).1 i)) ∧
     (List.range 1).foldl (fun s i => putN s i
        (fun nd => { nd with state := 0, val := 0 }))
        (undirOneRow (denseToCSR 1 [5]) (transposeCSR (denseToCSR 1 [5])) 0 1
          ({ nodes := [{ index := 0, rank := 0, state := 0, val := 0, parent := none, leftSib := none, rightSib := none, children := none }], minN := none, buckets := fun _ => none } : HState)
          [0]).1
      = (List.range 1).foldl (fun s i => initNode s i 0)
          (undirOneRow (denseToCSR 1 [5]) (transposeCSR (denseToCSR 1 [5])) 0 1
            ({ nodes := [{ index := 0, rank := 0, state := 0, val := 0, parent := none, leftSib := none, rightSib := none, children := none }], minN := none, buckets := fun _ => none } : HState)
            [0]).1) :=
  ⟨⟨⟨by decide!, by unfold edgeOK cStep cEdge; decide!⟩,
      by unfold edgeOK cStep cEdge; decide!⟩,
    C10_clean_reset (denseToCSR 1 [5]) (transposeCSR (denseToCSR 1 [5])) 0 1
      ({ nodes := [{ index := 0, rank := 0, state := 0, val := 0, parent := none, leftSib := none, rightSib := none, children := none }], minN := none, buckets := fun _ => none } : HState)
      [0] (by decide!) rfl (by decide!) (by unfold cleanNode; decide!) (by decide!)
      (by unfold edgeOK cStep cEdge; decide!) (by unfold edgeOK cStep cEdge; decide!)⟩
